import Mathlib

/-!
# SkipListVS.cpp : a skip list with rank counters

Shallow embedding of `src/SkipListVS.cpp`.

* Nodes live in a heap (`Heap`), a list of cells addressed by their position; a pointer is an
  `Option Addr` (`none` is `nullptr`), `new` appends a cell, `delete` empties one.
* Every operation returns `Except Fault _`: dereferencing `nullptr` or a deleted cell, and
  `operator[]` outside a vector, are faults instead of undefined behaviour.
* Loops over the pointer structure carry a fuel argument; the public operations supply
  `heap.length`, and the theorems show that this is always enough.
* `int` keys are the type `CInt` (32-bit range).  The counters `elementCount`, `Node.count` are
  mathematical integers: the development does not model signed overflow of a counter, which
  needs 2^31 increments.
* `std::rand()` is a fixed stream `rnd : Nat → Bool` (`rnd c` tells whether the draw number `c`
  fell below `probability`); the state records how many draws were consumed.
-/

namespace SkipListVS

/-! ## Data model -/

/-- A C++ `int`: a 32-bit two's complement integer. -/
abbrev CInt := {n : Int // -2147483648 ≤ n ∧ n ≤ 2147483647}

/-- Value of `std::numeric_limits<int>::min()`. -/
def INT_MIN : CInt := ⟨-2147483648, by decide⟩

/-- Value of `std::numeric_limits<int>::max()`. -/
def INT_MAX : CInt := ⟨2147483647, by decide⟩

/-- Heap address of a node. -/
abbrev Addr := Nat

/-- Run-time faults (undefined behaviour in the C++ program), and fuel exhaustion. -/
inductive Fault where
  | nullDeref
  | invalidPointer
  | outOfRange
  | outOfFuel
deriving DecidableEq, Repr

/-- The `struct Node`: `forward` is the vector of successor pointers. -/
structure Node where
  key : CInt
  value : String
  count : Int
  forward : List (Option Addr)
deriving DecidableEq, Repr

/-- The constructor `Node(k, v, level)`: `level` null links, `count` 0. -/
def Node.new (k : CInt) (v : String) (level : Nat) : Node :=
  { key := k, value := v, count := 0, forward := List.replicate level none }

/-- The heap: cell `a` holds the node at address `a`, or `none` once deleted. -/
abbrev Heap := List (Option Node)

/-- The node stored at an address, if the cell is allocated. -/
def Heap.read (h : Heap) (a : Addr) : Option Node :=
  match h[a]? with
  | some (some n) => some n
  | _ => none

/-- Store a node at an (allocated) address. -/
def Heap.write (h : Heap) (a : Addr) (n : Node) : Heap := h.set a (some n)

/-- The effect of `delete` on the heap. -/
def Heap.free (h : Heap) (a : Addr) : Heap := h.set a none

/-- The effect of `new Node(..)`: the new heap and the fresh address. -/
def Heap.alloc (h : Heap) (n : Node) : Heap × Addr := (h ++ [some n], h.length)

/-- The static member `makeNode`: `new Node(key, val, level)`. -/
def makeNode (h : Heap) (key : CInt) (val : String) (level : Nat) : Heap × Addr :=
  h.alloc (Node.new key val level)

/-- Dereference a pointer. -/
def Heap.deref (h : Heap) : Option Addr → Except Fault Node
  | none => .error .nullDeref
  | some a =>
    match h.read a with
    | some n => .ok n
    | none => .error .invalidPointer

/-- Evaluate `v->forward[i]`. -/
def Node.fwd (n : Node) (i : Nat) : Except Fault (Option Addr) :=
  match n.forward[i]? with
  | some p => .ok p
  | none => .error .outOfRange

/-- Evaluate `vec[i]` on a vector of node pointers. -/
def vecGet (vec : List (Option Addr)) (i : Nat) : Except Fault (Option Addr) :=
  match vec[i]? with
  | some p => .ok p
  | none => .error .outOfRange

/-- A non-null pointer as an address. -/
def ptrAddr : Option Addr → Except Fault Addr
  | none => .error .nullDeref
  | some a => .ok a

/-- The constant `maxLevel(16)` of the constructor. -/
def maxLevel : Nat := 16

/-- The static member `nodeLevel`: `v->forward.size()`. -/
def nodeLevel (v : Node) : Nat := v.forward.length

/-- The `class SkipList` object together with the heap it owns and the number of `std::rand()`
calls made so far. -/
structure SkipList where
  heap : Heap
  head : Addr
  NIL : Addr
  elementCount : Int
  randCalls : Nat
deriving DecidableEq, Repr

/-- The constructor `SkipList::SkipList()`: head at address 0, NIL at address 1, every forward
link of head set to NIL. -/
def SkipList.new (randCalls : Nat) : SkipList :=
  let headNode := Node.new INT_MIN "head" maxLevel
  let (h0, head) := Heap.alloc [] headNode
  let nilNode := Node.new INT_MAX "NIL" maxLevel
  let (h1, nil) := Heap.alloc h0 nilNode
  let h2 := h1.write head { headNode with forward := headNode.forward.map fun _ => some nil }
  { heap := h2, head := head, NIL := nil, elementCount := 0, randCalls := randCalls }

/-! ## Traversals -/

/-- The inner loop `while (x->forward[i]->key < searchKey) x = x->forward[i];`. -/
def advance (h : Heap) (searchKey : CInt) (i : Nat) : Nat → Addr → Except Fault Addr
  | 0, _ => .error .outOfFuel
  | fuel + 1, x => do
    let nx ← h.deref (some x)
    let p ← nx.fwd i
    let ny ← h.deref p
    if ny.key.val < searchKey.val then
      let y ← ptrAddr p
      advance h searchKey i fuel y
    else
      pure x

/-- The level loop of `lower_bound`: `for (unsigned int i = nodeLevel(head); i-- > 0;)`. -/
def lowerBoundLoop (h : Heap) (searchKey : CInt) (fuel : Nat) : Nat → Addr → Except Fault Addr
  | 0, x => pure x
  | i + 1, x => do
    let x' ← advance h searchKey i fuel x
    lowerBoundLoop h searchKey fuel i x'

/-- The member `SkipList::lower_bound`. -/
def lower_bound (s : SkipList) (searchKey : CInt) : Except Fault (Option Addr) := do
  let hd ← s.heap.deref (some s.head)
  let x ← lowerBoundLoop s.heap searchKey s.heap.length (nodeLevel hd) s.head
  let nx ← s.heap.deref (some x)
  nx.fwd 0

/-- The level loop of `predecessors`, storing `result[i] = x` after each level. -/
def predecessorsLoop (h : Heap) (searchKey : CInt) (fuel : Nat) :
    Nat → Addr → List (Option Addr) → Except Fault (List (Option Addr))
  | 0, _, result => pure result
  | i + 1, x, result => do
    let x' ← advance h searchKey i fuel x
    predecessorsLoop h searchKey fuel i x' (result.set i (some x'))

/-- The member `SkipList::predecessors`. -/
def predecessors (s : SkipList) (searchKey : CInt) : Except Fault (List (Option Addr)) := do
  let hd ← s.heap.deref (some s.head)
  predecessorsLoop s.heap searchKey s.heap.length (nodeLevel hd) s.head
    (List.replicate (nodeLevel hd) none)

/-- The inner loop of `predecessorsIncrementCount`:
`while (x->forward[i]->key < searchKey) { x->count++; x = x->forward[i]; }`. -/
def advanceInc (searchKey : CInt) (i : Nat) : Nat → Heap → Addr → Except Fault (Heap × Addr)
  | 0, _, _ => .error .outOfFuel
  | fuel + 1, h, x => do
    let nx ← h.deref (some x)
    let p ← nx.fwd i
    let ny ← h.deref p
    if ny.key.val < searchKey.val then
      let h' := h.write x { nx with count := nx.count + 1 }
      let y ← ptrAddr p
      advanceInc searchKey i fuel h' y
    else
      pure (h, x)

/-- The level loop of `predecessorsIncrementCount`. -/
def predecessorsIncLoop (searchKey : CInt) (fuel : Nat) :
    Nat → Heap → Addr → List (Option Addr) → Except Fault (Heap × List (Option Addr))
  | 0, h, _, result => pure (h, result)
  | i + 1, h, x, result => do
    let (h', x') ← advanceInc searchKey i fuel h x
    predecessorsIncLoop searchKey fuel i h' x' (result.set i (some x'))

/-- The member `SkipList::predecessorsIncrementCount`; the final `result[0]->count++` included. -/
def predecessorsIncrementCount (s : SkipList) (searchKey : CInt) :
    Except Fault (Heap × List (Option Addr)) := do
  let hd ← s.heap.deref (some s.head)
  let (h, result) ← predecessorsIncLoop searchKey s.heap.length (nodeLevel hd) s.heap s.head
    (List.replicate (nodeLevel hd) none)
  let r0 ← vecGet result 0
  let n0 ← h.deref r0
  let a0 ← ptrAddr r0
  pure (h.write a0 { n0 with count := n0.count + 1 }, result)

/-! ## Level generation -/

/-- The loop of `randomLevel`: `while (rand()/RAND_MAX < probability && v < maxLevel) v++;`.
Every evaluation of the condition consumes one draw. Returns `v` and the draws consumed. -/
def randomLevelLoop (rnd : Nat → Bool) : Nat → Nat → Nat → Nat × Nat
  | 0, v, c => (v, c)
  | fuel + 1, v, c =>
    if rnd c && decide (v < maxLevel) then randomLevelLoop rnd fuel (v + 1) (c + 1)
    else (v, c + 1)

/-- The member `SkipList::randomLevel`, from draw number `c` on. -/
def randomLevel (rnd : Nat → Bool) (c : Nat) : Nat × Nat :=
  randomLevelLoop rnd maxLevel 1 c

/-! ## Public operations -/

/-- The node whose value `find` points to: `lower_bound`, then the test
`x->key == searchKey && x != NIL`. -/
def findNode (s : SkipList) (searchKey : CInt) : Except Fault (Option Addr) := do
  let x ← lower_bound s searchKey
  match x with
  | none => pure none
  | some a =>
    let nx ← s.heap.deref (some a)
    if nx.key = searchKey ∧ a ≠ s.NIL then pure (some a) else pure none

/-- The member `SkipList::find`; the result is the string pointed to, `none` for `nullptr`. -/
def find (s : SkipList) (searchKey : CInt) : Except Fault (Option String) := do
  match ← findNode s searchKey with
  | none => pure none
  | some a =>
    let nx ← s.heap.deref (some a)
    pure (some nx.value)

/-- The loop of `print`: one `(value, key, level)` triple per node from `list` up to NIL. -/
def printLoop (h : Heap) (nil : Addr) :
    Nat → Option Addr → Except Fault (List (String × CInt × Nat))
  | 0, _ => .error .outOfFuel
  | fuel + 1, list =>
    if list = some nil then pure []
    else do
      let n ← h.deref list
      let next ← n.fwd 0
      let rest ← printLoop h nil fuel next
      pure ((n.value, n.key, nodeLevel n) :: rest)

/-- The member `SkipList::print`, as the sequence of triples it writes. -/
def print (s : SkipList) : Except Fault (List (String × CInt × Nat)) := do
  let hd ← s.heap.deref (some s.head)
  let list ← hd.fwd 0
  printLoop s.heap s.NIL (s.heap.length + 1) list

/-- The splice loop of `insert`, from level `i`, for `n` more levels. -/
def linkLoop (preds : List (Option Addr)) (newNodePtr : Addr) :
    Nat → Nat → Heap → Except Fault Heap
  | 0, _, h => pure h
  | n + 1, i, h => do
    -- newNodePtr->forward[i] = preds[i]->forward[i];
    let p ← vecGet preds i
    let np ← h.deref p
    let f ← np.fwd i
    let nn ← h.deref (some newNodePtr)
    let _ ← nn.fwd i
    let h1 := h.write newNodePtr { nn with forward := nn.forward.set i f }
    -- preds[i]->forward[i] = newNodePtr;
    let np1 ← h1.deref p
    let _ ← np1.fwd i
    let pa ← ptrAddr p
    let h2 := h1.write pa { np1 with forward := np1.forward.set i (some newNodePtr) }
    -- newNodePtr->count = preds[i]->count;
    let np2 ← h2.deref p
    let nn2 ← h2.deref (some newNodePtr)
    let h3 := h2.write newNodePtr { nn2 with count := np2.count }
    linkLoop preds newNodePtr n (i + 1) h3

/-- The member `SkipList::insert`. -/
def insert (rnd : Nat → Bool) (s : SkipList) (searchKey : CInt) (newValue : String) :
    Except Fault SkipList := do
  let preds ← predecessors s searchKey
  let p0 ← vecGet preds 0
  let n0 ← s.heap.deref p0
  let next ← n0.fwd 0
  let nn ← s.heap.deref next
  if nn.key = searchKey ∧ next ≠ some s.NIL then
    let a ← ptrAddr next
    pure { s with heap := s.heap.write a { nn with value := newValue } }
  else
    let (h1, preds) ← predecessorsIncrementCount s searchKey
    let (newNodeLevel, calls) := randomLevel rnd s.randCalls
    let (h2, newNodePtr) := makeNode h1 searchKey newValue newNodeLevel
    let h3 ← linkLoop preds newNodePtr newNodeLevel 0 h2
    pure { s with heap := h3, elementCount := s.elementCount + 1, randCalls := calls }

/-- The unlink loop of `erase`, from level `i`, for `n` more levels:
`preds[i]->forward[i] = node->forward[i];`. -/
def unlinkLoop (preds : List (Option Addr)) (node : Addr) :
    Nat → Nat → Heap → Except Fault Heap
  | 0, _, h => pure h
  | n + 1, i, h => do
    let nd ← h.deref (some node)
    let f ← nd.fwd i
    let p ← vecGet preds i
    let np ← h.deref p
    let _ ← np.fwd i
    let pa ← ptrAddr p
    unlinkLoop preds node n (i + 1) (h.write pa { np with forward := np.forward.set i f })

/-- The member `SkipList::erase`. -/
def erase (s : SkipList) (searchKey : CInt) : Except Fault SkipList := do
  let preds ← predecessors s searchKey
  let p0 ← vecGet preds 0
  let n0 ← s.heap.deref p0
  let node ← n0.fwd 0
  let nd ← s.heap.deref node
  if nd.key ≠ searchKey ∨ node = some s.NIL then
    pure s
  else
    let a ← ptrAddr node
    let h1 ← unlinkLoop preds a (nodeLevel nd) 0 s.heap
    pure { s with heap := h1.free a, elementCount := s.elementCount - 1 }

/-- The inner loop of `at`: advance while the successor's count is at least `targetCount` and its
value is not the string "NIL"; the flag is `fullBreak`. -/
def atAdvance (h : Heap) (targetCount : Int) (i : Nat) : Nat → Addr → Except Fault (Addr × Bool)
  | 0, _ => .error .outOfFuel
  | fuel + 1, x => do
    let nx ← h.deref (some x)
    let p ← nx.fwd i
    let ny ← h.deref p
    if ny.count ≥ targetCount ∧ ny.value ≠ "NIL" then
      if ny.count = targetCount then pure (x, true)
      else
        let y ← ptrAddr p
        atAdvance h targetCount i fuel y
    else
      pure (x, false)

/-- The level loop of `at`, `for (i = nodeLevel(head); !fullBreak && i-- > 0;)`; returns `x`,
the final value of the `unsigned int i` and `fullBreak`. When the loop runs to its end the last
`i--` wraps `i` around to `2^32 - 1`. -/
def atLoop (h : Heap) (targetCount : Int) (fuel : Nat) :
    Nat → Addr → Except Fault (Addr × Nat × Bool)
  | 0, x => pure (x, (0 + 4294967296 - 1) % 4294967296, false)
  | i + 1, x => do
    let (x', fullBreak) ← atAdvance h targetCount i fuel x
    if fullBreak then pure (x', i, true)
    else atLoop h targetCount fuel i x'

/-- The node whose value `at` points to, `none` for `nullptr`. -/
def atNode (s : SkipList) (index : Int) : Except Fault (Option Addr) := do
  let targetCount := s.elementCount - index
  let hd ← s.heap.deref (some s.head)
  let (x, i, _) ← atLoop s.heap targetCount s.heap.length (nodeLevel hd) s.head
  let nx ← s.heap.deref (some x)
  let p ← nx.fwd i
  let ny ← s.heap.deref p
  if ny.count = targetCount then pure p else pure none

/-- The member `SkipList::at`; the result is the string pointed to, `none` for `nullptr`. -/
def «at» (s : SkipList) (index : Int) : Except Fault (Option String) := do
  match ← atNode s index with
  | none => pure none
  | some a =>
    let nx ← s.heap.deref (some a)
    pure (some nx.value)

/-! ## Sequences of operations -/

/-- A call of a mutating member function. -/
inductive Op where
  | insert (searchKey : CInt) (newValue : String)
  | erase (searchKey : CInt)
deriving DecidableEq, Repr

/-- Perform one call. -/
def step (rnd : Nat → Bool) (s : SkipList) : Op → Except Fault SkipList
  | .insert k v => insert rnd s k v
  | .erase k => erase s k

/-- Perform a sequence of calls, left to right. -/
def run (rnd : Nat → Bool) : List Op → SkipList → Except Fault SkipList
  | [], s => pure s
  | op :: ops, s => do
    let s' ← step rnd s op
    run rnd ops s'

/-! ## Vocabulary of the proofs: views of the heap, invariants, the reference model -/

/-- Number of forward links of the node at `a` (0 when the cell is not allocated). -/
def levelAt (h : Heap) (a : Addr) : Nat :=
  match h.read a with
  | some n => n.forward.length
  | none => 0

/-- Key of the node at `a`. -/
def keyAt (h : Heap) (a : Addr) : Int :=
  match h.read a with
  | some n => n.key.val
  | none => 0

/-- Value of the node at `a`. -/
def valueAt (h : Heap) (a : Addr) : String :=
  match h.read a with
  | some n => n.value
  | none => ""

/-- Rank counter of the node at `a`. -/
def countAt (h : Heap) (a : Addr) : Int :=
  match h.read a with
  | some n => n.count
  | none => 0

/-- The link `forward[i]` of the node at `a`, when it exists and is not null. -/
def fwdAt (h : Heap) (a : Addr) (i : Nat) : Option Addr :=
  match h.read a with
  | some n =>
    match n.forward[i]? with
    | some p => p
    | none => none
  | none => none

/-- First address of the list whose node has more than `i` links; `nil` when there is none. -/
def nextAt (h : Heap) (nil : Addr) (i : Nat) : List Addr → Addr
  | [] => nil
  | a :: rest => if i < levelAt h a then a else nextAt h nil i rest

/-- Last address of `x :: l` whose node has more than `i` links (`x` when there is none). -/
def lastAbove (h : Heap) (i : Nat) : Addr → List Addr → Addr
  | x, [] => x
  | x, a :: rest => if i < levelAt h a then lastAbove h i a rest else lastAbove h i x rest

/-- Every node of the list links, on each of its levels `i`, to the next node of the list that
has more than `i` links, and to `nil` when there is none. -/
def LinkedL (h : Heap) (nil : Addr) : List Addr → Prop
  | [] => True
  | a :: rest =>
    (∀ i, i < levelAt h a → fwdAt h a i = some (nextAt h nil i rest)) ∧ LinkedL h nil rest

/-- The representation invariant: `as` is the list of addresses of the live nodes, in the
order of the level-0 chain. -/
structure Inv (s : SkipList) (as : List Addr) : Prop where
  head_ne_nil : s.head ≠ s.NIL
  head_not_mem : s.head ∉ as
  nil_not_mem : s.NIL ∉ as
  head_level : levelAt s.heap s.head = maxLevel
  head_node : ∃ n, s.heap.read s.head = some n ∧ n.key = INT_MIN ∧ n.value = "head"
  nil_node : s.heap.read s.NIL = some (Node.new INT_MAX "NIL" maxLevel)
  level_pos : ∀ a ∈ as, 1 ≤ levelAt s.heap a
  level_le : ∀ a ∈ as, levelAt s.heap a ≤ maxLevel
  sorted : as.Pairwise fun a b => keyAt s.heap a < keyAt s.heap b
  linked : LinkedL s.heap s.NIL (s.head :: as)
  count_eq : s.elementCount = as.length

/-- The key/value pairs held by the live nodes, in list order. -/
def content (h : Heap) (as : List Addr) : List (Int × String) :=
  as.map fun a => (keyAt h a, valueAt h a)

/-- What a search for `k` needs of the heap: the live nodes are `pre ++ post`, linked from
`head` to `nil`, the keys of `pre` are below `k` and the other keys, `nil` included, are not. -/
structure Split (h : Heap) (head nil : Addr) (k : CInt) (pre post : List Addr) : Prop where
  linked : LinkedL h nil (head :: (pre ++ post))
  head_level : levelAt h head = maxLevel
  nil_key : ∃ n, h.read nil = some n ∧ k.val ≤ n.key.val
  pre_lt : ∀ a ∈ pre, keyAt h a < k.val
  post_ge : ∀ a ∈ post, k.val ≤ keyAt h a
  level_pos : ∀ a ∈ pre ++ post, 1 ≤ levelAt h a

/-- The level-`i` predecessor of the search position: the last node of `head :: pre` with more
than `i` links. -/
def predAt (h : Heap) (head : Addr) (pre : List Addr) (i : Nat) : Addr :=
  lastAbove h i head pre

/-- The value bound to a key in a list of key/value pairs (the first such pair). -/
def lookupKey (k : Int) : List (Int × String) → Option String
  | [] => none
  | (k', v) :: rest => if k' = k then some v else lookupKey k rest

/-- The node a search for `k` ends on: the first node of `post` when it carries the key. -/
def hit (h : Heap) (k : CInt) : List Addr → Option Addr
  | [] => none
  | a :: _ => if keyAt h a = k.val then some a else none

/-- Heap `h'` differs from `h` at most in the `count` of nodes that satisfy `P`. -/
def CountEqOn (P : Addr → Prop) (h h' : Heap) : Prop :=
  h'.length = h.length ∧ (∀ a, ¬ P a → h'.read a = h.read a) ∧
    ∀ a, ∃ c : Int, h'.read a = (h.read a).map fun n => { n with count := c }

/-- The nodes whose counter a search for `k` may increment. -/
def Touched (s : SkipList) (k : CInt) (a : Addr) : Prop :=
  a = s.head ∨ ∃ n, s.heap.read a = some n ∧ n.key.val < k.val

/-- The heap after one round of the splice loop at level `i`, where `p` is `preds[i]` with node
`np`, `nn` is the new node and `f` is `p->forward[i]`. -/
def linkHeap (h : Heap) (new p : Addr) (i : Nat) (np nn : Node) (f : Option Addr) : Heap :=
  ((h.write new { nn with forward := nn.forward.set i f }).write p
    { np with forward := np.forward.set i (some new) }).write new
    { nn with forward := nn.forward.set i f, count := np.count }

/-- State of the heap in the splice loop of `insert` before level `i`, relative to the heap
`h0` at loop entry: `P j` is `preds[j]`. -/
structure Linking (h0 : Heap) (new : Addr) (P : Nat → Addr) (i : Nat) (h : Heap) : Prop where
  len : h.length = h0.length
  lev : ∀ a, levelAt h a = levelAt h0 a
  key : ∀ a, keyAt h a = keyAt h0 a
  val : ∀ a, valueAt h a = valueAt h0 a
  untouched : ∀ a, a ≠ new → (∀ j, j < i → a ≠ P j) → h.read a = h0.read a
  fwd_old : ∀ a j, a ≠ new → fwdAt h a j = if j < i ∧ a = P j then some new else fwdAt h0 a j
  fwd_new : ∀ j, fwdAt h new j = if j < i then fwdAt h0 (P j) j else fwdAt h0 new j
  cnt_old : ∀ a, a ≠ new → countAt h a = countAt h0 a
  cnt_new : countAt h new = if i = 0 then countAt h0 new else countAt h0 (P (i - 1))

/-- What `insert` of a key that is not stored does to a well-formed state: the new node, at the
fresh address `s.heap.length`, goes between `pre` and `post`. -/
structure InsertedNew (rnd : Nat → Bool) (s s' : SkipList) (k : CInt) (v : String)
    (pre post : List Addr) : Prop where
  inv : Inv s' (pre ++ s.heap.length :: post)
  head_eq : s'.head = s.head
  nil_eq : s'.NIL = s.NIL
  rand : s'.randCalls = (randomLevel rnd s.randCalls).2
  count : s'.elementCount = s.elementCount + 1
  length : s'.heap.length = s.heap.length + 1
  old_key : ∀ a, a ≠ s.heap.length → keyAt s'.heap a = keyAt s.heap a
  old_value : ∀ a, a ≠ s.heap.length → valueAt s'.heap a = valueAt s.heap a
  old_level : ∀ a, a ≠ s.heap.length → levelAt s'.heap a = levelAt s.heap a
  new_key : keyAt s'.heap s.heap.length = k.val
  new_value : valueAt s'.heap s.heap.length = v
  new_level : levelAt s'.heap s.heap.length = (randomLevel rnd s.randCalls).1
  counts : ∃ h1 preds, predecessorsIncrementCount s k = .ok (h1, preds) ∧
    (∀ a, a ≠ s.heap.length → countAt s'.heap a = countAt h1 a) ∧
    countAt s'.heap s.heap.length =
      countAt h1 (predAt s.heap s.head pre ((randomLevel rnd s.randCalls).1 - 1))

/-- State of the heap in the unlink loop of `erase` before level `i`, relative to the heap
`h0` at loop entry: `P j` is `preds[j]`. -/
structure Unlinking (h0 : Heap) (node : Addr) (P : Nat → Addr) (i : Nat) (h : Heap) : Prop where
  len : h.length = h0.length
  lev : ∀ a, levelAt h a = levelAt h0 a
  key : ∀ a, keyAt h a = keyAt h0 a
  val : ∀ a, valueAt h a = valueAt h0 a
  cnt : ∀ a, countAt h a = countAt h0 a
  untouched : ∀ a, (∀ j, j < i → a ≠ P j) → h.read a = h0.read a
  fwd : ∀ a j, fwdAt h a j = if j < i ∧ a = P j then fwdAt h0 node j else fwdAt h0 a j

/-- What `erase` of a stored key does to a well-formed state: the node `a` that carries the
key leaves the list and its cell is released. -/
structure Erased (s s' : SkipList) (a : Addr) (pre post : List Addr) : Prop where
  inv : Inv s' (pre ++ post)
  head_eq : s'.head = s.head
  nil_eq : s'.NIL = s.NIL
  rand : s'.randCalls = s.randCalls
  count : s'.elementCount = s.elementCount - 1
  length : s'.heap.length = s.heap.length
  old_key : ∀ b, b ≠ a → keyAt s'.heap b = keyAt s.heap b
  old_value : ∀ b, b ≠ a → valueAt s'.heap b = valueAt s.heap b
  old_level : ∀ b, b ≠ a → levelAt s'.heap b = levelAt s.heap b
  old_count : ∀ b, b ≠ a → countAt s'.heap b = countAt s.heap b
  freed : s'.heap.read a = none

/-- Insertion into the model: the pairs below `k`, the new pair, the pairs above `k`. -/
def mInsert (k : Int) (v : String) (L : List (Int × String)) : List (Int × String) :=
  L.filter (fun p => decide (p.1 < k)) ++ (k, v) :: L.filter (fun p => decide (k < p.1))

/-- Deletion from the model. -/
def mErase (k : Int) (L : List (Int × String)) : List (Int × String) :=
  L.filter (fun p => decide (p.1 ≠ k))

/-- One call on the model. -/
def mStep (L : List (Int × String)) : Op → List (Int × String)
  | .insert k v => mInsert k.val v L
  | .erase k => mErase k.val L

/-- A sequence of calls on the model. -/
def mRun : List Op → List (Int × String) → List (Int × String)
  | [], L => L
  | op :: ops, L => mRun ops (mStep L op)

/-- A state is reachable when some sequence of `insert` and `erase` calls on a freshly
constructed list (at any state of the random generator) ends in it. -/
def Reachable (rnd : Nat → Bool) (s : SkipList) : Prop :=
  ∃ c ops, run rnd ops (SkipList.new c) = .ok s

/-- The state after a sequence of calls on a fresh list (the fresh list if a call faults). -/
def stateAfter (rnd : Nat → Bool) (ops : List Op) : SkipList :=
  match run rnd ops (SkipList.new 0) with
  | .ok s => s
  | .error _ => SkipList.new 0

/-- Conversion of an integer to `int` (two's complement wrap-around). -/
def CInt.ofInt (z : Int) : CInt :=
  ⟨(z + 2147483648) % 4294967296 - 2147483648, by omega⟩

/-- The calls of `main` before `print`: keys 2500000 down to 1 with the empty string, then
`(90, "90")` and `(91, "91")`. -/
def mainOps : List Op :=
  (List.range 2500000).reverse.map (fun i : Nat => Op.insert (CInt.ofInt ((i : Int) + 1)) "") ++
    [Op.insert (CInt.ofInt 90) "90", Op.insert (CInt.ofInt 91) "91"]

/-- The rank counters after inserts that each put their key in front: the count of a node is
its distance to the end of the list, no value is the string "NIL". -/
structure RankInv (s : SkipList) (as : List Addr) : Prop where
  inv : Inv s as
  head_count : countAt s.heap s.head = as.length
  counts : ∀ l1 a l2, as = l1 ++ a :: l2 → countAt s.heap a = (l2.length : Int) + 1
  values : ∀ a ∈ as, valueAt s.heap a ≠ "NIL"

/-- What the walk of `at` needs: the live nodes are `front ++ t :: back`, the counters of
`front` are above the target, the counter of `t` is the target, the others are below, and no
value up to `t` is the string "NIL". -/
structure RankSplit (h : Heap) (head nil : Addr) (target : Int) (front : List Addr) (t : Addr)
    (back : List Addr) : Prop where
  linked : LinkedL h nil (head :: (front ++ t :: back))
  head_level : levelAt h head = maxLevel
  nil_count : ∃ n, h.read nil = some n ∧ n.count < target
  level_pos : ∀ a ∈ front ++ t :: back, 1 ≤ levelAt h a
  level_le : ∀ a ∈ front ++ t :: back, levelAt h a ≤ maxLevel
  front_gt : ∀ a ∈ front, target < countAt h a ∧ valueAt h a ≠ "NIL"
  target_eq : countAt h t = target ∧ valueAt h t ≠ "NIL"
  back_lt : ∀ a ∈ back, countAt h a < target

/-! ## Vocabulary of the later claims: level chains, leading successes, the reference map -/

/-- The walk along `forward[i]` from the node pointed to by `p` up to the tail `nil`, as the loop
of `print` does on level 0: the addresses of the nodes met, the tail excluded. -/
def chainFrom (h : Heap) (nil : Addr) (i : Nat) : Nat → Option Addr → Except Fault (List Addr)
  | 0, _ => .error .outOfFuel
  | fuel + 1, p => do
    let a ← ptrAddr p
    if a = nil then pure []
    else
      let n ← h.deref (some a)
      let next ← n.fwd i
      let rest ← chainFrom h nil i fuel next
      pure (a :: rest)

/-- The level-`i` chain of the list: the nodes met from `head->forward[i]` by following
`forward[i]` up to the tail. -/
def levelChain (s : SkipList) (i : Nat) : Except Fault (List Addr) := do
  let hd ← s.heap.deref (some s.head)
  let p ← hd.fwd i
  chainFrom s.heap s.NIL i (s.heap.length + 1) p

/-- The number of leading draws below `probability` among the `n` draws from number `c` on. -/
def leadingSuccesses (rnd : Nat → Bool) : Nat → Nat → Nat
  | _, 0 => 0
  | c, n + 1 => if rnd c then 1 + leadingSuccesses rnd (c + 1) n else 0

/-- The reference finite map from keys to values. -/
abbrev RefMap := AList fun _ : Int => String

/-- One call on the reference map: `insert` sets the key, `erase` deletes it. -/
def refStep (m : RefMap) : Op → RefMap
  | .insert k v => m.insert k.val v
  | .erase k => m.erase k.val

/-- The reference map built by a sequence of calls from the empty map. -/
def refRun (ops : List Op) : RefMap := ops.foldl refStep ∅

/-! # Theorems -/

/-! ## Basic facts: the error monad and the heap -/

@[simp] theorem ok_bind {ε α β : Type} (a : α) (f : α → Except ε β) :
    (Except.ok a >>= f) = f a := rfl

@[simp] theorem error_bind {ε α β : Type} (e : ε) (f : α → Except ε β) :
    (Except.error e >>= f) = Except.error e := rfl

@[simp] theorem pure_eq_ok {ε α : Type} (a : α) : (pure a : Except ε α) = Except.ok a := rfl

theorem Heap.read_lt {h : Heap} {a : Addr} {n : Node} (hr : h.read a = some n) :
    a < h.length := by
  unfold Heap.read at hr
  by_contra hc
  rw [List.getElem?_eq_none (Nat.le_of_not_lt hc)] at hr
  simp at hr

theorem Heap.read_write (h : Heap) (a b : Addr) (n : Node) :
    (h.write a n).read b = if a = b ∧ a < h.length then some n else h.read b := by
  unfold Heap.read Heap.write
  rw [List.getElem?_set]
  by_cases hab : a = b
  · subst hab
    by_cases hl : a < h.length
    · simp [hl]
    · simp [hl, List.getElem?_eq_none (Nat.le_of_not_lt hl)]
  · simp [hab]

theorem Heap.read_write_same {h : Heap} {a : Addr} {m : Node} (n : Node)
    (hr : h.read a = some m) : (h.write a n).read a = some n := by
  rw [Heap.read_write]; simp [Heap.read_lt hr]

theorem Heap.read_write_ne {h : Heap} {a b : Addr} (n : Node) (hab : a ≠ b) :
    (h.write a n).read b = h.read b := by
  rw [Heap.read_write]; simp [hab]

@[simp] theorem Heap.length_write (h : Heap) (a : Addr) (n : Node) :
    (h.write a n).length = h.length := by
  simp [Heap.write]

@[simp] theorem Heap.length_free (h : Heap) (a : Addr) : (h.free a).length = h.length := by
  simp [Heap.free]

theorem Heap.read_free (h : Heap) (a b : Addr) :
    (h.free a).read b = if a = b then none else h.read b := by
  unfold Heap.read Heap.free
  rw [List.getElem?_set]
  by_cases hab : a = b
  · subst hab
    by_cases hl : a < h.length
    · simp [hl]
    · simp [hl, List.getElem?_eq_none (Nat.le_of_not_lt hl)]
  · simp [hab]

theorem Heap.read_alloc (h : Heap) (n : Node) (b : Addr) :
    (h.alloc n).1.read b = if b = h.length then some n else h.read b := by
  unfold Heap.read Heap.alloc
  by_cases hb : b = h.length
  · subst hb; simp
  · simp only [hb, if_false]
    rcases Nat.lt_or_gt_of_ne hb with hlt | hgt
    · rw [List.getElem?_append_left hlt]
    · rw [List.getElem?_eq_none (by simp; omega), List.getElem?_eq_none (by omega)]

theorem Heap.read_length (h : Heap) : h.read h.length = none := by
  unfold Heap.read
  rw [List.getElem?_eq_none (Nat.le_refl _)]

theorem Heap.deref_some {h : Heap} {a : Addr} {n : Node} (hr : h.read a = some n) :
    h.deref (some a) = .ok n := by
  simp [Heap.deref, hr]

theorem Node.fwd_ok {n : Node} {i : Nat} {p : Option Addr} (hf : n.forward[i]? = some p) :
    n.fwd i = .ok p := by
  simp [Node.fwd, hf]

theorem levelAt_pos_read {h : Heap} {a : Addr} (hl : 0 < levelAt h a) :
    ∃ n, h.read a = some n ∧ n.forward.length = levelAt h a := by
  unfold levelAt at hl ⊢
  cases hr : h.read a with
  | none => simp [hr] at hl
  | some n => exact ⟨n, rfl, rfl⟩

theorem levelAt_of_read {h : Heap} {a : Addr} {n : Node} (hr : h.read a = some n) :
    levelAt h a = n.forward.length := by
  simp [levelAt, hr]

theorem keyAt_of_read {h : Heap} {a : Addr} {n : Node} (hr : h.read a = some n) :
    keyAt h a = n.key.val := by
  simp [keyAt, hr]

theorem valueAt_of_read {h : Heap} {a : Addr} {n : Node} (hr : h.read a = some n) :
    valueAt h a = n.value := by
  simp [valueAt, hr]

theorem countAt_of_read {h : Heap} {a : Addr} {n : Node} (hr : h.read a = some n) :
    countAt h a = n.count := by
  simp [countAt, hr]

theorem fwdAt_some_read {h : Heap} {a b : Addr} {i : Nat} {n : Node}
    (hr : h.read a = some n) (hf : fwdAt h a i = some b) : n.forward[i]? = some (some b) := by
  unfold fwdAt at hf
  rw [hr] at hf
  cases hg : n.forward[i]? with
  | none => simp [hg] at hf
  | some p => simp [hg] at hf; rw [hf]

/-! ## Accessors after a write -/

theorem levelAt_write {h : Heap} {a : Addr} {m : Node} (hr : h.read a = some m) (n : Node)
    (b : Addr) : levelAt (h.write a n) b = if a = b then n.forward.length else levelAt h b := by
  unfold levelAt
  rw [Heap.read_write]
  by_cases hab : a = b
  · subst hab; simp [Heap.read_lt hr]
  · simp [hab]

theorem keyAt_write {h : Heap} {a : Addr} {m : Node} (hr : h.read a = some m) (n : Node)
    (b : Addr) : keyAt (h.write a n) b = if a = b then n.key.val else keyAt h b := by
  unfold keyAt
  rw [Heap.read_write]
  by_cases hab : a = b
  · subst hab; simp [Heap.read_lt hr]
  · simp [hab]

theorem valueAt_write {h : Heap} {a : Addr} {m : Node} (hr : h.read a = some m) (n : Node)
    (b : Addr) : valueAt (h.write a n) b = if a = b then n.value else valueAt h b := by
  unfold valueAt
  rw [Heap.read_write]
  by_cases hab : a = b
  · subst hab; simp [Heap.read_lt hr]
  · simp [hab]

theorem countAt_write {h : Heap} {a : Addr} {m : Node} (hr : h.read a = some m) (n : Node)
    (b : Addr) : countAt (h.write a n) b = if a = b then n.count else countAt h b := by
  unfold countAt
  rw [Heap.read_write]
  by_cases hab : a = b
  · subst hab; simp [Heap.read_lt hr]
  · simp [hab]

theorem fwdAt_write {h : Heap} {a : Addr} {m : Node} (hr : h.read a = some m) (n : Node)
    (b : Addr) (j : Nat) :
    fwdAt (h.write a n) b j =
      if a = b then (match n.forward[j]? with | some p => p | none => none) else fwdAt h b j := by
  unfold fwdAt
  rw [Heap.read_write]
  by_cases hab : a = b
  · subst hab; simp [Heap.read_lt hr]
  · simp [hab]

theorem fwdAt_of_read {h : Heap} {a : Addr} {n : Node} (hr : h.read a = some n) (j : Nat) :
    fwdAt h a j = (match n.forward[j]? with | some p => p | none => none) := by
  simp [fwdAt, hr]

/-! ## Facts about `nextAt`, `lastAbove` and `LinkedL` -/

theorem nextAt_append_of_le {h : Heap} {nil : Addr} {i : Nat} {l : List Addr}
    (hl : ∀ a ∈ l, levelAt h a ≤ i) (r : List Addr) :
    nextAt h nil i (l ++ r) = nextAt h nil i r := by
  induction l with
  | nil => rfl
  | cons a l ih =>
    have ha : ¬ i < levelAt h a := Nat.not_lt.mpr (hl a (List.mem_cons_self a l))
    simp only [List.cons_append, nextAt, ha, if_false]
    exact ih fun b hb => hl b (List.mem_cons_of_mem a hb)

theorem nextAt_append_of_exists {h : Heap} {nil : Addr} {i : Nat} {l : List Addr}
    (hl : ∃ a ∈ l, i < levelAt h a) (r r' : List Addr) :
    nextAt h nil i (l ++ r) = nextAt h nil i (l ++ r') := by
  induction l with
  | nil => obtain ⟨a, ha, _⟩ := hl; simp at ha
  | cons a l ih =>
    by_cases ha : i < levelAt h a
    · simp [nextAt, ha]
    · simp only [List.cons_append, nextAt, ha, if_false]
      apply ih
      obtain ⟨b, hb, hlb⟩ := hl
      rcases List.mem_cons.mp hb with rfl | hb'
      · exact absurd hlb ha
      · exact ⟨b, hb', hlb⟩

theorem nextAt_mem {h : Heap} (nil : Addr) (i : Nat) (l : List Addr) :
    nextAt h nil i l = nil ∨ (nextAt h nil i l ∈ l ∧ i < levelAt h (nextAt h nil i l)) := by
  induction l with
  | nil => left; rfl
  | cons a l ih =>
    by_cases ha : i < levelAt h a
    · right; simp [nextAt, ha]
    · simp only [nextAt, ha, if_false]
      rcases ih with h1 | ⟨h1, h2⟩
      · left; exact h1
      · right; exact ⟨List.mem_cons_of_mem a h1, h2⟩

theorem nextAt_congr {h h' : Heap} (nil : Addr) (i : Nat) {l : List Addr}
    (hl : ∀ a ∈ l, levelAt h' a = levelAt h a) : nextAt h' nil i l = nextAt h nil i l := by
  induction l with
  | nil => rfl
  | cons a l ih =>
    simp only [nextAt, hl a (List.mem_cons_self a l)]
    rw [ih fun b hb => hl b (List.mem_cons_of_mem a hb)]

theorem nextAt_zero_cons {h : Heap} (nil : Addr) (a : Addr) (l : List Addr)
    (ha : 1 ≤ levelAt h a) : nextAt h nil 0 (a :: l) = a := by
  simp only [nextAt]
  rw [if_pos (by omega)]

theorem lastAbove_level {h : Heap} {i : Nat} (l : List Addr) :
    ∀ x, i < levelAt h x → i < levelAt h (lastAbove h i x l) := by
  induction l with
  | nil => intro x hx; exact hx
  | cons a l ih =>
    intro x hx
    by_cases ha : i < levelAt h a
    · simp only [lastAbove, ha, if_true]; exact ih a ha
    · simp only [lastAbove, ha, if_false]; exact ih x hx

theorem lastAbove_of_le {h : Heap} {i : Nat} {l : List Addr} (x : Addr)
    (hl : ∀ a ∈ l, levelAt h a ≤ i) : lastAbove h i x l = x := by
  induction l with
  | nil => rfl
  | cons a l ih =>
    have ha : ¬ i < levelAt h a := Nat.not_lt.mpr (hl a (List.mem_cons_self a l))
    simp only [lastAbove, ha, if_false]
    exact ih fun b hb => hl b (List.mem_cons_of_mem a hb)

theorem lastAbove_split {h : Heap} {i : Nat} (l : List Addr) :
    ∀ x, ∃ l1 l2, x :: l = l1 ++ lastAbove h i x l :: l2 ∧ ∀ a ∈ l2, levelAt h a ≤ i := by
  induction l with
  | nil => intro x; exact ⟨[], [], rfl, by simp⟩
  | cons a l ih =>
    intro x
    by_cases ha : i < levelAt h a
    · simp only [lastAbove, ha, if_true]
      obtain ⟨l1, l2, h1, h2⟩ := ih a
      exact ⟨x :: l1, l2, by rw [h1]; rfl, h2⟩
    · simp only [lastAbove, ha, if_false]
      obtain ⟨l1, l2, h1, h2⟩ := ih x
      generalize lastAbove h i x l = z at h1 ⊢
      cases l1 with
      | nil =>
        simp only [List.nil_append, List.cons.injEq] at h1
        refine ⟨[], a :: l2, ?_, ?_⟩
        · rw [← h1.1, ← h1.2]; rfl
        · intro b hb
          rcases List.mem_cons.mp hb with rfl | hb'
          · exact Nat.not_lt.mp ha
          · exact h2 b hb'
      | cons y l1 =>
        simp only [List.cons_append, List.cons.injEq] at h1
        refine ⟨x :: a :: l1, l2, ?_, h2⟩
        rw [h1.2]; rfl

theorem lastAbove_append_cons {h : Heap} {i : Nat} {x : Addr} (hx : i < levelAt h x)
    (l1 l2 : List Addr) : ∀ y, lastAbove h i y (l1 ++ x :: l2) = lastAbove h i x l2 := by
  induction l1 with
  | nil => intro y; simp [lastAbove, hx]
  | cons a l1 ih =>
    intro y
    by_cases ha : i < levelAt h a
    · simp only [List.cons_append, lastAbove, ha, if_true]; exact ih a
    · simp only [List.cons_append, lastAbove, ha, if_false]; exact ih y

theorem lastAbove_full {h : Heap} {i : Nat} {x y : Addr} {l l1 l2 : List Addr}
    (hs : y :: l = l1 ++ x :: l2) (hx : i < levelAt h x) :
    lastAbove h i y l = lastAbove h i x l2 := by
  cases l1 with
  | nil =>
    simp only [List.nil_append, List.cons.injEq] at hs
    rw [hs.1, hs.2]
  | cons z l1 =>
    simp only [List.cons_append, List.cons.injEq] at hs
    rw [hs.2]
    exact lastAbove_append_cons hx l1 l2 y

theorem lastAbove_congr {h h' : Heap} (i : Nat) {l : List Addr}
    (hl : ∀ a ∈ l, levelAt h' a = levelAt h a) :
    ∀ x, lastAbove h' i x l = lastAbove h i x l := by
  induction l with
  | nil => intro x; rfl
  | cons a l ih =>
    intro x
    simp only [lastAbove, hl a (List.mem_cons_self a l)]
    rw [ih (fun b hb => hl b (List.mem_cons_of_mem a hb)),
      ih (fun b hb => hl b (List.mem_cons_of_mem a hb))]

theorem LinkedL_split {h : Heap} {nil : Addr} (l1 : List Addr) {x : Addr} {r : List Addr}
    (hl : LinkedL h nil (l1 ++ x :: r)) :
    (∀ i, i < levelAt h x → fwdAt h x i = some (nextAt h nil i r)) ∧ LinkedL h nil r := by
  induction l1 with
  | nil => exact hl
  | cons a l1 ih => exact ih hl.2

theorem LinkedL_suffix {h : Heap} {nil : Addr} (l1 : List Addr) {r : List Addr}
    (hl : LinkedL h nil (l1 ++ r)) : LinkedL h nil r := by
  induction l1 with
  | nil => exact hl
  | cons a l1 ih => exact ih hl.2

/-! ## The search loops on a linked list of nodes -/

theorem advance_stop {h : Heap} {k : CInt} {i fuel : Nat} {x y : Addr} {nx ny : Node}
    (hx : h.read x = some nx) (hf : nx.forward[i]? = some (some y)) (hy : h.read y = some ny)
    (hk : ¬ ny.key.val < k.val) : advance h k i (fuel + 1) x = .ok x := by
  simp only [advance, Heap.deref, hx, Node.fwd, hf, hy, ok_bind, if_neg hk, pure_eq_ok]

theorem advance_go {h : Heap} {k : CInt} {i fuel : Nat} {x y : Addr} {nx ny : Node}
    (hx : h.read x = some nx) (hf : nx.forward[i]? = some (some y)) (hy : h.read y = some ny)
    (hk : ny.key.val < k.val) : advance h k i (fuel + 1) x = advance h k i fuel y := by
  simp only [advance, Heap.deref, hx, Node.fwd, hf, hy, ok_bind, if_pos hk, ptrAddr]

/-- The successor, on level `i`, of the last node before `post` is a node that stops the
search. -/
theorem Split.stop_node {h : Heap} {head nil : Addr} {k : CInt} {pre post : List Addr}
    (sp : Split h head nil k pre post) (i : Nat) :
    ∃ n, h.read (nextAt h nil i post) = some n ∧ k.val ≤ n.key.val := by
  rcases nextAt_mem (h := h) nil i post with h1 | ⟨h1, _⟩
  · rw [h1]; exact sp.nil_key
  · have hp := sp.level_pos _ (List.mem_append_right pre h1)
    obtain ⟨n, hn, _⟩ := levelAt_pos_read (Nat.lt_of_lt_of_le Nat.zero_lt_one hp)
    refine ⟨n, hn, ?_⟩
    have := sp.post_ge _ h1
    rwa [keyAt_of_read hn] at this

theorem advance_spec {h : Heap} {head nil : Addr} {k : CInt} {pre post : List Addr}
    (sp : Split h head nil k pre post) (i : Nat) :
    ∀ (l2 : List Addr) (x : Addr) (fuel : Nat), l2.length < fuel → i < levelAt h x →
      fwdAt h x i = some (nextAt h nil i (l2 ++ post)) → LinkedL h nil (l2 ++ post) →
      (∀ a ∈ l2, a ∈ pre) →
      advance h k i fuel x = .ok (lastAbove h i x l2) := by
  intro l2
  induction l2 with
  | nil =>
    intro x fuel hfuel hx hf _ _
    obtain ⟨f, rfl⟩ : ∃ f, fuel = f + 1 := ⟨fuel - 1, by simp at hfuel; omega⟩
    obtain ⟨nx, hnx, _⟩ := levelAt_pos_read (Nat.lt_of_le_of_lt (Nat.zero_le i) hx)
    obtain ⟨ny, hny, hky⟩ := sp.stop_node i
    simp only [List.nil_append] at hf
    exact advance_stop hnx (fwdAt_some_read hnx hf) hny (by omega)
  | cons a l2 ih =>
    intro x fuel hfuel hx hf hl hpre
    by_cases ha : i < levelAt h a
    · obtain ⟨f, rfl⟩ : ∃ f, fuel = f + 1 := ⟨fuel - 1, by simp at hfuel; omega⟩
      obtain ⟨nx, hnx, _⟩ := levelAt_pos_read (Nat.lt_of_le_of_lt (Nat.zero_le i) hx)
      obtain ⟨na, hna, _⟩ := levelAt_pos_read (Nat.lt_of_le_of_lt (Nat.zero_le i) ha)
      have hka := sp.pre_lt a (hpre a (List.mem_cons_self a l2))
      rw [keyAt_of_read hna] at hka
      simp only [List.cons_append, nextAt, ha, if_true] at hf
      rw [advance_go hnx (fwdAt_some_read hnx hf) hna hka]
      simp only [lastAbove, ha, if_true]
      simp only [List.cons_append] at hl
      exact ih a f (by simp at hfuel; omega) ha (hl.1 i ha) hl.2
        (fun b hb => hpre b (List.mem_cons_of_mem a hb))
    · simp only [List.cons_append, nextAt, ha, if_false] at hf
      simp only [lastAbove, ha, if_false]
      simp only [List.cons_append] at hl
      exact ih x fuel (by simp at hfuel; omega) hx hf hl.2
        (fun b hb => hpre b (List.mem_cons_of_mem a hb))

/-- One level of a search started at the node `x` of `head :: pre`: the loop stops at the
level-`i` predecessor, which is again a node of `head :: pre`. -/
theorem advance_level {h : Heap} {head nil : Addr} {k : CInt} {pre post : List Addr}
    (sp : Split h head nil k pre post) {i fuel : Nat} {x : Addr} {l1 l2 : List Addr}
    (hs : head :: pre = l1 ++ x :: l2) (hx : i < levelAt h x) (hfuel : pre.length < fuel) :
    advance h k i fuel x = .ok (predAt h head pre i) ∧
      ∃ l1' l2', head :: pre = l1' ++ predAt h head pre i :: l2' ∧
        i < levelAt h (predAt h head pre i) := by
  have hlink : LinkedL h nil (l1 ++ x :: (l2 ++ post)) := by
    have := sp.linked
    rw [← List.cons_append, hs] at this
    simpa using this
  obtain ⟨hfx, hl2⟩ := LinkedL_split l1 hlink
  have hlen : l2.length < fuel := by
    have := congrArg List.length hs
    simp at this
    omega
  have hmem : ∀ a ∈ l2, a ∈ pre := by
    intro a ha
    have h1 : a ∈ head :: pre := by rw [hs]; simp [ha]
    cases l1 with
    | nil =>
      simp only [List.nil_append, List.cons.injEq] at hs
      rw [hs.2]; exact ha
    | cons z l1 =>
      simp only [List.cons_append, List.cons.injEq] at hs
      rw [hs.2]; simp [ha]
  have hadv := advance_spec sp i l2 x fuel hlen hx (hfx i hx) hl2 hmem
  have heq : predAt h head pre i = lastAbove h i x l2 := lastAbove_full hs hx
  rw [heq]
  refine ⟨hadv, ?_⟩
  obtain ⟨m1, m2, hm, _⟩ := lastAbove_split (h := h) (i := i) l2 x
  refine ⟨l1 ++ m1, m2, ?_, lastAbove_level l2 x hx⟩
  rw [hs, hm]; simp

theorem lowerBoundLoop_spec {h : Heap} {head nil : Addr} {k : CInt} {pre post : List Addr}
    (sp : Split h head nil k pre post) {fuel : Nat} (hfuel : pre.length < fuel) :
    ∀ (i : Nat) (x : Addr) (l1 l2 : List Addr), head :: pre = l1 ++ x :: l2 →
      i ≤ levelAt h x → 0 < i →
      lowerBoundLoop h k fuel i x = .ok (predAt h head pre 0) := by
  intro i
  induction i with
  | zero => intro x l1 l2 _ _ h0; omega
  | succ i ih =>
    intro x l1 l2 hs hx _
    obtain ⟨hadv, m1, m2, hm, hlv⟩ := advance_level sp hs (Nat.lt_of_succ_le hx) hfuel
    simp only [lowerBoundLoop, hadv, ok_bind]
    cases i with
    | zero => simp [lowerBoundLoop]
    | succ j => exact ih _ m1 m2 hm (Nat.le_of_lt hlv) (Nat.succ_pos j)

theorem predecessorsLoop_spec {h : Heap} {head nil : Addr} {k : CInt} {pre post : List Addr}
    (sp : Split h head nil k pre post) {fuel : Nat} (hfuel : pre.length < fuel) :
    ∀ (i : Nat) (x : Addr) (l1 l2 : List Addr) (result : List (Option Addr)),
      head :: pre = l1 ++ x :: l2 → i ≤ levelAt h x → i ≤ result.length →
      ∃ res, predecessorsLoop h k fuel i x result = .ok res ∧ res.length = result.length ∧
        ∀ j, res[j]? = if j < i then some (some (predAt h head pre j)) else result[j]? := by
  intro i
  induction i with
  | zero =>
    intro x l1 l2 result _ _ _
    exact ⟨result, rfl, rfl, fun j => by simp⟩
  | succ i ih =>
    intro x l1 l2 result hs hx hr
    obtain ⟨hadv, m1, m2, hm, hlv⟩ := advance_level sp hs (Nat.lt_of_succ_le hx) hfuel
    simp only [predecessorsLoop, hadv, ok_bind]
    obtain ⟨res, h1, h2, h3⟩ := ih _ m1 m2 (result.set i (some (predAt h head pre i))) hm
      (Nat.le_of_lt hlv) (by simp; omega)
    refine ⟨res, h1, by simpa using h2, ?_⟩
    intro j
    rw [h3 j]
    by_cases hj : j < i
    · simp [hj, Nat.lt_succ_of_lt hj]
    · by_cases hji : j = i
      · subst hji
        simp [List.getElem?_set, Nat.lt_of_succ_le hr]
      · have : ¬ j < i + 1 := by omega
        simp [hj, this, List.getElem?_set, Ne.symm hji]

/-! ## Consequences of the invariant -/

theorem Inv.read_of_mem {s : SkipList} {as : List Addr} (inv : Inv s as) {a : Addr}
    (ha : a ∈ as) : ∃ n, s.heap.read a = some n ∧ n.forward.length = levelAt s.heap a :=
  levelAt_pos_read (Nat.lt_of_lt_of_le Nat.zero_lt_one (inv.level_pos a ha))

theorem Inv.nodup {s : SkipList} {as : List Addr} (inv : Inv s as) :
    (s.head :: s.NIL :: as).Nodup := by
  have h1 : as.Nodup := by
    refine List.Pairwise.imp ?_ inv.sorted
    intro a b hab heq
    rw [heq] at hab
    exact lt_irrefl _ hab
  refine List.nodup_cons.mpr ⟨?_, List.nodup_cons.mpr ⟨inv.nil_not_mem, h1⟩⟩
  intro hm
  rcases List.mem_cons.mp hm with h2 | h2
  · exact inv.head_ne_nil h2
  · exact inv.head_not_mem h2

/-- The heap has room for the two sentinels and every live node, so `heap.length` is enough
fuel for any walk along the live nodes. -/
theorem Inv.length_lt {s : SkipList} {as : List Addr} (inv : Inv s as) :
    as.length + 2 ≤ s.heap.length := by
  have hsub : (s.head :: s.NIL :: as) ⊆ List.range s.heap.length := by
    intro a ha
    rw [List.mem_range]
    rcases List.mem_cons.mp ha with rfl | ha
    · obtain ⟨n, hn, _⟩ := inv.head_node
      exact Heap.read_lt hn
    · rcases List.mem_cons.mp ha with rfl | ha
      · exact Heap.read_lt inv.nil_node
      · obtain ⟨n, hn, _⟩ := inv.read_of_mem ha
        exact Heap.read_lt hn
  have := (inv.nodup.subperm hsub).length_le
  simpa using this

theorem keyAt_le_max (h : Heap) (a : Addr) : keyAt h a ≤ 2147483647 := by
  unfold keyAt
  cases h.read a with
  | none => decide
  | some n => exact n.key.property.2

/-- A strictly sorted list of nodes splits at any key. -/
theorem sorted_split (h : Heap) (k : Int) :
    ∀ as : List Addr, (as.Pairwise fun a b => keyAt h a < keyAt h b) →
      ∃ pre post, as = pre ++ post ∧ (∀ a ∈ pre, keyAt h a < k) ∧ ∀ a ∈ post, k ≤ keyAt h a := by
  intro as
  induction as with
  | nil => intro _; exact ⟨[], [], rfl, by simp, by simp⟩
  | cons a as ih =>
    intro hs
    rw [List.pairwise_cons] at hs
    by_cases ha : keyAt h a < k
    · obtain ⟨pre, post, h1, h2, h3⟩ := ih hs.2
      refine ⟨a :: pre, post, by rw [h1]; rfl, ?_, h3⟩
      intro b hb
      rcases List.mem_cons.mp hb with rfl | hb
      · exact ha
      · exact h2 b hb
    · refine ⟨[], a :: as, rfl, by simp, ?_⟩
      intro b hb
      rcases List.mem_cons.mp hb with rfl | hb
      · omega
      · have := hs.1 b hb
        omega

theorem Inv.toSplit {s : SkipList} {as : List Addr} (inv : Inv s as) (k : CInt)
    {pre post : List Addr} (has : as = pre ++ post)
    (hpre : ∀ a ∈ pre, keyAt s.heap a < k.val) (hpost : ∀ a ∈ post, k.val ≤ keyAt s.heap a) :
    Split s.heap s.head s.NIL k pre post where
  linked := by rw [← has]; exact inv.linked
  head_level := inv.head_level
  nil_key := ⟨_, inv.nil_node, k.property.2⟩
  pre_lt := hpre
  post_ge := hpost
  level_pos := by rw [← has]; exact inv.level_pos

theorem Inv.split {s : SkipList} {as : List Addr} (inv : Inv s as) (k : CInt) :
    ∃ pre post, as = pre ++ post ∧ Split s.heap s.head s.NIL k pre post := by
  obtain ⟨pre, post, h1, h2, h3⟩ := sorted_split s.heap k.val as inv.sorted
  exact ⟨pre, post, h1, inv.toSplit k h1 h2 h3⟩

theorem Split.pred_level {h : Heap} {head nil : Addr} {k : CInt} {pre post : List Addr}
    (sp : Split h head nil k pre post) {j : Nat} (hj : j < maxLevel) :
    j < levelAt h (predAt h head pre j) :=
  lastAbove_level pre head (by rw [sp.head_level]; exact hj)

theorem Split.pred_mem (h : Heap) (head : Addr) (pre : List Addr) (j : Nat) :
    predAt h head pre j ∈ head :: pre := by
  obtain ⟨l1, l2, hl, _⟩ := lastAbove_split (h := h) (i := j) pre head
  unfold predAt
  rw [hl]
  simp

theorem Split.pred_fwd {h : Heap} {head nil : Addr} {k : CInt} {pre post : List Addr}
    (sp : Split h head nil k pre post) {j : Nat} (hj : j < maxLevel) :
    fwdAt h (predAt h head pre j) j = some (nextAt h nil j post) := by
  obtain ⟨l1, l2, hl, hle⟩ := lastAbove_split (h := h) (i := j) pre head
  have hlink : LinkedL h nil (l1 ++ predAt h head pre j :: (l2 ++ post)) := by
    have := sp.linked
    rw [← List.cons_append, hl] at this
    simpa [predAt] using this
  rw [(LinkedL_split l1 hlink).1 j (sp.pred_level hj), nextAt_append_of_le hle]

theorem Split.pred_read {h : Heap} {head nil : Addr} {k : CInt} {pre post : List Addr}
    (sp : Split h head nil k pre post) {j : Nat} (hj : j < maxLevel) :
    ∃ n, h.read (predAt h head pre j) = some n ∧
      n.forward[j]? = some (some (nextAt h nil j post)) := by
  obtain ⟨n, hn, _⟩ := levelAt_pos_read (Nat.lt_of_le_of_lt (Nat.zero_le j) (sp.pred_level hj))
  exact ⟨n, hn, fwdAt_some_read hn (sp.pred_fwd hj)⟩

theorem maxLevel_pos : 0 < maxLevel := by decide

theorem predecessors_spec {s : SkipList} {k : CInt} {pre post : List Addr}
    (sp : Split s.heap s.head s.NIL k pre post) (hfuel : pre.length < s.heap.length) :
    ∃ preds, predecessors s k = .ok preds ∧ preds.length = maxLevel ∧
      ∀ j, j < maxLevel → preds[j]? = some (some (predAt s.heap s.head pre j)) := by
  obtain ⟨hd, hhd, hlen⟩ := levelAt_pos_read (h := s.heap) (a := s.head)
    (by rw [sp.head_level]; exact maxLevel_pos)
  rw [sp.head_level] at hlen
  obtain ⟨res, h1, h2, h3⟩ := predecessorsLoop_spec sp hfuel maxLevel s.head [] pre
    (List.replicate maxLevel none) rfl (by rw [sp.head_level]) (by simp)
  refine ⟨res, ?_, by simpa using h2, fun j hj => by rw [h3 j, if_pos hj]⟩
  simp only [predecessors, Heap.deref_some hhd, ok_bind, nodeLevel, hlen]
  exact h1

theorem lower_bound_spec {s : SkipList} {k : CInt} {pre post : List Addr}
    (sp : Split s.heap s.head s.NIL k pre post) (hfuel : pre.length < s.heap.length) :
    lower_bound s k = .ok (some (nextAt s.heap s.NIL 0 post)) := by
  obtain ⟨hd, hhd, hlen⟩ := levelAt_pos_read (h := s.heap) (a := s.head)
    (by rw [sp.head_level]; exact maxLevel_pos)
  rw [sp.head_level] at hlen
  have h1 := lowerBoundLoop_spec sp hfuel maxLevel s.head [] pre rfl
    (by rw [sp.head_level]) maxLevel_pos
  obtain ⟨n, hn, hf⟩ := sp.pred_read maxLevel_pos
  simp only [lower_bound, Heap.deref_some hhd, ok_bind, nodeLevel, hlen, h1,
    Heap.deref_some hn, Node.fwd_ok hf]

/-! ## `find` and `print` on a state that satisfies the invariant -/

theorem lookupKey_append (k : Int) (l1 l2 : List (Int × String)) :
    lookupKey k (l1 ++ l2) = (lookupKey k l1).orElse fun _ => lookupKey k l2 := by
  induction l1 with
  | nil => rfl
  | cons p l1 ih =>
    obtain ⟨k', v⟩ := p
    by_cases hk : k' = k
    · simp [lookupKey, hk]
    · simp [lookupKey, hk, ih]

theorem lookupKey_eq_none {k : Int} {l : List (Int × String)} (hl : ∀ p ∈ l, p.1 ≠ k) :
    lookupKey k l = none := by
  induction l with
  | nil => rfl
  | cons p l ih =>
    obtain ⟨k', v⟩ := p
    have hk : k' ≠ k := hl (k', v) (List.mem_cons_self _ _)
    simp only [lookupKey, hk, if_false]
    exact ih fun q hq => hl q (List.mem_cons_of_mem _ hq)

theorem lookupKey_isSome_iff {k : Int} {l : List (Int × String)} :
    (lookupKey k l).isSome ↔ k ∈ l.map Prod.fst := by
  induction l with
  | nil => simp [lookupKey]
  | cons p l ih =>
    obtain ⟨k', v⟩ := p
    by_cases hk : k' = k
    · simp [lookupKey, hk]
    · simp only [lookupKey, hk, if_false, ih, List.map_cons, List.mem_cons]
      constructor
      · exact fun h => Or.inr h
      · rintro (h | h)
        · exact absurd h.symm hk
        · exact h

theorem content_append (h : Heap) (l1 l2 : List Addr) :
    content h (l1 ++ l2) = content h l1 ++ content h l2 := by
  simp [content]

theorem content_cons (h : Heap) (a : Addr) (l : List Addr) :
    content h (a :: l) = (keyAt h a, valueAt h a) :: content h l := rfl

theorem content_length (h : Heap) (l : List Addr) : (content h l).length = l.length := by
  simp [content]

theorem content_congr {h h' : Heap} {l : List Addr}
    (hl : ∀ a ∈ l, keyAt h' a = keyAt h a ∧ valueAt h' a = valueAt h a) :
    content h' l = content h l := by
  unfold content
  apply List.map_congr_left
  intro a ha
  rw [(hl a ha).1, (hl a ha).2]

theorem mem_content_fst {h : Heap} {l : List Addr} {p : Int × String} (hp : p ∈ content h l) :
    ∃ a ∈ l, keyAt h a = p.1 := by
  unfold content at hp
  obtain ⟨a, ha, rfl⟩ := List.mem_map.mp hp
  exact ⟨a, ha, rfl⟩

theorem findNode_spec {s : SkipList} {as : List Addr} (inv : Inv s as) {k : CInt}
    {pre post : List Addr} (has : as = pre ++ post)
    (sp : Split s.heap s.head s.NIL k pre post) :
    findNode s k = .ok (hit s.heap k post) := by
  have hfuel : pre.length < s.heap.length := by
    have := inv.length_lt
    rw [has, List.length_append] at this
    omega
  simp only [findNode, lower_bound_spec sp hfuel, ok_bind]
  cases post with
  | nil =>
    simp only [nextAt, Heap.deref_some inv.nil_node, ok_bind, hit]
    simp
  | cons a post =>
    have ha : a ∈ as := by rw [has]; simp
    obtain ⟨na, hna, _⟩ := inv.read_of_mem ha
    have hne : a ≠ s.NIL := fun h => inv.nil_not_mem (h ▸ ha)
    rw [nextAt_zero_cons _ _ _ (inv.level_pos a ha)]
    simp only [Heap.deref_some hna, ok_bind, hit, keyAt_of_read hna]
    by_cases hk : na.key = k
    · simp [hk, hne]
    · have hk' : ¬ na.key.val = k.val := fun h => hk (Subtype.ext h)
      simp [hk, hk']

theorem hit_lookup {s : SkipList} {as : List Addr} (inv : Inv s as) {k : CInt}
    {pre post : List Addr} (has : as = pre ++ post)
    (sp : Split s.heap s.head s.NIL k pre post) :
    (hit s.heap k post).map (valueAt s.heap) = lookupKey k.val (content s.heap as) := by
  have h1 : lookupKey k.val (content s.heap pre) = none := by
    apply lookupKey_eq_none
    intro p hp
    obtain ⟨a, ha, hka⟩ := mem_content_fst hp
    have := sp.pre_lt a ha
    omega
  rw [has, content_append, lookupKey_append, h1]
  simp only [Option.orElse]
  cases post with
  | nil => rfl
  | cons a post =>
    simp only [hit, content_cons, lookupKey]
    by_cases hk : keyAt s.heap a = k.val
    · simp [hk]
    · simp only [hk, if_false, Option.map]
      symm
      apply lookupKey_eq_none
      intro p hp
      obtain ⟨b, hb, hkb⟩ := mem_content_fst hp
      have hs := inv.sorted
      rw [has, List.pairwise_append] at hs
      have h2 := (List.pairwise_cons.mp hs.2.1).1 b hb
      have h3 := sp.post_ge a (List.mem_cons_self _ _)
      omega

theorem find_of_findNode {s : SkipList} {as : List Addr} (inv : Inv s as) {k : CInt}
    {r : Option Addr} (hr : findNode s k = .ok r) (hmem : ∀ a, r = some a → a ∈ as) :
    find s k = .ok (r.map (valueAt s.heap)) := by
  simp only [find, hr, ok_bind]
  cases r with
  | none => rfl
  | some a =>
    obtain ⟨na, hna, _⟩ := inv.read_of_mem (hmem a rfl)
    simp [Heap.deref_some hna, valueAt_of_read hna]

theorem hit_mem {h : Heap} {k : CInt} {post : List Addr} {a : Addr}
    (ha : hit h k post = some a) : a ∈ post ∧ keyAt h a = k.val := by
  cases post with
  | nil => simp [hit] at ha
  | cons b post =>
    simp only [hit] at ha
    by_cases hk : keyAt h b = k.val
    · simp only [hk, if_true, Option.some.injEq] at ha
      subst ha
      exact ⟨List.mem_cons_self _ _, hk⟩
    · simp [hk] at ha

/-- On a well-formed state `find` is the lookup of the key among the live nodes. -/
theorem find_spec {s : SkipList} {as : List Addr} (inv : Inv s as) (k : CInt) :
    find s k = .ok (lookupKey k.val (content s.heap as)) := by
  obtain ⟨pre, post, has, sp⟩ := inv.split k
  rw [← hit_lookup inv has sp]
  apply find_of_findNode inv (findNode_spec inv has sp)
  intro a ha
  rw [has]
  exact List.mem_append_right _ (hit_mem ha).1

theorem printLoop_spec (h : Heap) (nil : Addr) :
    ∀ (l : List Addr) (fuel : Nat), l.length < fuel → nil ∉ l → (∀ a ∈ l, 1 ≤ levelAt h a) →
      LinkedL h nil l →
      ∃ out, printLoop h nil fuel (some (nextAt h nil 0 l)) = .ok out ∧
        out.map (fun t => (t.2.1.val, t.1)) = content h l ∧
        out.map (fun t => t.2.2) = l.map (levelAt h) := by
  intro l
  induction l with
  | nil =>
    intro fuel hfuel _ _ _
    obtain ⟨f, rfl⟩ : ∃ f, fuel = f + 1 := ⟨fuel - 1, by simp at hfuel; omega⟩
    exact ⟨[], by simp [printLoop, nextAt], rfl, rfl⟩
  | cons a l ih =>
    intro fuel hfuel hnil hlev hl
    obtain ⟨f, rfl⟩ : ∃ f, fuel = f + 1 := ⟨fuel - 1, by simp at hfuel; omega⟩
    have hla := hlev a (List.mem_cons_self _ _)
    obtain ⟨na, hna, hlen⟩ := levelAt_pos_read (Nat.lt_of_lt_of_le Nat.zero_lt_one hla)
    have hne : a ≠ nil := fun h => hnil (h ▸ List.mem_cons_self _ _)
    obtain ⟨out, h1, h2, h3⟩ := ih f (by simp at hfuel; omega)
      (fun h => hnil (List.mem_cons_of_mem _ h))
      (fun b hb => hlev b (List.mem_cons_of_mem _ hb)) hl.2
    have hf := fwdAt_some_read hna (hl.1 0 (by omega))
    refine ⟨(na.value, na.key, nodeLevel na) :: out, ?_, ?_, ?_⟩
    · rw [nextAt_zero_cons _ _ _ hla]
      simp only [printLoop, Option.some.injEq, hne, if_false, Heap.deref_some hna, ok_bind,
        Node.fwd_ok hf, h1, pure_eq_ok]
    · simp [content_cons, h2, keyAt_of_read hna, valueAt_of_read hna]
    · simp [h3, nodeLevel, hlen]

/-- The triples written by `print` are those of the live nodes, in list order. -/
theorem print_spec {s : SkipList} {as : List Addr} (inv : Inv s as) :
    ∃ out, print s = .ok out ∧ out.map (fun t => (t.2.1.val, t.1)) = content s.heap as ∧
      out.map (fun t => t.2.2) = as.map (levelAt s.heap) := by
  obtain ⟨hd, hhd, hlen⟩ := levelAt_pos_read (h := s.heap) (a := s.head)
    (by rw [inv.head_level]; exact maxLevel_pos)
  have hf := fwdAt_some_read hhd (inv.linked.1 0 (by rw [inv.head_level]; exact maxLevel_pos))
  obtain ⟨out, h1, h2, h3⟩ := printLoop_spec s.heap s.NIL as (s.heap.length + 1)
    (by have := inv.length_lt; omega) inv.nil_not_mem inv.level_pos inv.linked.2
  refine ⟨out, ?_, h2, h3⟩
  simp only [print, Heap.deref_some hhd, ok_bind, Node.fwd_ok hf, h1]

/-! ## Overwriting a value, and erasing an absent key -/

theorem LinkedL_congr {h h' : Heap} {nil : Addr} {l : List Addr}
    (hlev : ∀ a ∈ l, levelAt h' a = levelAt h a)
    (hfwd : ∀ a ∈ l, ∀ i, fwdAt h' a i = fwdAt h a i) (hl : LinkedL h nil l) :
    LinkedL h' nil l := by
  induction l with
  | nil => trivial
  | cons a l ih =>
    have hlev' : ∀ b ∈ l, levelAt h' b = levelAt h b :=
      fun b hb => hlev b (List.mem_cons_of_mem _ hb)
    refine ⟨?_, ih hlev' (fun b hb => hfwd b (List.mem_cons_of_mem _ hb)) hl.2⟩
    intro i hi
    rw [hlev a (List.mem_cons_self _ _)] at hi
    rw [hfwd a (List.mem_cons_self _ _), hl.1 i hi, nextAt_congr nil i hlev']

/-- The first steps of `insert` and `erase`: the predecessor search and the read of the
level-0 successor of `preds[0]`. -/
theorem first_steps {s : SkipList} {as : List Addr} (inv : Inv s as) {k : CInt}
    {pre post : List Addr} (has : as = pre ++ post)
    (sp : Split s.heap s.head s.NIL k pre post) :
    ∃ preds n0 nn, predecessors s k = .ok preds ∧ preds.length = maxLevel ∧
      (∀ j, j < maxLevel → preds[j]? = some (some (predAt s.heap s.head pre j))) ∧
      vecGet preds 0 = .ok (some (predAt s.heap s.head pre 0)) ∧
      s.heap.deref (some (predAt s.heap s.head pre 0)) = .ok n0 ∧
      n0.fwd 0 = .ok (some (nextAt s.heap s.NIL 0 post)) ∧
      s.heap.read (nextAt s.heap s.NIL 0 post) = some nn := by
  have hfuel : pre.length < s.heap.length := by
    have := inv.length_lt
    rw [has, List.length_append] at this
    omega
  obtain ⟨preds, h1, h2, h3⟩ := predecessors_spec sp hfuel
  obtain ⟨n0, hn0, hf0⟩ := sp.pred_read maxLevel_pos
  obtain ⟨nn, hnn, _⟩ := sp.stop_node 0
  exact ⟨preds, n0, nn, h1, h2, h3, by simp [vecGet, h3 0 maxLevel_pos],
    Heap.deref_some hn0, Node.fwd_ok hf0, hnn⟩

/-- Inserting a key that is stored already only overwrites the value of its node. -/
theorem insert_update {s : SkipList} {as : List Addr} (inv : Inv s as) {k : CInt}
    {pre post : List Addr} {a : Addr} {na : Node} (has : as = pre ++ a :: post)
    (sp : Split s.heap s.head s.NIL k pre (a :: post)) (hka : keyAt s.heap a = k.val)
    (hna : s.heap.read a = some na) (rnd : Nat → Bool) (v : String) :
    insert rnd s k v = .ok { s with heap := s.heap.write a { na with value := v } } := by
  obtain ⟨preds, n0, nn, h1, _, _, h4, h5, h6, h7⟩ := first_steps inv has sp
  have ha : a ∈ as := by rw [has]; simp
  have hnext : nextAt s.heap s.NIL 0 (a :: post) = a := nextAt_zero_cons _ _ _ (inv.level_pos a ha)
  rw [hnext] at h6 h7
  have hne : a ≠ s.NIL := fun h => inv.nil_not_mem (h ▸ ha)
  have hnn : nn = na := by rw [hna] at h7; exact (Option.some.inj h7).symm
  subst hnn
  have hkey : nn.key = k := by
    apply Subtype.ext
    rw [← hka, keyAt_of_read hna]
  have hcond : nn.key = k ∧ some a ≠ some s.NIL := ⟨hkey, by simpa using hne⟩
  simp only [insert, h1, ok_bind, h4, h5, h6, Heap.deref_some hna, if_pos hcond, ptrAddr,
    pure_eq_ok]

theorem Inv.write_value {s : SkipList} {as : List Addr} (inv : Inv s as) {a : Addr} {na : Node}
    (ha : a ∈ as) (hna : s.heap.read a = some na) (v : String) :
    Inv { s with heap := s.heap.write a { na with value := v } } as := by
  have hah : a ≠ s.head := fun h => inv.head_not_mem (h ▸ ha)
  have han : a ≠ s.NIL := fun h => inv.nil_not_mem (h ▸ ha)
  have hlev : ∀ b, levelAt (s.heap.write a { na with value := v }) b = levelAt s.heap b := by
    intro b
    rw [levelAt_write hna]
    by_cases hab : a = b
    · subst hab; simp [levelAt_of_read hna]
    · simp [hab]
  have hkey : ∀ b, keyAt (s.heap.write a { na with value := v }) b = keyAt s.heap b := by
    intro b
    rw [keyAt_write hna]
    by_cases hab : a = b
    · subst hab; simp [keyAt_of_read hna]
    · simp [hab]
  have hfwd : ∀ b i, fwdAt (s.heap.write a { na with value := v }) b i = fwdAt s.heap b i := by
    intro b i
    rw [fwdAt_write hna]
    by_cases hab : a = b
    · subst hab; simp [fwdAt_of_read hna]
    · simp [hab]
  exact {
    head_ne_nil := inv.head_ne_nil
    head_not_mem := inv.head_not_mem
    nil_not_mem := inv.nil_not_mem
    head_level := by simp only [hlev]; exact inv.head_level
    head_node := by
      obtain ⟨n, hn, h1, h2⟩ := inv.head_node
      exact ⟨n, by simp only [Heap.read_write_ne _ hah, hn], h1, h2⟩
    nil_node := by simp only [Heap.read_write_ne _ han]; exact inv.nil_node
    level_pos := fun b hb => by simp only [hlev]; exact inv.level_pos b hb
    level_le := fun b hb => by simp only [hlev]; exact inv.level_le b hb
    sorted := by simp only [hkey]; exact inv.sorted
    linked := LinkedL_congr (fun b _ => hlev b) (fun b _ i => hfwd b i) inv.linked
    count_eq := inv.count_eq }

/-- Erasing a key that is not stored returns the state as it is. -/
theorem erase_absent {s : SkipList} {as : List Addr} (inv : Inv s as) {k : CInt}
    {pre post : List Addr} (has : as = pre ++ post)
    (sp : Split s.heap s.head s.NIL k pre post) (hk : ∀ a ∈ post, k.val < keyAt s.heap a) :
    erase s k = .ok s := by
  obtain ⟨preds, n0, nn, h1, _, _, h4, h5, h6, h7⟩ := first_steps inv has sp
  have hcond : nn.key ≠ k ∨ some (nextAt s.heap s.NIL 0 post) = some s.NIL := by
    cases post with
    | nil => right; rfl
    | cons a post =>
      left
      have ha : a ∈ as := by rw [has]; simp
      rw [nextAt_zero_cons _ _ _ (inv.level_pos a ha)] at h7
      have := hk a (List.mem_cons_self _ _)
      rw [keyAt_of_read h7] at this
      intro heq
      rw [heq] at this
      exact lt_irrefl _ this
  simp only [erase, h1, ok_bind, h4, h5, h6, Heap.deref_some h7, if_pos hcond, pure_eq_ok]

/-! ## The counting search does the same walk and changes counters only -/

theorem CountEqOn.refl (P : Addr → Prop) (h : Heap) : CountEqOn P h h := by
  refine ⟨rfl, fun _ _ => rfl, fun a => ?_⟩
  cases hr : h.read a with
  | none => exact ⟨0, rfl⟩
  | some n => exact ⟨n.count, rfl⟩

theorem CountEqOn.read {P : Addr → Prop} {h0 h : Heap} (ce : CountEqOn P h0 h) {a : Addr}
    {n : Node} (hn : h0.read a = some n) : ∃ c, h.read a = some { n with count := c } := by
  obtain ⟨c, hc⟩ := ce.2.2 a
  rw [hn] at hc
  exact ⟨c, hc⟩

theorem CountEqOn.read' {P : Addr → Prop} {h0 h : Heap} (ce : CountEqOn P h0 h) {a : Addr}
    {n : Node} (hn : h0.read a = some n) :
    ∃ n', h.read a = some n' ∧ n'.forward = n.forward ∧ n'.key = n.key := by
  obtain ⟨c, hc⟩ := ce.read hn
  exact ⟨_, hc, rfl, rfl⟩

theorem CountEqOn.write {P : Addr → Prop} {h0 h : Heap} (ce : CountEqOn P h0 h) {x : Addr}
    (hx : P x) {n : Node} (hn : h.read x = some n) (c : Int) :
    CountEqOn P h0 (h.write x { n with count := c }) := by
  obtain ⟨h1, h2, h3⟩ := ce
  refine ⟨by simp [h1], ?_, ?_⟩
  · intro a ha
    have hne : x ≠ a := fun he => ha (he ▸ hx)
    rw [Heap.read_write_ne _ hne]
    exact h2 a ha
  · intro a
    by_cases hxa : x = a
    · subst hxa
      obtain ⟨c', hc'⟩ := h3 x
      rw [hn] at hc'
      cases hr : h0.read x with
      | none => rw [hr] at hc'; simp at hc'
      | some m =>
        rw [hr] at hc'
        have : n = { m with count := c' } := Option.some.inj hc'
        subst this
        exact ⟨c, by rw [Heap.read_write_same _ hn]; rfl⟩
    · rw [Heap.read_write_ne _ hxa]
      exact h3 a

theorem CountEqOn.levelAt_eq {P : Addr → Prop} {h0 h : Heap} (ce : CountEqOn P h0 h)
    (a : Addr) : levelAt h a = levelAt h0 a := by
  obtain ⟨c, hc⟩ := ce.2.2 a
  unfold levelAt
  rw [hc]
  cases h0.read a <;> rfl

theorem CountEqOn.keyAt_eq {P : Addr → Prop} {h0 h : Heap} (ce : CountEqOn P h0 h)
    (a : Addr) : keyAt h a = keyAt h0 a := by
  obtain ⟨c, hc⟩ := ce.2.2 a
  unfold keyAt
  rw [hc]
  cases h0.read a <;> rfl

theorem CountEqOn.valueAt_eq {P : Addr → Prop} {h0 h : Heap} (ce : CountEqOn P h0 h)
    (a : Addr) : valueAt h a = valueAt h0 a := by
  obtain ⟨c, hc⟩ := ce.2.2 a
  unfold valueAt
  rw [hc]
  cases h0.read a <;> rfl

theorem CountEqOn.fwdAt_eq {P : Addr → Prop} {h0 h : Heap} (ce : CountEqOn P h0 h)
    (a : Addr) (i : Nat) : fwdAt h a i = fwdAt h0 a i := by
  obtain ⟨c, hc⟩ := ce.2.2 a
  unfold fwdAt
  rw [hc]
  cases h0.read a <;> rfl

theorem advanceInc_sim {P : Addr → Prop} {h0 : Heap} {k : CInt} {i : Nat}
    (hP : ∀ y n, h0.read y = some n → n.key.val < k.val → P y) :
    ∀ (fuel : Nat) (h : Heap) (x x' : Addr), CountEqOn P h0 h → P x →
      advance h0 k i fuel x = .ok x' →
      ∃ h', advanceInc k i fuel h x = .ok (h', x') ∧ CountEqOn P h0 h' ∧ P x' := by
  intro fuel
  induction fuel with
  | zero => intro h x x' _ _ hadv; simp [advance] at hadv
  | succ fuel ih =>
    intro h x x' ce hx hadv
    rw [advance] at hadv
    cases hrx : h0.read x with
    | none => simp [Heap.deref, hrx] at hadv
    | some nx =>
      simp only [Heap.deref_some hrx, ok_bind] at hadv
      cases hfx : nx.forward[i]? with
      | none => simp [Node.fwd, hfx] at hadv
      | some p =>
        simp only [Node.fwd_ok hfx, ok_bind] at hadv
        cases p with
        | none => simp [Heap.deref] at hadv
        | some y =>
          cases hry : h0.read y with
          | none => simp [Heap.deref, hry] at hadv
          | some ny =>
            simp only [Heap.deref_some hry, ok_bind] at hadv
            obtain ⟨nx', hcx, hfx', -⟩ := ce.read' hrx
            obtain ⟨ny', hcy, -, hky⟩ := ce.read' hry
            rw [← hfx'] at hfx
            by_cases hk : ny.key.val < k.val
            · simp only [if_pos hk, ptrAddr, ok_bind] at hadv
              have ce' := ce.write hx hcx (nx'.count + 1)
              obtain ⟨h', hh', hce', hPx'⟩ := ih _ y x' ce' (hP y ny hry hk) hadv
              refine ⟨h', ?_, hce', hPx'⟩
              rw [← hky] at hk
              rw [advanceInc]
              simp only [Heap.deref_some hcx, ok_bind, Node.fwd_ok hfx, Heap.deref_some hcy,
                if_pos hk, ptrAddr]
              exact hh'
            · simp only [if_neg hk, pure_eq_ok, Except.ok.injEq] at hadv
              subst hadv
              refine ⟨h, ?_, ce, hx⟩
              rw [← hky] at hk
              rw [advanceInc]
              simp only [Heap.deref_some hcx, ok_bind, Node.fwd_ok hfx, Heap.deref_some hcy,
                if_neg hk, pure_eq_ok]

theorem predecessorsIncLoop_sim {P : Addr → Prop} {h0 : Heap} {k : CInt} {fuel : Nat}
    (hP : ∀ y n, h0.read y = some n → n.key.val < k.val → P y) :
    ∀ (i : Nat) (h : Heap) (x : Addr) (result res : List (Option Addr)), CountEqOn P h0 h →
      P x → predecessorsLoop h0 k fuel i x result = .ok res →
      ∃ h', predecessorsIncLoop k fuel i h x result = .ok (h', res) ∧ CountEqOn P h0 h' := by
  intro i
  induction i with
  | zero =>
    intro h x result res ce _ hp
    simp only [predecessorsLoop, pure_eq_ok, Except.ok.injEq] at hp
    subst hp
    exact ⟨h, rfl, ce⟩
  | succ i ih =>
    intro h x result res ce hx hp
    rw [predecessorsLoop] at hp
    cases hadv : advance h0 k i fuel x with
    | error e => simp [hadv] at hp
    | ok x' =>
      simp only [hadv, ok_bind] at hp
      obtain ⟨h1, hh1, ce1, hx'⟩ := advanceInc_sim hP fuel h x x' ce hx hadv
      obtain ⟨h', hh', ce'⟩ := ih h1 x' _ res ce1 hx' hp
      refine ⟨h', ?_, ce'⟩
      rw [predecessorsIncLoop]
      simp only [hh1, ok_bind]
      exact hh'

theorem predecessorsIncrementCount_spec {s : SkipList} {as : List Addr} (inv : Inv s as)
    {k : CInt} {pre post : List Addr} (has : as = pre ++ post)
    (sp : Split s.heap s.head s.NIL k pre post) :
    ∃ h1 preds, predecessorsIncrementCount s k = .ok (h1, preds) ∧
      predecessors s k = .ok preds ∧ CountEqOn (Touched s k) s.heap h1 := by
  obtain ⟨preds, n0, nn, hp, _, _, h4, h5, _, _⟩ := first_steps inv has sp
  obtain ⟨hd, hhd, _⟩ := levelAt_pos_read (h := s.heap) (a := s.head)
    (by rw [sp.head_level]; exact maxLevel_pos)
  have hp' := hp
  simp only [predecessors, Heap.deref_some hhd, ok_bind] at hp'
  obtain ⟨h1, hh1, ce⟩ := predecessorsIncLoop_sim (P := Touched s k)
    (fun y n hy hk => Or.inr ⟨n, hy, hk⟩) _ s.heap s.head _ preds
    (CountEqOn.refl _ _) (Or.inl rfl) hp'
  have hn0 : s.heap.read (predAt s.heap s.head pre 0) = some n0 := by
    simp only [Heap.deref] at h5
    cases hr : s.heap.read (predAt s.heap s.head pre 0) with
    | none => simp [hr] at h5
    | some m => simp [hr] at h5; rw [h5]
  obtain ⟨c0, hc0⟩ := ce.read hn0
  have ht : Touched s k (predAt s.heap s.head pre 0) := by
    rcases List.mem_cons.mp (Split.pred_mem s.heap s.head pre 0) with h | h
    · exact Or.inl h
    · right
      refine ⟨n0, hn0, ?_⟩
      have := sp.pre_lt _ h
      rwa [keyAt_of_read hn0] at this
  refine ⟨_, preds, ?_, hp, ce.write ht hc0 (c0 + 1)⟩
  simp only [predecessorsIncrementCount, Heap.deref_some hhd, ok_bind, hh1, h4,
    Heap.deref_some hc0, ptrAddr, pure_eq_ok]

/-! ## The level drawn for a new node -/

theorem randomLevelLoop_bounds (rnd : Nat → Bool) :
    ∀ fuel v c, 1 ≤ v → v ≤ maxLevel →
      1 ≤ (randomLevelLoop rnd fuel v c).1 ∧ (randomLevelLoop rnd fuel v c).1 ≤ maxLevel := by
  intro fuel
  induction fuel with
  | zero => intro v c h1 h2; exact ⟨h1, h2⟩
  | succ fuel ih =>
    intro v c h1 h2
    rw [randomLevelLoop]
    by_cases hc : (rnd c && decide (v < maxLevel)) = true
    · rw [if_pos hc]
      have hv : v < maxLevel := by
        simp only [Bool.and_eq_true, decide_eq_true_eq] at hc
        exact hc.2
      exact ih (v + 1) (c + 1) (Nat.le_succ_of_le h1) hv
    · rw [if_neg hc]; exact ⟨h1, h2⟩

theorem randomLevel_bounds (rnd : Nat → Bool) (c : Nat) :
    1 ≤ (randomLevel rnd c).1 ∧ (randomLevel rnd c).1 ≤ maxLevel :=
  randomLevelLoop_bounds rnd maxLevel 1 c (Nat.le_refl 1) maxLevel_pos

/-! ## The splice loop of `insert` -/

theorem linkLoop_step {preds : List (Option Addr)} {new p : Addr} {n i : Nat} {h : Heap}
    {np nn : Node} {f : Option Addr} (hp : preds[i]? = some (some p))
    (hnp : h.read p = some np) (hnn : h.read new = some nn) (hne : p ≠ new)
    (hf : np.forward[i]? = some f) (hin : i < nn.forward.length) :
    linkLoop preds new (n + 1) i h = linkLoop preds new n (i + 1) (linkHeap h new p i np nn f) := by
  obtain ⟨g, hg⟩ : ∃ g, nn.forward[i]? = some g := ⟨nn.forward[i], by simp [hin]⟩
  have e1 : (h.write new { nn with forward := nn.forward.set i f }).read p = some np := by
    rw [Heap.read_write_ne _ (Ne.symm hne)]; exact hnp
  have e2 : ((h.write new { nn with forward := nn.forward.set i f }).write p
      { np with forward := np.forward.set i (some new) }).read p =
      some { np with forward := np.forward.set i (some new) } := Heap.read_write_same _ e1
  have e3 : ((h.write new { nn with forward := nn.forward.set i f }).write p
      { np with forward := np.forward.set i (some new) }).read new =
      some { nn with forward := nn.forward.set i f } := by
    rw [Heap.read_write_ne _ hne]; exact Heap.read_write_same _ hnn
  rw [linkLoop]
  simp only [vecGet, hp, ok_bind, Heap.deref_some hnp, Node.fwd_ok hf, Heap.deref_some hnn,
    Node.fwd_ok hg, Heap.deref_some e1, ptrAddr, Heap.deref_some e2, Heap.deref_some e3, linkHeap]

theorem linkHeap_read_ne {h : Heap} {new p : Addr} {i : Nat} {np nn : Node} {f : Option Addr}
    {a : Addr} (h1 : a ≠ new) (h2 : a ≠ p) : (linkHeap h new p i np nn f).read a = h.read a := by
  unfold linkHeap
  rw [Heap.read_write_ne _ (Ne.symm h1), Heap.read_write_ne _ (Ne.symm h2),
    Heap.read_write_ne _ (Ne.symm h1)]

theorem linkHeap_read_new {h : Heap} {new p : Addr} {i : Nat} {np nn : Node} {f : Option Addr}
    (hnp : h.read p = some np) (hnn : h.read new = some nn) (hne : p ≠ new) :
    (linkHeap h new p i np nn f).read new =
      some { nn with forward := nn.forward.set i f, count := np.count } := by
  unfold linkHeap
  have e0 : (h.write new { nn with forward := nn.forward.set i f }).read new =
      some { nn with forward := nn.forward.set i f } := Heap.read_write_same _ hnn
  have e1 : (h.write new { nn with forward := nn.forward.set i f }).read p = some np := by
    rw [Heap.read_write_ne _ (Ne.symm hne)]; exact hnp
  have e3 : ((h.write new { nn with forward := nn.forward.set i f }).write p
      { np with forward := np.forward.set i (some new) }).read new =
      some { nn with forward := nn.forward.set i f } := by
    rw [Heap.read_write_ne _ hne]; exact e0
  exact Heap.read_write_same _ e3

theorem linkHeap_read_pred {h : Heap} {new p : Addr} (i : Nat) {np : Node} (nn : Node)
    (f : Option Addr) (hnp : h.read p = some np) (hne : p ≠ new) :
    (linkHeap h new p i np nn f).read p =
      some { np with forward := np.forward.set i (some new) } := by
  unfold linkHeap
  have e1 : (h.write new { nn with forward := nn.forward.set i f }).read p = some np := by
    rw [Heap.read_write_ne _ (Ne.symm hne)]; exact hnp
  rw [Heap.read_write_ne _ (Ne.symm hne)]
  exact Heap.read_write_same _ e1

@[simp] theorem linkHeap_length (h : Heap) (new p : Addr) (i : Nat) (np nn : Node)
    (f : Option Addr) : (linkHeap h new p i np nn f).length = h.length := by
  simp [linkHeap]

theorem Linking.start (h0 : Heap) (new : Addr) (P : Nat → Addr) : Linking h0 new P 0 h0 where
  len := rfl
  lev := fun _ => rfl
  key := fun _ => rfl
  val := fun _ => rfl
  untouched := fun _ _ _ => rfl
  fwd_old := fun _ _ _ => by simp
  fwd_new := fun _ => by simp
  cnt_old := fun _ _ => rfl
  cnt_new := by simp

theorem getElem?_set_join {l : List (Option Addr)} {i j : Nat} {f : Option Addr}
    (hi : i < l.length) :
    (match (l.set i f)[j]? with | some p => p | none => none) =
      if j = i then f else (match l[j]? with | some p => p | none => none) := by
  rw [List.getElem?_set]
  by_cases hij : i = j
  · subst hij; simp [hi]
  · have : ¬ j = i := fun h => hij h.symm
    simp [hij, this]

theorem Linking.next {h0 h : Heap} {new : Addr} {P : Nat → Addr} {i : Nat}
    (lk : Linking h0 new P i h) {np nn : Node} {f : Option Addr}
    (hnp : h.read (P i) = some np) (hnn : h.read new = some nn) (hne : P i ≠ new)
    (hf : np.forward[i]? = some f) (hin : i < nn.forward.length) :
    Linking h0 new P (i + 1) (linkHeap h new (P i) i np nn f) := by
  have hip : i < np.forward.length := by
    by_contra hc
    rw [List.getElem?_eq_none (Nat.le_of_not_lt hc)] at hf
    simp at hf
  have rnew := linkHeap_read_new (i := i) (f := f) hnp hnn hne
  have rpred := linkHeap_read_pred i nn f hnp hne
  have hfp : fwdAt h (P i) i = f := by rw [fwdAt_of_read hnp, hf]
  have acc : ∀ a, a ≠ new → a ≠ P i →
      (linkHeap h new (P i) i np nn f).read a = h.read a :=
    fun a h1 h2 => linkHeap_read_ne h1 h2
  refine {
    len := by rw [linkHeap_length]; exact lk.len
    lev := ?_, key := ?_, val := ?_, untouched := ?_, fwd_old := ?_, fwd_new := ?_,
    cnt_old := ?_, cnt_new := ?_ }
  · intro a
    rw [← lk.lev a]
    by_cases h1 : a = new
    · subst h1; rw [levelAt_of_read rnew, levelAt_of_read hnn]; simp
    · by_cases h2 : a = P i
      · subst h2; rw [levelAt_of_read rpred, levelAt_of_read hnp]; simp
      · unfold levelAt; rw [acc a h1 h2]
  · intro a
    rw [← lk.key a]
    by_cases h1 : a = new
    · subst h1; rw [keyAt_of_read rnew, keyAt_of_read hnn]
    · by_cases h2 : a = P i
      · subst h2; rw [keyAt_of_read rpred, keyAt_of_read hnp]
      · unfold keyAt; rw [acc a h1 h2]
  · intro a
    rw [← lk.val a]
    by_cases h1 : a = new
    · subst h1; rw [valueAt_of_read rnew, valueAt_of_read hnn]
    · by_cases h2 : a = P i
      · subst h2; rw [valueAt_of_read rpred, valueAt_of_read hnp]
      · unfold valueAt; rw [acc a h1 h2]
  · intro a h1 h2
    rw [acc a h1 (h2 i (Nat.lt_succ_self i))]
    exact lk.untouched a h1 fun j hj => h2 j (Nat.lt_succ_of_lt hj)
  · intro a j h1
    by_cases h2 : a = P i
    · subst h2
      rw [fwdAt_of_read rpred]
      simp only []
      rw [getElem?_set_join hip, ← fwdAt_of_read hnp, lk.fwd_old _ j h1]
      by_cases hji : j = i
      · subst hji; simp
      · have e1 : (j < i + 1 ∧ P i = P j) ↔ (j < i ∧ P i = P j) := by
          constructor
          · rintro ⟨h3, h4⟩; exact ⟨by omega, h4⟩
          · rintro ⟨h3, h4⟩; exact ⟨by omega, h4⟩
        simp only [hji, if_false, e1]
    · have e0 : fwdAt (linkHeap h new (P i) i np nn f) a j = fwdAt h a j := by
        unfold fwdAt; rw [acc a h1 h2]
      rw [e0, lk.fwd_old a j h1]
      by_cases hji : j = i
      · subst hji
        have e1 : ¬ (j < j ∧ a = P j) := fun h => absurd h.1 (Nat.lt_irrefl j)
        have e2 : ¬ (j < j + 1 ∧ a = P j) := fun h => h2 h.2
        simp only [e1, e2, if_false]
      · have e1 : (j < i + 1 ∧ a = P j) ↔ (j < i ∧ a = P j) := by
          constructor
          · rintro ⟨h3, h4⟩; exact ⟨by omega, h4⟩
          · rintro ⟨h3, h4⟩; exact ⟨by omega, h4⟩
        simp only [e1]
  · intro j
    rw [fwdAt_of_read rnew]
    simp only []
    rw [getElem?_set_join hin, ← fwdAt_of_read hnn, lk.fwd_new j]
    by_cases hji : j = i
    · subst hji
      have hfo := lk.fwd_old (P j) j hne
      have e1 : ¬ (j < j ∧ P j = P j) := fun h => absurd h.1 (Nat.lt_irrefl j)
      rw [if_neg e1] at hfo
      simp only [if_true, Nat.lt_succ_self]
      rw [← hfp, hfo]
    · simp only [hji, if_false]
      by_cases h3 : j < i
      · simp [h3, Nat.lt_succ_of_lt h3]
      · have : ¬ j < i + 1 := by omega
        simp [h3, this]
  · intro a h1
    rw [← lk.cnt_old a h1]
    by_cases h2 : a = P i
    · subst h2; rw [countAt_of_read rpred, countAt_of_read hnp]
    · unfold countAt; rw [acc a h1 h2]
  · rw [countAt_of_read rnew]
    simp only [Nat.add_sub_cancel, Nat.succ_ne_zero, if_false]
    rw [← lk.cnt_old (P i) hne, countAt_of_read hnp]

theorem linkLoop_spec {h0 : Heap} {new : Addr} {P : Nat → Addr} {lvl : Nat}
    {preds : List (Option Addr)} (hpreds : ∀ j, j < lvl → preds[j]? = some (some (P j)))
    (hPne : ∀ j, j < lvl → P j ≠ new) (hPlev : ∀ j, j < lvl → j < levelAt h0 (P j))
    (hnew : levelAt h0 new = lvl) :
    ∀ (n i : Nat) (h : Heap), i + n = lvl → Linking h0 new P i h →
      ∃ h', linkLoop preds new n i h = .ok h' ∧ Linking h0 new P lvl h' := by
  intro n
  induction n with
  | zero =>
    intro i h hi lk
    have : i = lvl := by omega
    subst this
    exact ⟨h, rfl, lk⟩
  | succ n ih =>
    intro i h hi lk
    have hil : i < lvl := by omega
    have h1 : i < levelAt h (P i) := by rw [lk.lev]; exact hPlev i hil
    have h2 : i < levelAt h new := by rw [lk.lev, hnew]; exact hil
    obtain ⟨np, hnp, hlp⟩ := levelAt_pos_read (Nat.lt_of_le_of_lt (Nat.zero_le i) h1)
    obtain ⟨nn, hnn, hln⟩ := levelAt_pos_read (Nat.lt_of_le_of_lt (Nat.zero_le i) h2)
    have hf : np.forward[i]? = some np.forward[i] := by
      rw [List.getElem?_eq_getElem]
    rw [linkLoop_step (hpreds i hil) hnp hnn (hPne i hil) hf (by rw [hln]; exact h2)]
    exact ih (i + 1) _ (by omega) (lk.next hnp hnn (hPne i hil) hf (by rw [hln]; exact h2))

/-! ## Relinking a list of nodes -/

theorem nextAt_skip {h : Heap} {nil : Addr} {j : Nat} {c : Addr} (hc : levelAt h c ≤ j)
    (l r : List Addr) : nextAt h nil j (l ++ c :: r) = nextAt h nil j (l ++ r) := by
  induction l with
  | nil => simp [nextAt, Nat.not_lt.mpr hc]
  | cons a l ih =>
    show (if j < levelAt h a then a else nextAt h nil j (l ++ c :: r)) =
      (if j < levelAt h a then a else nextAt h nil j (l ++ r))
    rw [ih]

/-- In a list without repetition the tail after the level-`j` predecessor has no node with
more than `j` links. -/
theorem tail_le_of_lastAbove {h : Heap} {j : Nat} {head a : Addr} {pre l1 l2 : List Addr}
    (hnd : (head :: pre).Nodup) (hs : head :: pre = l1 ++ a :: l2)
    (ha : a = lastAbove h j head pre) : ∀ b ∈ l2, levelAt h b ≤ j := by
  obtain ⟨m1, m2, hm, hle⟩ := lastAbove_split (h := h) (i := j) pre head
  rw [← ha, hs] at hm
  rw [hs] at hnd
  have h1 : a ∉ l1 := by
    intro hc
    have := (List.nodup_append.mp hnd).2.2
    exact this hc (List.mem_cons_self _ _)
  have h2 : a ∉ l2 := by
    have := (List.nodup_append.mp hnd).2.1
    exact (List.nodup_cons.mp this).1
  have := (List.append_cons_inj_of_not_mem h1 h2).mp hm
  rw [this.2.2]
  exact hle

/-- Conversely a node with more than `j` links that is not the level-`j` predecessor is
followed by another node with more than `j` links. -/
theorem exists_above_of_ne {h : Heap} {j : Nat} {head a : Addr} {pre l1 l2 : List Addr}
    (hs : head :: pre = l1 ++ a :: l2) (hj : j < levelAt h a)
    (ha : a ≠ lastAbove h j head pre) : ∃ b ∈ l2, j < levelAt h b := by
  by_contra hc
  have hle : ∀ b ∈ l2, levelAt h b ≤ j := by
    intro b hb
    by_contra hlt
    exact hc ⟨b, hb, Nat.not_le.mp hlt⟩
  apply ha
  rw [lastAbove_full hs hj, lastAbove_of_le a hle]

theorem LinkedL_insert {h h' : Heap} {nil head new : Addr} {lvl : Nat} {pre post : List Addr}
    (hnd : (head :: (pre ++ post)).Nodup)
    (hlev : ∀ a ∈ head :: (pre ++ post), levelAt h' a = levelAt h a)
    (hnew : levelAt h' new = lvl)
    (hfwd : ∀ a ∈ head :: (pre ++ post), ∀ j, fwdAt h' a j =
      if j < lvl ∧ a = lastAbove h j head pre then some new else fwdAt h a j)
    (hfnew : ∀ j, j < lvl → fwdAt h' new j = some (nextAt h nil j post))
    (hl : LinkedL h nil (head :: (pre ++ post))) :
    LinkedL h' nil (head :: (pre ++ new :: post)) := by
  have hnd1 : (head :: pre).Nodup := by
    rw [← List.cons_append] at hnd
    exact (List.nodup_append.mp hnd).1
  have hdisj : ∀ a ∈ post, a ∉ head :: pre := by
    rw [← List.cons_append] at hnd
    intro a ha hc
    exact (List.nodup_append.mp hnd).2.2 hc ha
  have hlevpost : ∀ a ∈ post, levelAt h' a = levelAt h a :=
    fun a ha => hlev a (List.mem_cons_of_mem _ (List.mem_append_right _ ha))
  have key : ∀ (l2 l1 : List Addr), head :: pre = l1 ++ l2 → LinkedL h nil (l2 ++ post) →
      LinkedL h' nil (l2 ++ new :: post) := by
    intro l2
    induction l2 with
    | nil =>
      intro l1 _ hlp
      simp only [List.nil_append] at hlp ⊢
      refine ⟨?_, ?_⟩
      · intro j hj
        rw [hnew] at hj
        rw [hfnew j hj, nextAt_congr nil j hlevpost]
      · refine LinkedL_congr hlevpost ?_ hlp
        intro a ha j
        rw [hfwd a (List.mem_cons_of_mem _ (List.mem_append_right _ ha)) j]
        have : ¬ (j < lvl ∧ a = lastAbove h j head pre) := by
          rintro ⟨_, h2⟩
          exact hdisj a ha (h2 ▸ Split.pred_mem h head pre j)
        rw [if_neg this]
    | cons a l2 ih =>
      intro l1 hs hlp
      have hmem : a ∈ head :: pre := by rw [hs]; simp
      have hmem' : a ∈ head :: (pre ++ post) := by
        rw [← List.cons_append]; exact List.mem_append_left _ hmem
      have hl2 : ∀ b ∈ l2, levelAt h' b = levelAt h b := by
        intro b hb
        apply hlev
        rw [← List.cons_append, hs]
        simp [hb]
      have hl2post : ∀ b ∈ l2 ++ post, levelAt h' b = levelAt h b := by
        intro b hb
        rcases List.mem_append.mp hb with hb | hb
        · exact hl2 b hb
        · exact hlevpost b hb
      simp only [List.cons_append] at hlp ⊢
      refine ⟨?_, ih (l1 ++ [a]) (by rw [hs]; simp) hlp.2⟩
      intro j hj
      rw [hlev a hmem'] at hj
      rw [hfwd a hmem' j]
      by_cases hc : j < lvl ∧ a = lastAbove h j head pre
      · rw [if_pos hc]
        have hle := tail_le_of_lastAbove hnd1 hs hc.2
        have hle' : ∀ b ∈ l2, levelAt h' b ≤ j := fun b hb => by rw [hl2 b hb]; exact hle b hb
        rw [nextAt_append_of_le hle']
        simp [nextAt, hnew, hc.1]
      · rw [if_neg hc, hlp.1 j hj]
        by_cases hjl : j < lvl
        · have hne : a ≠ lastAbove h j head pre := fun he => hc ⟨hjl, he⟩
          obtain ⟨b, hb, hbl⟩ := exists_above_of_ne hs hj hne
          have hex : ∃ b ∈ l2, j < levelAt h' b := ⟨b, hb, by rw [hl2 b hb]; exact hbl⟩
          rw [nextAt_append_of_exists hex (new :: post) post, nextAt_congr nil j hl2post]
        · rw [nextAt_skip (by rw [hnew]; omega), nextAt_congr nil j hl2post]
  exact key (head :: pre) [] rfl hl

/-! ## Inserting a key that is not stored -/

theorem Node.new_level (k : CInt) (v : String) (lvl : Nat) :
    (Node.new k v lvl).forward.length = lvl := by
  simp [Node.new]

theorem insert_new {s : SkipList} {as : List Addr} (inv : Inv s as) {k : CInt}
    {pre post : List Addr} (has : as = pre ++ post)
    (sp : Split s.heap s.head s.NIL k pre post) (hk : ∀ a ∈ post, k.val < keyAt s.heap a)
    (rnd : Nat → Bool) (v : String) :
    ∃ s', insert rnd s k v = .ok s' ∧ InsertedNew rnd s s' k v pre post := by
  obtain ⟨preds, n0, nn, h1, hplen, hpj, h4, h5, h6, h7⟩ := first_steps inv has sp
  -- the key is not found
  have hcond : ¬ (nn.key = k ∧ some (nextAt s.heap s.NIL 0 post) ≠ some s.NIL) := by
    rintro ⟨hc1, hc2⟩
    cases post with
    | nil => exact hc2 rfl
    | cons a post =>
      have ha : a ∈ as := by rw [has]; simp
      rw [nextAt_zero_cons _ _ _ (inv.level_pos a ha)] at h7
      have := hk a (List.mem_cons_self _ _)
      rw [keyAt_of_read h7, hc1] at this
      exact lt_irrefl _ this
  -- the counting search
  obtain ⟨hc, preds', hinc, hp', ce⟩ := predecessorsIncrementCount_spec inv has sp
  have hpe : preds = preds' := by
    rw [h1] at hp'
    exact Except.ok.inj hp'
  subst hpe
  -- the level
  obtain ⟨hlv1, hlv2⟩ := randomLevel_bounds rnd s.randCalls
  rcases hrl : randomLevel rnd s.randCalls with ⟨lvl, calls⟩
  rw [hrl] at hlv1 hlv2
  simp only at hlv1 hlv2
  -- the fresh node
  have hlen : hc.length = s.heap.length := ce.1
  set new := s.heap.length with hnewdef
  set h2 := (hc.alloc (Node.new k v lvl)).1 with hh2
  have hnewaddr : (hc.alloc (Node.new k v lvl)).2 = new := by simp [Heap.alloc, hlen]
  have hr2 : ∀ a, a ≠ new → h2.read a = hc.read a := by
    intro a ha
    rw [hh2, Heap.read_alloc, if_neg (by rw [hlen]; exact ha)]
  have hr2new : h2.read new = some (Node.new k v lvl) := by
    rw [hh2, Heap.read_alloc, if_pos (by rw [hlen])]
  have hlt_of_read : ∀ a n, s.heap.read a = some n → a ≠ new :=
    fun a n hn => Nat.ne_of_lt (Heap.read_lt hn)
  have hasne : ∀ a ∈ as, a ≠ new := by
    intro a ha
    obtain ⟨n, hn, _⟩ := inv.read_of_mem ha
    exact hlt_of_read a n hn
  obtain ⟨hdn, hhdn, hhdk, hhdv⟩ := inv.head_node
  have hheadne : s.head ≠ new := hlt_of_read _ _ hhdn
  have hnilne : s.NIL ≠ new := hlt_of_read _ _ inv.nil_node
  have hfullne : ∀ a ∈ s.head :: pre, a ≠ new := by
    intro a ha
    rcases List.mem_cons.mp ha with rfl | ha
    · exact hheadne
    · exact hasne a (by rw [has]; exact List.mem_append_left _ ha)
  -- accessors of `h2` on old addresses
  have lev2 : ∀ a, a ≠ new → levelAt h2 a = levelAt s.heap a := by
    intro a ha; rw [← ce.levelAt_eq a]; unfold levelAt; rw [hr2 a ha]
  have key2 : ∀ a, a ≠ new → keyAt h2 a = keyAt s.heap a := by
    intro a ha; rw [← ce.keyAt_eq a]; unfold keyAt; rw [hr2 a ha]
  have val2 : ∀ a, a ≠ new → valueAt h2 a = valueAt s.heap a := by
    intro a ha; rw [← ce.valueAt_eq a]; unfold valueAt; rw [hr2 a ha]
  have fwd2 : ∀ a j, a ≠ new → fwdAt h2 a j = fwdAt s.heap a j := by
    intro a j ha; rw [← ce.fwdAt_eq a j]; unfold fwdAt; rw [hr2 a ha]
  have cnt2 : ∀ a, a ≠ new → countAt h2 a = countAt hc a := by
    intro a ha; unfold countAt; rw [hr2 a ha]
  have lev2new : levelAt h2 new = lvl := by
    rw [levelAt_of_read hr2new, Node.new_level]
  -- the splice loop
  have hPne : ∀ j, j < lvl → predAt s.heap s.head pre j ≠ new :=
    fun j _ => hfullne _ (Split.pred_mem s.heap s.head pre j)
  obtain ⟨h3, hlink, lk⟩ := @linkLoop_spec h2 new (predAt s.heap s.head pre) lvl preds
    (fun j hj => hpj j (Nat.lt_of_lt_of_le hj hlv2)) hPne
    (fun j hj => by
      rw [lev2 _ (hPne j hj)]
      exact sp.pred_level (Nat.lt_of_lt_of_le hj hlv2))
    lev2new lvl 0 h2 (Nat.zero_add lvl) (Linking.start _ _ _)
  let s' : SkipList :=
    { s with heap := h3, elementCount := s.elementCount + 1, randCalls := calls }
  refine ⟨s', ?_, ?_⟩
  · simp only [insert, h1, ok_bind, h4, h5, h6, Heap.deref_some h7, if_neg hcond, hinc, hrl,
      makeNode, hnewaddr, ← hh2, hlink, pure_eq_ok]
  · have lev3 : ∀ a, a ≠ new → levelAt h3 a = levelAt s.heap a :=
      fun a ha => by rw [lk.lev, lev2 a ha]
    have key3 : ∀ a, a ≠ new → keyAt h3 a = keyAt s.heap a :=
      fun a ha => by rw [lk.key, key2 a ha]
    have val3 : ∀ a, a ≠ new → valueAt h3 a = valueAt s.heap a :=
      fun a ha => by rw [lk.val, val2 a ha]
    have key3new : keyAt h3 new = k.val := by
      rw [lk.key, keyAt_of_read hr2new]; rfl
    have val3new : valueAt h3 new = v := by
      rw [lk.val, valueAt_of_read hr2new]; rfl
    have lev3new : levelAt h3 new = lvl := by rw [lk.lev, lev2new]
    have hnd := inv.nodup
    have hmemold : ∀ a ∈ s.head :: (pre ++ post), a ≠ new := by
      intro a ha
      rcases List.mem_cons.mp ha with rfl | ha
      · exact hheadne
      · exact hasne a (by rw [has]; exact ha)
    have hsorted := inv.sorted
    rw [has, List.pairwise_append] at hsorted
    have inv' : Inv s' (pre ++ new :: post) := {
      head_ne_nil := inv.head_ne_nil
      head_not_mem := by
        intro hm
        rcases List.mem_append.mp hm with hm | hm
        · exact inv.head_not_mem (by rw [has]; exact List.mem_append_left _ hm)
        · rcases List.mem_cons.mp hm with hm | hm
          · exact hheadne hm
          · exact inv.head_not_mem (by rw [has]; exact List.mem_append_right _ hm)
      nil_not_mem := by
        intro hm
        rcases List.mem_append.mp hm with hm | hm
        · exact inv.nil_not_mem (by rw [has]; exact List.mem_append_left _ hm)
        · rcases List.mem_cons.mp hm with hm | hm
          · exact hnilne hm
          · exact inv.nil_not_mem (by rw [has]; exact List.mem_append_right _ hm)
      head_level := by
        show levelAt h3 s.head = maxLevel
        rw [lev3 _ hheadne]; exact inv.head_level
      head_node := by
        show ∃ n, h3.read s.head = some n ∧ n.key = INT_MIN ∧ n.value = "head"
        obtain ⟨n, hn, _⟩ := levelAt_pos_read (h := h3) (a := s.head)
          (by rw [lev3 _ hheadne, inv.head_level]; exact maxLevel_pos)
        refine ⟨n, hn, ?_, ?_⟩
        · apply Subtype.ext
          rw [← keyAt_of_read hn, key3 _ hheadne, keyAt_of_read hhdn, hhdk]
        · rw [← valueAt_of_read hn, val3 _ hheadne, valueAt_of_read hhdn, hhdv]
      nil_node := by
        show h3.read s.NIL = some (Node.new INT_MAX "NIL" maxLevel)
        rw [lk.untouched s.NIL hnilne, hr2 _ hnilne, ce.2.1]
        · exact inv.nil_node
        · rintro (hc1 | ⟨n, hn, hkn⟩)
          · exact inv.head_ne_nil hc1.symm
          · rw [inv.nil_node] at hn
            have : n = Node.new INT_MAX "NIL" maxLevel := (Option.some.inj hn).symm
            subst this
            have := k.property.2
            simp only [Node.new, INT_MAX] at hkn
            omega
        · intro j _ hc1
          have hm := Split.pred_mem s.heap s.head pre j
          rw [← hc1] at hm
          rcases List.mem_cons.mp hm with hm | hm
          · exact inv.head_ne_nil hm.symm
          · exact inv.nil_not_mem (by rw [has]; exact List.mem_append_left _ hm)
      level_pos := by
        intro a ha
        show 1 ≤ levelAt h3 a
        rcases List.mem_append.mp ha with hm | hm
        · have hm' : a ∈ as := by rw [has]; exact List.mem_append_left _ hm
          rw [lev3 a (hasne a hm')]; exact inv.level_pos a hm'
        · rcases List.mem_cons.mp hm with hm | hm
          · rw [hm, lev3new]; exact hlv1
          · have hm' : a ∈ as := by rw [has]; exact List.mem_append_right _ hm
            rw [lev3 a (hasne a hm')]; exact inv.level_pos a hm'
      level_le := by
        intro a ha
        show levelAt h3 a ≤ maxLevel
        rcases List.mem_append.mp ha with hm | hm
        · have hm' : a ∈ as := by rw [has]; exact List.mem_append_left _ hm
          rw [lev3 a (hasne a hm')]; exact inv.level_le a hm'
        · rcases List.mem_cons.mp hm with hm | hm
          · rw [hm, lev3new]; exact hlv2
          · have hm' : a ∈ as := by rw [has]; exact List.mem_append_right _ hm
            rw [lev3 a (hasne a hm')]; exact inv.level_le a hm'
      sorted := by
        show List.Pairwise (fun a b => keyAt h3 a < keyAt h3 b) (pre ++ new :: post)
        have kpre : ∀ a ∈ pre, keyAt h3 a = keyAt s.heap a :=
          fun a ha => key3 a (hasne a (by rw [has]; exact List.mem_append_left _ ha))
        have kpost : ∀ a ∈ post, keyAt h3 a = keyAt s.heap a :=
          fun a ha => key3 a (hasne a (by rw [has]; exact List.mem_append_right _ ha))
        rw [List.pairwise_append]
        refine ⟨?_, ?_, ?_⟩
        · refine List.Pairwise.imp_of_mem ?_ hsorted.1
          intro a b ha hb hab
          rw [kpre a ha, kpre b hb]; exact hab
        · rw [List.pairwise_cons]
          refine ⟨?_, ?_⟩
          · intro b hb
            rw [key3new, kpost b hb]; exact hk b hb
          · refine List.Pairwise.imp_of_mem ?_ hsorted.2.1
            intro a b ha hb hab
            rw [kpost a ha, kpost b hb]; exact hab
        · intro a ha b hb
          rcases List.mem_cons.mp hb with hb | hb
          · rw [hb, key3new, kpre a ha]; exact sp.pre_lt a ha
          · rw [kpre a ha, kpost b hb]; exact hsorted.2.2 a ha b hb
      linked := by
        show LinkedL h3 s.NIL (s.head :: (pre ++ new :: post))
        refine @LinkedL_insert s.heap h3 s.NIL s.head new lvl pre post ?_ ?_ lev3new ?_ ?_ sp.linked
        · have := (List.nodup_cons.mp hnd)
          rw [has] at this
          exact List.nodup_cons.mpr ⟨fun hm => this.1 (List.mem_cons_of_mem _ hm),
            (List.nodup_cons.mp this.2).2⟩
        · exact fun a ha => lev3 a (hmemold a ha)
        · intro a ha j
          rw [lk.fwd_old a j (hmemold a ha), fwd2 a j (hmemold a ha)]
          rfl
        · intro j hj
          rw [lk.fwd_new j, if_pos hj, fwd2 _ _ (hPne j hj)]
          exact sp.pred_fwd (Nat.lt_of_lt_of_le hj hlv2)
      count_eq := by
        show s.elementCount + 1 = ((pre ++ new :: post).length : Int)
        rw [inv.count_eq, has]
        simp only [List.length_append, List.length_cons]
        push_cast
        ring }
    exact {
      inv := inv'
      head_eq := rfl
      nil_eq := rfl
      rand := by
        show calls = (randomLevel rnd s.randCalls).2
        rw [hrl]
      count := rfl
      length := by
        show h3.length = s.heap.length + 1
        rw [lk.len, hh2]; simp [Heap.alloc, hlen]
      old_key := key3
      old_value := val3
      old_level := lev3
      new_key := key3new
      new_value := val3new
      new_level := by
        show levelAt h3 new = (randomLevel rnd s.randCalls).1
        rw [hrl]; exact lev3new
      counts := by
        refine ⟨hc, preds, hinc, ?_, ?_⟩
        · intro a ha
          show countAt h3 a = countAt hc a
          rw [lk.cnt_old a ha, cnt2 a ha]
        · show countAt h3 new =
            countAt hc (predAt s.heap s.head pre ((randomLevel rnd s.randCalls).1 - 1))
          rw [hrl]
          show countAt h3 new = countAt hc (predAt s.heap s.head pre (lvl - 1))
          rw [lk.cnt_new, if_neg (by omega), cnt2 _ (hPne _ (by omega))] }

/-! ## Erasing a key that is stored -/

theorem LinkedL_erase {h h' : Heap} {nil head node : Addr} {pre post : List Addr}
    (hnd : (head :: (pre ++ node :: post)).Nodup)
    (hlev : ∀ a ∈ head :: (pre ++ post), levelAt h' a = levelAt h a)
    (hfwd : ∀ a ∈ head :: (pre ++ post), ∀ j, fwdAt h' a j =
      if j < levelAt h node ∧ a = lastAbove h j head pre then fwdAt h node j else fwdAt h a j)
    (hl : LinkedL h nil (head :: (pre ++ node :: post))) :
    LinkedL h' nil (head :: (pre ++ post)) := by
  have hnd1 : (head :: pre).Nodup := by
    rw [← List.cons_append] at hnd
    exact (List.nodup_append.mp hnd).1
  have hdisj : ∀ a ∈ post, a ∉ head :: pre := by
    rw [← List.cons_append] at hnd
    intro a ha hc
    exact (List.nodup_append.mp hnd).2.2 hc (List.mem_cons_of_mem _ ha)
  have hlevpost : ∀ a ∈ post, levelAt h' a = levelAt h a :=
    fun a ha => hlev a (List.mem_cons_of_mem _ (List.mem_append_right _ ha))
  have key : ∀ (l2 l1 : List Addr), head :: pre = l1 ++ l2 →
      LinkedL h nil (l2 ++ node :: post) → LinkedL h' nil (l2 ++ post) := by
    intro l2
    induction l2 with
    | nil =>
      intro l1 _ hlp
      simp only [List.nil_append] at hlp ⊢
      refine LinkedL_congr hlevpost ?_ hlp.2
      intro a ha j
      rw [hfwd a (List.mem_cons_of_mem _ (List.mem_append_right _ ha)) j]
      have : ¬ (j < levelAt h node ∧ a = lastAbove h j head pre) := by
        rintro ⟨_, h2⟩
        exact hdisj a ha (h2 ▸ Split.pred_mem h head pre j)
      rw [if_neg this]
    | cons a l2 ih =>
      intro l1 hs hlp
      have hmem : a ∈ head :: pre := by rw [hs]; simp
      have hmem' : a ∈ head :: (pre ++ post) := by
        rw [← List.cons_append]; exact List.mem_append_left _ hmem
      have hl2 : ∀ b ∈ l2, levelAt h' b = levelAt h b := by
        intro b hb
        apply hlev
        rw [← List.cons_append, hs]
        simp [hb]
      have hl2post : ∀ b ∈ l2 ++ post, levelAt h' b = levelAt h b := by
        intro b hb
        rcases List.mem_append.mp hb with hb | hb
        · exact hl2 b hb
        · exact hlevpost b hb
      simp only [List.cons_append] at hlp ⊢
      refine ⟨?_, ih (l1 ++ [a]) (by rw [hs]; simp) hlp.2⟩
      intro j hj
      rw [hlev a hmem'] at hj
      rw [hfwd a hmem' j]
      by_cases hc : j < levelAt h node ∧ a = lastAbove h j head pre
      · rw [if_pos hc, (LinkedL_split l2 hlp.2).1 j hc.1]
        have hle := tail_le_of_lastAbove hnd1 hs hc.2
        have hle' : ∀ b ∈ l2, levelAt h' b ≤ j := fun b hb => by rw [hl2 b hb]; exact hle b hb
        rw [nextAt_append_of_le hle', nextAt_congr nil j hlevpost]
      · rw [if_neg hc, hlp.1 j hj]
        by_cases hjl : j < levelAt h node
        · have hne : a ≠ lastAbove h j head pre := fun he => hc ⟨hjl, he⟩
          obtain ⟨b, hb, hbl⟩ := exists_above_of_ne hs hj hne
          rw [nextAt_append_of_exists ⟨b, hb, hbl⟩ (node :: post) post,
            nextAt_congr nil j hl2post]
        · rw [nextAt_skip (Nat.not_lt.mp hjl), nextAt_congr nil j hl2post]
  exact key (head :: pre) [] rfl hl

theorem Unlinking.begin (h0 : Heap) (node : Addr) (P : Nat → Addr) :
    Unlinking h0 node P 0 h0 where
  len := rfl
  lev := fun _ => rfl
  key := fun _ => rfl
  val := fun _ => rfl
  cnt := fun _ => rfl
  untouched := fun _ _ => rfl
  fwd := fun _ _ => by simp

theorem unlinkLoop_step {preds : List (Option Addr)} {node p : Addr} {n i : Nat} {h : Heap}
    {np nd : Node} {f : Option Addr} (hp : preds[i]? = some (some p))
    (hnp : h.read p = some np) (hnd : h.read node = some nd)
    (hf : nd.forward[i]? = some f) (hip : i < np.forward.length) :
    unlinkLoop preds node (n + 1) i h =
      unlinkLoop preds node n (i + 1) (h.write p { np with forward := np.forward.set i f }) := by
  obtain ⟨g, hg⟩ : ∃ g, np.forward[i]? = some g := ⟨np.forward[i], by simp [hip]⟩
  rw [unlinkLoop]
  simp only [vecGet, hp, ok_bind, Heap.deref_some hnp, Node.fwd_ok hf, Heap.deref_some hnd,
    Node.fwd_ok hg, ptrAddr]

theorem Unlinking.advance {h0 h : Heap} {node : Addr} {P : Nat → Addr} {i : Nat}
    (ul : Unlinking h0 node P i h) {np nd : Node} {f : Option Addr}
    (hnp : h.read (P i) = some np) (hnd : h0.read node = some nd)
    (hf : nd.forward[i]? = some f) (hip : i < np.forward.length) :
    Unlinking h0 node P (i + 1) (h.write (P i) { np with forward := np.forward.set i f }) := by
  have rpred : (h.write (P i) { np with forward := np.forward.set i f }).read (P i) =
      some { np with forward := np.forward.set i f } := Heap.read_write_same _ hnp
  have acc : ∀ a, a ≠ P i →
      (h.write (P i) { np with forward := np.forward.set i f }).read a = h.read a :=
    fun a h2 => Heap.read_write_ne _ (Ne.symm h2)
  have hfn : fwdAt h0 node i = f := by rw [fwdAt_of_read hnd, hf]
  refine {
    len := by rw [Heap.length_write]; exact ul.len
    lev := ?_, key := ?_, val := ?_, cnt := ?_, untouched := ?_, fwd := ?_ }
  · intro a
    rw [← ul.lev a]
    by_cases h2 : a = P i
    · subst h2; rw [levelAt_of_read rpred, levelAt_of_read hnp]; simp
    · unfold levelAt; rw [acc a h2]
  · intro a
    rw [← ul.key a]
    by_cases h2 : a = P i
    · subst h2; rw [keyAt_of_read rpred, keyAt_of_read hnp]
    · unfold keyAt; rw [acc a h2]
  · intro a
    rw [← ul.val a]
    by_cases h2 : a = P i
    · subst h2; rw [valueAt_of_read rpred, valueAt_of_read hnp]
    · unfold valueAt; rw [acc a h2]
  · intro a
    rw [← ul.cnt a]
    by_cases h2 : a = P i
    · subst h2; rw [countAt_of_read rpred, countAt_of_read hnp]
    · unfold countAt; rw [acc a h2]
  · intro a h2
    rw [acc a (h2 i (Nat.lt_succ_self i))]
    exact ul.untouched a fun j hj => h2 j (Nat.lt_succ_of_lt hj)
  · intro a j
    by_cases h2 : a = P i
    · subst h2
      rw [fwdAt_of_read rpred]
      simp only []
      rw [getElem?_set_join hip, ← fwdAt_of_read hnp, ul.fwd _ j]
      by_cases hji : j = i
      · subst hji; simp [hfn]
      · have e1 : (j < i + 1 ∧ P i = P j) ↔ (j < i ∧ P i = P j) := by
          constructor
          · rintro ⟨h3, h4⟩; exact ⟨by omega, h4⟩
          · rintro ⟨h3, h4⟩; exact ⟨by omega, h4⟩
        simp only [hji, if_false, e1]
    · have e0 : fwdAt (h.write (P i) { np with forward := np.forward.set i f }) a j =
          fwdAt h a j := by
        unfold fwdAt; rw [acc a h2]
      rw [e0, ul.fwd a j]
      by_cases hji : j = i
      · subst hji
        have e1 : ¬ (j < j ∧ a = P j) := fun h => absurd h.1 (Nat.lt_irrefl j)
        have e2 : ¬ (j < j + 1 ∧ a = P j) := fun h => h2 h.2
        simp only [e1, e2, if_false]
      · have e1 : (j < i + 1 ∧ a = P j) ↔ (j < i ∧ a = P j) := by
          constructor
          · rintro ⟨h3, h4⟩; exact ⟨by omega, h4⟩
          · rintro ⟨h3, h4⟩; exact ⟨by omega, h4⟩
        simp only [e1]

theorem unlinkLoop_spec {h0 : Heap} {node : Addr} {P : Nat → Addr} {lvl : Nat}
    {preds : List (Option Addr)} (hpreds : ∀ j, j < lvl → preds[j]? = some (some (P j)))
    (hPne : ∀ j, j < lvl → P j ≠ node) (hPlev : ∀ j, j < lvl → j < levelAt h0 (P j))
    (hnode : levelAt h0 node = lvl) :
    ∀ (n i : Nat) (h : Heap), i + n = lvl → Unlinking h0 node P i h →
      ∃ h', unlinkLoop preds node n i h = .ok h' ∧ Unlinking h0 node P lvl h' := by
  intro n
  induction n with
  | zero =>
    intro i h hi ul
    have : i = lvl := by omega
    subst this
    exact ⟨h, rfl, ul⟩
  | succ n ih =>
    intro i h hi ul
    have hil : i < lvl := by omega
    have h1 : i < levelAt h (P i) := by rw [ul.lev]; exact hPlev i hil
    have h2 : i < levelAt h0 node := by rw [hnode]; exact hil
    obtain ⟨np, hnp, hlp⟩ := levelAt_pos_read (Nat.lt_of_le_of_lt (Nat.zero_le i) h1)
    obtain ⟨nd, hnd, hln⟩ := levelAt_pos_read (Nat.lt_of_le_of_lt (Nat.zero_le i) h2)
    have hnd' : h.read node = some nd := by
      rw [ul.untouched node fun j hj he => hPne j (by omega) he.symm]
      exact hnd
    have hf : nd.forward[i]? = some nd.forward[i] := by
      rw [List.getElem?_eq_getElem]
    rw [unlinkLoop_step (hpreds i hil) hnp hnd' hf (by rw [hlp]; exact h1)]
    exact ih (i + 1) _ (by omega) (ul.advance hnp hnd hf (by rw [hlp]; exact h1))

theorem erase_present {s : SkipList} {as : List Addr} (inv : Inv s as) {k : CInt}
    {pre post : List Addr} {a : Addr} (has : as = pre ++ a :: post)
    (sp : Split s.heap s.head s.NIL k pre (a :: post)) (hka : keyAt s.heap a = k.val) :
    ∃ s', erase s k = .ok s' ∧ Erased s s' a pre post := by
  obtain ⟨preds, n0, nn, h1, hplen, hpj, h4, h5, h6, h7⟩ := first_steps inv has sp
  have ha : a ∈ as := by rw [has]; simp
  have hnext : nextAt s.heap s.NIL 0 (a :: post) = a := nextAt_zero_cons _ _ _ (inv.level_pos a ha)
  rw [hnext] at h6 h7
  have hane : a ≠ s.NIL := fun h => inv.nil_not_mem (h ▸ ha)
  have hahead : a ≠ s.head := fun h => inv.head_not_mem (h ▸ ha)
  have hkey : nn.key = k := by
    apply Subtype.ext
    rw [← hka, keyAt_of_read h7]
  have hcond : ¬ (nn.key ≠ k ∨ some a = some s.NIL) := by
    rintro (hc | hc)
    · exact hc hkey
    · exact hane (Option.some.inj hc)
  have hnd := inv.nodup
  have hndas : as.Nodup := (List.nodup_cons.mp (List.nodup_cons.mp hnd).2).2
  rw [has] at hndas
  have hapre : a ∉ pre := by
    intro hc
    exact (List.nodup_append.mp hndas).2.2 hc (List.mem_cons_self _ _)
  have hapost : a ∉ post := (List.nodup_cons.mp (List.nodup_append.mp hndas).2.1).1
  have hfull : a ∉ s.head :: pre := by
    intro hc
    rcases List.mem_cons.mp hc with hc | hc
    · exact hahead hc
    · exact hapre hc
  have hlvl : levelAt s.heap a = nodeLevel nn := levelAt_of_read h7
  have hlvlle : nodeLevel nn ≤ maxLevel := by rw [← hlvl]; exact inv.level_le a ha
  have hPne : ∀ j, j < nodeLevel nn → predAt s.heap s.head pre j ≠ a :=
    fun j _ he => hfull (he ▸ Split.pred_mem s.heap s.head pre j)
  obtain ⟨hu, hloop, ul⟩ := @unlinkLoop_spec s.heap a (predAt s.heap s.head pre) (nodeLevel nn)
    preds (fun j hj => hpj j (Nat.lt_of_lt_of_le hj hlvlle)) hPne
    (fun j hj => sp.pred_level (Nat.lt_of_lt_of_le hj hlvlle)) hlvl
    (nodeLevel nn) 0 s.heap (Nat.zero_add _) (Unlinking.begin _ _ _)
  let s' : SkipList := { s with heap := hu.free a, elementCount := s.elementCount - 1 }
  refine ⟨s', ?_, ?_⟩
  · simp only [erase, h1, ok_bind, h4, h5, h6, Heap.deref_some h7, if_neg hcond, ptrAddr,
      hloop, pure_eq_ok]
  · have hrf : ∀ b, b ≠ a → (hu.free a).read b = hu.read b := by
      intro b hb
      rw [Heap.read_free, if_neg (Ne.symm hb)]
    have lev3 : ∀ b, b ≠ a → levelAt (hu.free a) b = levelAt s.heap b := by
      intro b hb; rw [← ul.lev b]; unfold levelAt; rw [hrf b hb]
    have key3 : ∀ b, b ≠ a → keyAt (hu.free a) b = keyAt s.heap b := by
      intro b hb; rw [← ul.key b]; unfold keyAt; rw [hrf b hb]
    have val3 : ∀ b, b ≠ a → valueAt (hu.free a) b = valueAt s.heap b := by
      intro b hb; rw [← ul.val b]; unfold valueAt; rw [hrf b hb]
    have cnt3 : ∀ b, b ≠ a → countAt (hu.free a) b = countAt s.heap b := by
      intro b hb; rw [← ul.cnt b]; unfold countAt; rw [hrf b hb]
    have fwd3 : ∀ b j, b ≠ a → fwdAt (hu.free a) b j = fwdAt hu b j := by
      intro b j hb; unfold fwdAt; rw [hrf b hb]
    have hmem : ∀ b ∈ pre ++ post, b ∈ as ∧ b ≠ a := by
      intro b hb
      rcases List.mem_append.mp hb with hb | hb
      · exact ⟨by rw [has]; exact List.mem_append_left _ hb, fun he => hapre (he ▸ hb)⟩
      · exact ⟨by rw [has]; simp [hb], fun he => hapost (he ▸ hb)⟩
    obtain ⟨hdn, hhdn, hhdk, hhdv⟩ := inv.head_node
    have hsorted := inv.sorted
    rw [has, List.pairwise_append, List.pairwise_cons] at hsorted
    have inv' : Inv s' (pre ++ post) := {
      head_ne_nil := inv.head_ne_nil
      head_not_mem := fun hm => inv.head_not_mem (hmem _ hm).1
      nil_not_mem := fun hm => inv.nil_not_mem (hmem _ hm).1
      head_level := by
        show levelAt (hu.free a) s.head = maxLevel
        rw [lev3 _ (Ne.symm hahead)]; exact inv.head_level
      head_node := by
        show ∃ n, (hu.free a).read s.head = some n ∧ n.key = INT_MIN ∧ n.value = "head"
        obtain ⟨n, hn, _⟩ := levelAt_pos_read (h := hu.free a) (a := s.head)
          (by rw [lev3 _ (Ne.symm hahead), inv.head_level]; exact maxLevel_pos)
        refine ⟨n, hn, ?_, ?_⟩
        · apply Subtype.ext
          rw [← keyAt_of_read hn, key3 _ (Ne.symm hahead), keyAt_of_read hhdn, hhdk]
        · rw [← valueAt_of_read hn, val3 _ (Ne.symm hahead), valueAt_of_read hhdn, hhdv]
      nil_node := by
        show (hu.free a).read s.NIL = some (Node.new INT_MAX "NIL" maxLevel)
        rw [hrf _ (Ne.symm hane), ul.untouched s.NIL]
        · exact inv.nil_node
        · intro j _ hc1
          have hm := Split.pred_mem s.heap s.head pre j
          rw [← hc1] at hm
          rcases List.mem_cons.mp hm with hm | hm
          · exact inv.head_ne_nil hm.symm
          · exact inv.nil_not_mem (by rw [has]; exact List.mem_append_left _ hm)
      level_pos := by
        intro b hb
        show 1 ≤ levelAt (hu.free a) b
        rw [lev3 b (hmem b hb).2]; exact inv.level_pos b (hmem b hb).1
      level_le := by
        intro b hb
        show levelAt (hu.free a) b ≤ maxLevel
        rw [lev3 b (hmem b hb).2]; exact inv.level_le b (hmem b hb).1
      sorted := by
        show List.Pairwise (fun x y => keyAt (hu.free a) x < keyAt (hu.free a) y) (pre ++ post)
        have kk : ∀ b ∈ pre ++ post, keyAt (hu.free a) b = keyAt s.heap b :=
          fun b hb => key3 b (hmem b hb).2
        have : List.Pairwise (fun x y => keyAt s.heap x < keyAt s.heap y) (pre ++ post) := by
          rw [List.pairwise_append]
          exact ⟨hsorted.1, hsorted.2.1.2,
            fun x hx y hy => hsorted.2.2 x hx y (List.mem_cons_of_mem _ hy)⟩
        refine List.Pairwise.imp_of_mem ?_ this
        intro x y hx hy hxy
        rw [kk x hx, kk y hy]; exact hxy
      linked := by
        show LinkedL (hu.free a) s.NIL (s.head :: (pre ++ post))
        have hmem' : ∀ b ∈ s.head :: (pre ++ post), b ≠ a := by
          intro b hb
          rcases List.mem_cons.mp hb with hb | hb
          · rw [hb]; exact Ne.symm hahead
          · exact (hmem b hb).2
        refine LinkedL_erase ?_ (fun b hb => lev3 b (hmem' b hb)) ?_ sp.linked
        · have := (List.nodup_cons.mp hnd)
          rw [has] at this
          exact List.nodup_cons.mpr ⟨fun hm => this.1 (List.mem_cons_of_mem _ hm),
            (List.nodup_cons.mp this.2).2⟩
        · intro b hb j
          rw [fwd3 b j (hmem' b hb), ul.fwd b j, hlvl]
          rfl
      count_eq := by
        show s.elementCount - 1 = ((pre ++ post).length : Int)
        rw [inv.count_eq, has]
        simp only [List.length_append, List.length_cons]
        push_cast
        ring }
    exact {
      inv := inv'
      head_eq := rfl
      nil_eq := rfl
      rand := rfl
      count := rfl
      length := by
        show (hu.free a).length = s.heap.length
        rw [Heap.length_free, ul.len]
      old_key := key3
      old_value := val3
      old_level := lev3
      old_count := cnt3
      freed := by
        show (hu.free a).read a = none
        rw [Heap.read_free, if_pos rfl] }

/-! ## The reference model: a sorted list of key/value pairs -/

theorem filter_content_pos {h : Heap} {l : List Addr} {p : Int × String → Bool}
    (hl : ∀ a ∈ l, p (keyAt h a, valueAt h a) = true) :
    (content h l).filter p = content h l := by
  rw [List.filter_eq_self]
  intro q hq
  obtain ⟨a, ha, rfl⟩ := List.mem_map.mp hq
  exact hl a ha

theorem filter_content_neg {h : Heap} {l : List Addr} {p : Int × String → Bool}
    (hl : ∀ a ∈ l, p (keyAt h a, valueAt h a) = false) :
    (content h l).filter p = [] := by
  rw [List.filter_eq_nil_iff]
  intro q hq
  obtain ⟨a, ha, rfl⟩ := List.mem_map.mp hq
  rw [hl a ha]
  simp

theorem Inv.content_sorted {s : SkipList} {as : List Addr} (inv : Inv s as) :
    (content s.heap as).Pairwise fun p q => p.1 < q.1 := by
  unfold content
  rw [List.pairwise_map]
  exact inv.sorted

/-- `insert` refines insertion into the model. -/
theorem insert_abs {s : SkipList} {as : List Addr} (inv : Inv s as) (rnd : Nat → Bool)
    (k : CInt) (v : String) :
    ∃ s' as', insert rnd s k v = .ok s' ∧ Inv s' as' ∧
      content s'.heap as' = mInsert k.val v (content s.heap as) := by
  obtain ⟨pre, post, has, sp⟩ := inv.split k
  have hsorted := inv.sorted
  have hpre1 : (content s.heap pre).filter (fun p => decide (p.1 < k.val)) = content s.heap pre :=
    filter_content_pos fun a ha => by simpa using sp.pre_lt a ha
  have hpre2 : (content s.heap pre).filter (fun p => decide (k.val < p.1)) = [] :=
    filter_content_neg fun a ha => by
      have := sp.pre_lt a ha
      simp only [decide_eq_false_iff_not]; omega
  have hpost1 : (content s.heap post).filter (fun p => decide (p.1 < k.val)) = [] :=
    filter_content_neg fun a ha => by
      have := sp.post_ge a ha
      simp only [decide_eq_false_iff_not]; omega
  by_cases hk : ∀ a ∈ post, k.val < keyAt s.heap a
  · obtain ⟨s', hs', ins⟩ := insert_new inv has sp hk rnd v
    refine ⟨s', _, hs', ins.inv, ?_⟩
    have hold : ∀ a ∈ as, keyAt s'.heap a = keyAt s.heap a ∧
        valueAt s'.heap a = valueAt s.heap a := by
      intro a ha
      obtain ⟨n, hn, _⟩ := inv.read_of_mem ha
      have hne : a ≠ s.heap.length := Nat.ne_of_lt (Heap.read_lt hn)
      exact ⟨ins.old_key a hne, ins.old_value a hne⟩
    have hpost2 : (content s.heap post).filter (fun p => decide (k.val < p.1)) =
        content s.heap post :=
      filter_content_pos fun a ha => by simpa using hk a ha
    rw [content_append, content_cons, ins.new_key, ins.new_value,
      content_congr (fun a ha => hold a (by rw [has]; exact List.mem_append_left _ ha)),
      content_congr (fun a ha => hold a (by rw [has]; exact List.mem_append_right _ ha))]
    simp only [mInsert, has, content_append, List.filter_append, hpre1, hpre2, hpost1, hpost2,
      List.append_nil, List.nil_append]
  · -- the first node of `post` carries the key
    cases post with
    | nil => exact absurd (fun a ha => by simp at ha) hk
    | cons a post =>
      rw [has, List.pairwise_append, List.pairwise_cons] at hsorted
      have hka : keyAt s.heap a = k.val := by
        by_contra hne
        apply hk
        intro b hb
        have h1 := sp.post_ge a (List.mem_cons_self _ _)
        rcases List.mem_cons.mp hb with rfl | hb
        · omega
        · have := hsorted.2.1.1 b hb
          omega
      have ha : a ∈ as := by rw [has]; simp
      obtain ⟨na, hna, _⟩ := inv.read_of_mem ha
      refine ⟨_, as, insert_update inv has sp hka hna rnd v, inv.write_value ha hna v, ?_⟩
      have hnd : as.Nodup := (List.nodup_cons.mp (List.nodup_cons.mp inv.nodup).2).2
      rw [has] at hnd
      have hapre : a ∉ pre := fun hc =>
        (List.nodup_append.mp hnd).2.2 hc (List.mem_cons_self _ _)
      have hapost : a ∉ post := (List.nodup_cons.mp (List.nodup_append.mp hnd).2.1).1
      have hother : ∀ b, b ≠ a →
          keyAt (s.heap.write a { na with value := v }) b = keyAt s.heap b ∧
          valueAt (s.heap.write a { na with value := v }) b = valueAt s.heap b := by
        intro b hb
        rw [keyAt_write hna, valueAt_write hna, if_neg (Ne.symm hb), if_neg (Ne.symm hb)]
        exact ⟨rfl, rfl⟩
      have hpost2 : (content s.heap post).filter (fun p => decide (k.val < p.1)) =
          content s.heap post :=
        filter_content_pos fun b hb => by
          have := hsorted.2.1.1 b hb
          simp only [decide_eq_true_eq]; omega
      show content (s.heap.write a { na with value := v }) as = _
      rw [has, content_append, content_cons,
        content_congr (fun b hb => hother b (fun he => hapre (he ▸ hb))),
        content_congr (fun b hb => hother b (fun he => hapost (he ▸ hb))),
        keyAt_write hna, valueAt_write hna, if_pos rfl, if_pos rfl]
      have hkna : na.key.val = k.val := by rw [← hka, keyAt_of_read hna]
      have hpost1' : (content s.heap post).filter (fun p => decide (p.1 < k.val)) = [] :=
        filter_content_neg fun b hb => by
          have := hsorted.2.1.1 b hb
          simp only [decide_eq_false_iff_not]; omega
      simp only [mInsert, content_append, content_cons, List.filter_append, List.filter_cons,
        hpre1, hpre2, hpost1', hpost2, hka, hkna, lt_irrefl, decide_False, List.append_nil,
        List.nil_append]
      simp

/-- `erase` refines deletion from the model. -/
theorem erase_abs {s : SkipList} {as : List Addr} (inv : Inv s as) (k : CInt) :
    ∃ s' as', erase s k = .ok s' ∧ Inv s' as' ∧
      content s'.heap as' = mErase k.val (content s.heap as) := by
  obtain ⟨pre, post, has, sp⟩ := inv.split k
  have hsorted := inv.sorted
  have hpre : (content s.heap pre).filter (fun p => decide (p.1 ≠ k.val)) = content s.heap pre :=
    filter_content_pos fun a ha => by
      have := sp.pre_lt a ha
      simp only [decide_eq_true_eq]; omega
  by_cases hk : ∀ a ∈ post, k.val < keyAt s.heap a
  · refine ⟨s, as, erase_absent inv has sp hk, inv, ?_⟩
    have hpost : (content s.heap post).filter (fun p => decide (p.1 ≠ k.val)) =
        content s.heap post :=
      filter_content_pos fun a ha => by
        have := hk a ha
        simp only [decide_eq_true_eq]; omega
    simp only [mErase, has, content_append, List.filter_append, hpre, hpost]
  · cases post with
    | nil => exact absurd (fun a ha => by simp at ha) hk
    | cons a post =>
      rw [has, List.pairwise_append, List.pairwise_cons] at hsorted
      have hka : keyAt s.heap a = k.val := by
        by_contra hne
        apply hk
        intro b hb
        have h1 := sp.post_ge a (List.mem_cons_self _ _)
        rcases List.mem_cons.mp hb with rfl | hb
        · omega
        · have := hsorted.2.1.1 b hb
          omega
      obtain ⟨s', hs', er⟩ := erase_present inv has sp hka
      refine ⟨s', _, hs', er.inv, ?_⟩
      have hnd : as.Nodup := (List.nodup_cons.mp (List.nodup_cons.mp inv.nodup).2).2
      rw [has] at hnd
      have hapre : a ∉ pre := fun hc =>
        (List.nodup_append.mp hnd).2.2 hc (List.mem_cons_self _ _)
      have hapost : a ∉ post := (List.nodup_cons.mp (List.nodup_append.mp hnd).2.1).1
      have hpost : (content s.heap post).filter (fun p => decide (p.1 ≠ k.val)) =
          content s.heap post :=
        filter_content_pos fun b hb => by
          have := hsorted.2.1.1 b hb
          simp only [decide_eq_true_eq]; omega
      rw [content_append,
        content_congr (fun b hb => ⟨er.old_key b (fun he => hapre (he ▸ hb)),
          er.old_value b (fun he => hapre (he ▸ hb))⟩),
        content_congr (fun b hb => ⟨er.old_key b (fun he => hapost (he ▸ hb)),
          er.old_value b (fun he => hapost (he ▸ hb))⟩)]
      simp only [mErase, has, content_append, content_cons, List.filter_append,
        List.filter_cons, hpre, hpost, hka]
      simp

theorem step_abs {s : SkipList} {as : List Addr} (inv : Inv s as) (rnd : Nat → Bool) (op : Op) :
    ∃ s' as', step rnd s op = .ok s' ∧ Inv s' as' ∧
      content s'.heap as' = mStep (content s.heap as) op := by
  cases op with
  | insert k v => exact insert_abs inv rnd k v
  | erase k => exact erase_abs inv k

/-- Every sequence of calls runs to the end on a well-formed state, and the final state is
well-formed and holds what the model holds. -/
theorem run_abs (rnd : Nat → Bool) :
    ∀ (ops : List Op) (s : SkipList) (as : List Addr), Inv s as →
      ∃ s' as', run rnd ops s = .ok s' ∧ Inv s' as' ∧
        content s'.heap as' = mRun ops (content s.heap as) := by
  intro ops
  induction ops with
  | nil => intro s as inv; exact ⟨s, as, rfl, inv, rfl⟩
  | cons op ops ih =>
    intro s as inv
    obtain ⟨s1, as1, h1, inv1, hc1⟩ := step_abs inv rnd op
    obtain ⟨s2, as2, h2, inv2, hc2⟩ := ih s1 as1 inv1
    refine ⟨s2, as2, ?_, inv2, ?_⟩
    · simp only [run, h1, ok_bind, h2]
    · rw [hc2, hc1]; rfl

theorem new_inv (c : Nat) : Inv (SkipList.new c) [] where
  head_ne_nil := Nat.zero_ne_one
  head_not_mem := by simp
  nil_not_mem := by simp
  head_level := by rfl
  head_node := ⟨_, rfl, rfl, rfl⟩
  nil_node := by rfl
  level_pos := by simp
  level_le := by simp
  sorted := List.Pairwise.nil
  linked := by
    refine ⟨?_, trivial⟩
    intro i hi
    have hi' : i < 16 := hi
    interval_cases i <;> rfl
  count_eq := by rfl

/-- From the empty list every sequence of calls runs to the end, and ends in a well-formed
state that holds what the model holds. -/
theorem run_new (rnd : Nat → Bool) (c : Nat) (ops : List Op) :
    ∃ s as, run rnd ops (SkipList.new c) = .ok s ∧ Inv s as ∧
      content s.heap as = mRun ops [] :=
  run_abs rnd ops (SkipList.new c) [] (new_inv c)

/-! ## Facts about the model -/

theorem mem_mInsert {k : Int} {v : String} {L : List (Int × String)} {p : Int × String} :
    p ∈ mInsert k v L ↔ p = (k, v) ∨ (p ∈ L ∧ p.1 ≠ k) := by
  simp only [mInsert, List.mem_append, List.mem_cons, List.mem_filter, decide_eq_true_eq]
  constructor
  · rintro (⟨h1, h2⟩ | h | ⟨h1, h2⟩)
    · exact Or.inr ⟨h1, by omega⟩
    · exact Or.inl h
    · exact Or.inr ⟨h1, by omega⟩
  · rintro (h | ⟨h1, h2⟩)
    · exact Or.inr (Or.inl h)
    · rcases lt_or_gt_of_ne h2 with h3 | h3
      · exact Or.inl ⟨h1, h3⟩
      · exact Or.inr (Or.inr ⟨h1, h3⟩)

theorem mem_mErase {k : Int} {L : List (Int × String)} {p : Int × String} :
    p ∈ mErase k L ↔ p ∈ L ∧ p.1 ≠ k := by
  simp [mErase, List.mem_filter]

theorem mInsert_sorted {k : Int} {v : String} {L : List (Int × String)}
    (hL : L.Pairwise fun p q => p.1 < q.1) : (mInsert k v L).Pairwise fun p q => p.1 < q.1 := by
  unfold mInsert
  rw [List.pairwise_append, List.pairwise_cons]
  refine ⟨hL.filter _, ⟨?_, hL.filter _⟩, ?_⟩
  · intro q hq
    simpa using (List.mem_filter.mp hq).2
  · intro p hp q hq
    have h1 : p.1 < k := by simpa using (List.mem_filter.mp hp).2
    rcases List.mem_cons.mp hq with rfl | hq
    · exact h1
    · have h2 : k < q.1 := by simpa using (List.mem_filter.mp hq).2
      omega

theorem mErase_sorted {k : Int} {L : List (Int × String)}
    (hL : L.Pairwise fun p q => p.1 < q.1) : (mErase k L).Pairwise fun p q => p.1 < q.1 :=
  hL.filter _

theorem mStep_sorted {L : List (Int × String)} (hL : L.Pairwise fun p q => p.1 < q.1)
    (op : Op) : (mStep L op).Pairwise fun p q => p.1 < q.1 := by
  cases op with
  | insert k v => exact mInsert_sorted hL
  | erase k => exact mErase_sorted hL

theorem lookupKey_eq_some_iff {k : Int} {v : String} {L : List (Int × String)}
    (hL : L.Pairwise fun p q => p.1 < q.1) : lookupKey k L = some v ↔ (k, v) ∈ L := by
  induction L with
  | nil => simp [lookupKey]
  | cons p L ih =>
    obtain ⟨k', v'⟩ := p
    rw [List.pairwise_cons] at hL
    by_cases hk : k' = k
    · subst hk
      simp only [lookupKey, if_true, Option.some.injEq, List.mem_cons, Prod.mk.injEq,
        true_and]
      constructor
      · exact fun h => Or.inl h.symm
      · rintro (h | h)
        · exact h.symm
        · exact absurd (hL.1 _ h) (lt_irrefl _)
    · simp only [lookupKey, hk, if_false, ih hL.2, List.mem_cons, Prod.mk.injEq]
      constructor
      · exact fun h => Or.inr h
      · rintro (h | h)
        · exact absurd h.1.symm hk
        · exact h

theorem lookupKey_mInsert_same (k : Int) (v : String) (L : List (Int × String)) :
    lookupKey k (mInsert k v L) = some v := by
  unfold mInsert
  rw [lookupKey_append, lookupKey_eq_none]
  · simp [lookupKey]
  · intro p hp
    have : p.1 < k := by simpa using (List.mem_filter.mp hp).2
    omega

theorem lookupKey_mInsert_ne {k k' : Int} (hk : k ≠ k') (v : String) {L : List (Int × String)}
    (hL : L.Pairwise fun p q => p.1 < q.1) :
    lookupKey k (mInsert k' v L) = lookupKey k L := by
  apply Option.ext
  intro w
  rw [Option.mem_def, Option.mem_def, lookupKey_eq_some_iff (mInsert_sorted hL),
    lookupKey_eq_some_iff hL, mem_mInsert]
  constructor
  · rintro (h | h)
    · exact absurd (congrArg Prod.fst h) hk
    · exact h.1
  · exact fun h => Or.inr ⟨h, hk⟩

theorem lookupKey_mErase_same (k : Int) (L : List (Int × String)) :
    lookupKey k (mErase k L) = none := by
  apply lookupKey_eq_none
  intro p hp
  exact (mem_mErase.mp hp).2

theorem lookupKey_none_iff {k : Int} {L : List (Int × String)} :
    lookupKey k L = none ↔ k ∉ L.map Prod.fst := by
  rw [← lookupKey_isSome_iff]
  cases lookupKey k L <;> simp

theorem mem_keys_mStep {k : Int} {L : List (Int × String)} {op : Op}
    (hk : k ∈ (mStep L op).map Prod.fst) :
    k ∈ L.map Prod.fst ∨ ∃ kk v, op = Op.insert kk v ∧ kk.val = k := by
  obtain ⟨p, hp, rfl⟩ := List.mem_map.mp hk
  cases op with
  | insert kk v =>
    rcases mem_mInsert.mp hp with h | h
    · right; exact ⟨kk, v, rfl, by rw [h]⟩
    · left; exact List.mem_map.mpr ⟨p, h.1, rfl⟩
  | erase kk =>
    left; exact List.mem_map.mpr ⟨p, (mem_mErase.mp hp).1, rfl⟩

theorem mRun_sorted : ∀ (ops : List Op) {L : List (Int × String)},
    (L.Pairwise fun p q => p.1 < q.1) → (mRun ops L).Pairwise fun p q => p.1 < q.1 := by
  intro ops
  induction ops with
  | nil => intro L hL; exact hL
  | cons op ops ih => intro L hL; exact ih (mStep_sorted hL op)

theorem mRun_append (ops1 ops2 : List Op) (L : List (Int × String)) :
    mRun (ops1 ++ ops2) L = mRun ops2 (mRun ops1 L) := by
  induction ops1 generalizing L with
  | nil => rfl
  | cons op ops1 ih => exact ih _

/-- A key that no call inserts is not in the model. -/
theorem mRun_not_mem {k : CInt} : ∀ (ops : List Op) (L : List (Int × String)),
    (∀ v, Op.insert k v ∉ ops) → k.val ∉ L.map Prod.fst →
      k.val ∉ (mRun ops L).map Prod.fst := by
  intro ops
  induction ops with
  | nil => intro L _ hL; exact hL
  | cons op ops ih =>
    intro L hops hL
    apply ih (mStep L op) (fun v hv => hops v (List.mem_cons_of_mem _ hv))
    intro hc
    rcases mem_keys_mStep hc with h | ⟨kk, v, rfl, hkk⟩
    · exact hL h
    · have : kk = k := Subtype.ext hkk
      subst this
      exact hops v (List.mem_cons_self _ _)

/-- A binding survives insertions of other keys. -/
theorem mRun_inserts_lookup {k : CInt} {v : String} :
    ∀ (more : List (CInt × String)) (L : List (Int × String)),
      (∀ p ∈ more, p.1 ≠ k) → (L.Pairwise fun p q => p.1 < q.1) →
      lookupKey k.val L = some v →
      lookupKey k.val (mRun (more.map fun p => Op.insert p.1 p.2) L) = some v := by
  intro more
  induction more with
  | nil => intro L _ _ h; exact h
  | cons q more ih =>
    intro L hmore hL h
    apply ih _ (fun p hp => hmore p (List.mem_cons_of_mem _ hp)) (mInsert_sorted hL)
    have hne : k.val ≠ q.1.val := fun he =>
      hmore q (List.mem_cons_self _ _) (Subtype.ext he.symm)
    rw [lookupKey_mInsert_ne hne _ hL]
    exact h

/-- The keys of the model after a sequence of insertions. -/
theorem mem_keys_mRun_inserts {k : Int} :
    ∀ (kvs : List (CInt × String)) (L : List (Int × String)),
      k ∈ (mRun (kvs.map fun p => Op.insert p.1 p.2) L).map Prod.fst ↔
        k ∈ L.map Prod.fst ∨ k ∈ kvs.map fun p => p.1.val := by
  intro kvs
  induction kvs with
  | nil => intro L; simp [mRun]
  | cons q kvs ih =>
    intro L
    simp only [List.map_cons, mRun, mStep]
    rw [ih]
    have : k ∈ (mInsert q.1.val q.2 L).map Prod.fst ↔ k = q.1.val ∨ k ∈ L.map Prod.fst := by
      constructor
      · intro h
        obtain ⟨p, hp, rfl⟩ := List.mem_map.mp h
        rcases mem_mInsert.mp hp with h1 | h1
        · left; rw [h1]
        · right; exact List.mem_map.mpr ⟨p, h1.1, rfl⟩
      · rintro (h | h)
        · exact List.mem_map.mpr ⟨(q.1.val, q.2), mem_mInsert.mpr (Or.inl rfl), h.symm⟩
        · obtain ⟨p, hp, rfl⟩ := List.mem_map.mp h
          by_cases hpk : p.1 = q.1.val
          · exact List.mem_map.mpr ⟨(q.1.val, q.2), mem_mInsert.mpr (Or.inl rfl), hpk.symm⟩
          · exact List.mem_map.mpr ⟨p, mem_mInsert.mpr (Or.inr ⟨hp, hpk⟩), rfl⟩
    rw [this, List.mem_cons]
    tauto

/-! ## Reachable states -/

theorem Reachable.inv {rnd : Nat → Bool} {s : SkipList} (hs : Reachable rnd s) :
    ∃ as, Inv s as := by
  obtain ⟨c, ops, hrun⟩ := hs
  obtain ⟨s', as, h1, inv, _⟩ := run_new rnd c ops
  rw [h1] at hrun
  rw [← Except.ok.inj hrun]
  exact ⟨as, inv⟩

theorem hit_some {h : Heap} {k : CInt} {post : List Addr} {a : Addr}
    (ha : hit h k post = some a) : ∃ post', post = a :: post' ∧ keyAt h a = k.val := by
  cases post with
  | nil => simp [hit] at ha
  | cons b post =>
    simp only [hit] at ha
    by_cases hk : keyAt h b = k.val
    · simp only [hk, if_true, Option.some.injEq] at ha
      subst ha
      exact ⟨post, rfl, hk⟩
    · simp [hk] at ha

theorem find_eq_hit {s : SkipList} {as : List Addr} (inv : Inv s as) {k : CInt}
    {pre post : List Addr} (has : as = pre ++ post)
    (sp : Split s.heap s.head s.NIL k pre post) :
    find s k = .ok ((hit s.heap k post).map (valueAt s.heap)) := by
  apply find_of_findNode inv (findNode_spec inv has sp)
  intro a ha
  rw [has]
  exact List.mem_append_right _ (hit_mem ha).1

/-- A key that `find` finds is carried by a live node, the first one that is not below it. -/
theorem find_some_split {s : SkipList} {as : List Addr} (inv : Inv s as) {k : CInt}
    {v : String} (hf : find s k = .ok (some v)) :
    ∃ pre a post na, as = pre ++ a :: post ∧ Split s.heap s.head s.NIL k pre (a :: post) ∧
      keyAt s.heap a = k.val ∧ s.heap.read a = some na ∧ na.value = v := by
  obtain ⟨pre, post, has, sp⟩ := inv.split k
  rw [find_eq_hit inv has sp] at hf
  have hf' := Except.ok.inj hf
  cases hh : hit s.heap k post with
  | none => rw [hh] at hf'; simp at hf'
  | some a =>
    rw [hh] at hf'
    obtain ⟨post', hp, hka⟩ := hit_some hh
    subst hp
    have ha : a ∈ as := by rw [has]; simp
    obtain ⟨na, hna, _⟩ := inv.read_of_mem ha
    refine ⟨pre, a, post', na, has, sp, hka, hna, ?_⟩
    simp only [Option.map, Option.some.injEq] at hf'
    rw [← hf', valueAt_of_read hna]

/-- A key that `find` does not find is below every node that is not below it. -/
theorem find_none_split {s : SkipList} {as : List Addr} (inv : Inv s as) {k : CInt}
    (hf : find s k = .ok none) :
    ∃ pre post, as = pre ++ post ∧ Split s.heap s.head s.NIL k pre post ∧
      ∀ a ∈ post, k.val < keyAt s.heap a := by
  obtain ⟨pre, post, has, sp⟩ := inv.split k
  refine ⟨pre, post, has, sp, ?_⟩
  rw [find_eq_hit inv has sp] at hf
  have hf' := Except.ok.inj hf
  cases post with
  | nil => simp
  | cons b post =>
    have hkb : keyAt s.heap b ≠ k.val := by
      intro hc
      simp [hit, hc] at hf'
    have hsorted := inv.sorted
    rw [has, List.pairwise_append, List.pairwise_cons] at hsorted
    have h1 := sp.post_ge b (List.mem_cons_self _ _)
    intro a ha
    rcases List.mem_cons.mp ha with rfl | ha
    · omega
    · have := hsorted.2.1.1 a ha
      omega

/-! ## The claims -/

/-- Claim C1: from any state reached by inserts and erases, with any levels, after
`insert(k, v)` followed by inserts of keys other than `k`, `find(k)` returns `v`; the whole
sequence of calls runs without a fault. -/
theorem find_after_insert (rnd : Nat → Bool) (c : Nat) (ops : List Op) (k : CInt) (v : String)
    (more : List (CInt × String)) (hmore : ∀ p ∈ more, p.1 ≠ k) :
    ∃ s, run rnd (ops ++ Op.insert k v :: more.map fun p => Op.insert p.1 p.2)
        (SkipList.new c) = .ok s ∧ find s k = .ok (some v) := by
  obtain ⟨s, as, hrun, inv, hc⟩ := run_new rnd c
    (ops ++ Op.insert k v :: more.map fun p => Op.insert p.1 p.2)
  refine ⟨s, hrun, ?_⟩
  rw [find_spec inv k, hc, mRun_append]
  congr 1
  exact mRun_inserts_lookup more _ hmore
    (mInsert_sorted (mRun_sorted ops List.Pairwise.nil)) (lookupKey_mInsert_same _ _ _)

/-- Witness of `find_after_insert`: insert 5, erase 5, insert `INT_MAX`, insert `INT_MIN`. -/
theorem find_after_insert_witness :
    (∀ p ∈ [(INT_MIN, "z")], p.1 ≠ INT_MAX) ∧
      ∃ s, run (fun _ => false)
        ([Op.insert (CInt.ofInt 5) "x", Op.erase (CInt.ofInt 5)] ++
          Op.insert INT_MAX "v" :: [(INT_MIN, "z")].map fun p => Op.insert p.1 p.2)
        (SkipList.new 0) = .ok s ∧ find s INT_MAX = .ok (some "v") :=
  ⟨by decide, find_after_insert (fun _ => false) 0
    [Op.insert (CInt.ofInt 5) "x", Op.erase (CInt.ofInt 5)] INT_MAX "v" [(INT_MIN, "z")]
    (by decide)⟩

/-- Claim C2: `find(k)` returns absent on the empty list and on every state reached by
inserts and erases none of which inserts `k`; and in these states no search, for any key,
reports the tail or the head sentinel as the node found. -/
theorem find_never_inserted (rnd : Nat → Bool) (c : Nat) (ops : List Op) (k : CInt)
    (hk : ∀ v, Op.insert k v ∉ ops) :
    find (SkipList.new c) k = .ok none ∧
      ∃ s, run rnd ops (SkipList.new c) = .ok s ∧ find s k = .ok none ∧
        ∀ k', findNode s k' ≠ .ok (some s.NIL) ∧ findNode s k' ≠ .ok (some s.head) := by
  refine ⟨?_, ?_⟩
  · rw [find_spec (new_inv c) k]; rfl
  · obtain ⟨s, as, hrun, inv, hc⟩ := run_new rnd c ops
    refine ⟨s, hrun, ?_, ?_⟩
    · rw [find_spec inv k, hc]
      congr 1
      rw [lookupKey_none_iff]
      exact mRun_not_mem ops [] hk (by simp)
    · intro k'
      obtain ⟨pre, post, has, sp⟩ := inv.split k'
      rw [findNode_spec inv has sp]
      constructor
      · intro hc'
        have := (hit_mem (Except.ok.inj hc')).1
        exact inv.nil_not_mem (by rw [has]; exact List.mem_append_right _ this)
      · intro hc'
        have := (hit_mem (Except.ok.inj hc')).1
        exact inv.head_not_mem (by rw [has]; exact List.mem_append_right _ this)

/-- Witness of `find_never_inserted`: `INT_MAX` is never inserted, `INT_MIN` is. -/
theorem find_never_inserted_witness :
    (∀ v, Op.insert INT_MAX v ∉ [Op.insert INT_MIN "z", Op.erase INT_MAX]) ∧
      find (SkipList.new 0) INT_MAX = .ok none ∧
      ∃ s, run (fun _ => true) [Op.insert INT_MIN "z", Op.erase INT_MAX] (SkipList.new 0) =
          .ok s ∧ find s INT_MAX = .ok none ∧
        ∀ k', findNode s k' ≠ .ok (some s.NIL) ∧ findNode s k' ≠ .ok (some s.head) :=
  ⟨by simp [INT_MAX, INT_MIN], find_never_inserted (fun _ => true) 0
    [Op.insert INT_MIN "z", Op.erase INT_MAX] INT_MAX (by simp [INT_MAX, INT_MIN])⟩

/-- Claim C3: on a reachable state that contains key `k`, `insert(k, v2)` returns the same
state with the value of the live node that carries `k` replaced: the element count, the number
of draws consumed, every other node, and the key, count and forward links of that node are
unchanged. -/
theorem insert_existing_key (rnd : Nat → Bool) (s : SkipList) (k : CInt) (v1 v2 : String)
    (hs : Reachable rnd s) (hk : find s k = .ok (some v1)) :
    ∃ a n, s.heap.read a = some n ∧ n.key = k ∧ n.value = v1 ∧ a ≠ s.head ∧ a ≠ s.NIL ∧
      insert rnd s k v2 = .ok { s with heap := s.heap.write a { n with value := v2 } } ∧
      (s.heap.write a { n with value := v2 }).read a = some { n with value := v2 } ∧
      ∀ b, b ≠ a → (s.heap.write a { n with value := v2 }).read b = s.heap.read b := by
  obtain ⟨as, inv⟩ := hs.inv
  obtain ⟨pre, a, post, na, has, sp, hka, hna, hval⟩ := find_some_split inv hk
  have ha : a ∈ as := by rw [has]; simp
  refine ⟨a, na, hna, ?_, hval, fun h => inv.head_not_mem (h ▸ ha),
    fun h => inv.nil_not_mem (h ▸ ha), insert_update inv has sp hka hna rnd v2,
    Heap.read_write_same _ hna, fun b hb => Heap.read_write_ne _ (Ne.symm hb)⟩
  apply Subtype.ext
  rw [← hka, keyAt_of_read hna]

/-- Witness of `insert_existing_key`: the state after `insert(40, "A")`. -/
theorem insert_existing_key_witness :
    Reachable (fun _ => true) (stateAfter (fun _ => true) [Op.insert (CInt.ofInt 40) "A"]) ∧
      find (stateAfter (fun _ => true) [Op.insert (CInt.ofInt 40) "A"]) (CInt.ofInt 40) =
        .ok (some "A") ∧
      ∃ a n, (stateAfter (fun _ => true) [Op.insert (CInt.ofInt 40) "A"]).heap.read a = some n ∧
        n.key = CInt.ofInt 40 ∧ n.value = "A" ∧
        a ≠ (stateAfter (fun _ => true) [Op.insert (CInt.ofInt 40) "A"]).head ∧
        a ≠ (stateAfter (fun _ => true) [Op.insert (CInt.ofInt 40) "A"]).NIL ∧
        insert (fun _ => true) (stateAfter (fun _ => true) [Op.insert (CInt.ofInt 40) "A"])
            (CInt.ofInt 40) "TEST" =
          .ok { stateAfter (fun _ => true) [Op.insert (CInt.ofInt 40) "A"] with
            heap := (stateAfter (fun _ => true) [Op.insert (CInt.ofInt 40) "A"]).heap.write a
              { n with value := "TEST" } } ∧
        ((stateAfter (fun _ => true) [Op.insert (CInt.ofInt 40) "A"]).heap.write a
          { n with value := "TEST" }).read a = some { n with value := "TEST" } ∧
        ∀ b, b ≠ a → ((stateAfter (fun _ => true) [Op.insert (CInt.ofInt 40) "A"]).heap.write a
          { n with value := "TEST" }).read b =
            (stateAfter (fun _ => true) [Op.insert (CInt.ofInt 40) "A"]).heap.read b :=
  ⟨⟨0, [Op.insert (CInt.ofInt 40) "A"], rfl⟩, rfl,
    insert_existing_key (fun _ => true) _ (CInt.ofInt 40) "A" "TEST"
      ⟨0, [Op.insert (CInt.ofInt 40) "A"], rfl⟩ rfl⟩

/-- Claim C4: on a reachable state that contains key `k`, `erase(k)` returns a state on which
`find(k)` is absent and whose element count is one less. -/
theorem erase_then_find (rnd : Nat → Bool) (s : SkipList) (k : CInt) (v : String)
    (hs : Reachable rnd s) (hk : find s k = .ok (some v)) :
    ∃ s', erase s k = .ok s' ∧ find s' k = .ok none ∧
      s'.elementCount = s.elementCount - 1 := by
  obtain ⟨as, inv⟩ := hs.inv
  obtain ⟨pre, a, post, na, has, sp, hka, hna, _⟩ := find_some_split inv hk
  obtain ⟨s', hs', er⟩ := erase_present inv has sp hka
  refine ⟨s', hs', ?_, er.count⟩
  rw [find_spec er.inv k]
  congr 1
  apply lookupKey_eq_none
  intro p hp
  obtain ⟨b, hb, hkb⟩ := mem_content_fst hp
  have hnd : as.Nodup := (List.nodup_cons.mp (List.nodup_cons.mp inv.nodup).2).2
  have hsorted := inv.sorted
  rw [has] at hnd
  rw [has, List.pairwise_append, List.pairwise_cons] at hsorted
  rw [← hkb]
  rcases List.mem_append.mp hb with hb | hb
  · have hne : b ≠ a := fun he =>
      (List.nodup_append.mp hnd).2.2 (he ▸ hb) (List.mem_cons_self _ _)
    rw [er.old_key b hne]
    have := sp.pre_lt b hb
    omega
  · have hne : b ≠ a := fun he =>
      (List.nodup_cons.mp (List.nodup_append.mp hnd).2.1).1 (he ▸ hb)
    rw [er.old_key b hne]
    have := hsorted.2.1.1 b hb
    omega

/-- Witness of `erase_then_find`: insert `(40, "A")`, then `erase(40)`. -/
theorem erase_then_find_witness :
    Reachable (fun _ => true) (stateAfter (fun _ => true) [Op.insert (CInt.ofInt 40) "A"]) ∧
      find (stateAfter (fun _ => true) [Op.insert (CInt.ofInt 40) "A"]) (CInt.ofInt 40) =
        .ok (some "A") ∧
      ∃ s', erase (stateAfter (fun _ => true) [Op.insert (CInt.ofInt 40) "A"])
          (CInt.ofInt 40) = .ok s' ∧ find s' (CInt.ofInt 40) = .ok none ∧
        s'.elementCount =
          (stateAfter (fun _ => true) [Op.insert (CInt.ofInt 40) "A"]).elementCount - 1 :=
  ⟨⟨0, [Op.insert (CInt.ofInt 40) "A"], rfl⟩, rfl,
    erase_then_find (fun _ => true) _ (CInt.ofInt 40) "A"
      ⟨0, [Op.insert (CInt.ofInt 40) "A"], rfl⟩ rfl⟩

/-- Claim C5: on a reachable state, `erase(k)` of a key that is not stored, `INT_MAX`
included, returns normally with the state unchanged. -/
theorem erase_absent_key (rnd : Nat → Bool) (s : SkipList) (k : CInt)
    (hs : Reachable rnd s) (hk : find s k = .ok none) : erase s k = .ok s := by
  obtain ⟨as, inv⟩ := hs.inv
  obtain ⟨pre, post, has, sp, hpost⟩ := find_none_split inv hk
  exact erase_absent inv has sp hpost

/-- Witness of `erase_absent_key`: `erase(INT_MAX)` after `insert(40, "A")`. -/
theorem erase_absent_key_witness :
    Reachable (fun _ => true) (stateAfter (fun _ => true) [Op.insert (CInt.ofInt 40) "A"]) ∧
      find (stateAfter (fun _ => true) [Op.insert (CInt.ofInt 40) "A"]) INT_MAX = .ok none ∧
      erase (stateAfter (fun _ => true) [Op.insert (CInt.ofInt 40) "A"]) INT_MAX =
        .ok (stateAfter (fun _ => true) [Op.insert (CInt.ofInt 40) "A"]) :=
  ⟨⟨0, [Op.insert (CInt.ofInt 40) "A"], rfl⟩, rfl,
    erase_absent_key (fun _ => true) _ INT_MAX ⟨0, [Op.insert (CInt.ofInt 40) "A"], rfl⟩ rfl⟩

/-- The keys written by `print` are the keys of the model. -/
theorem print_keys {s : SkipList} {as : List Addr} (inv : Inv s as) :
    ∃ out, print s = .ok out ∧
      out.map (fun t => t.2.1.val) = (content s.heap as).map Prod.fst ∧
      out.length = as.length := by
  obtain ⟨out, h1, h2, _⟩ := print_spec inv
  refine ⟨out, h1, ?_, ?_⟩
  · rw [← h2, List.map_map]; rfl
  · have := congrArg List.length h2
    simpa [content_length] using this

/-- Claim C6: after any sequence of inserts and erases, with any levels, the keys that `print`
meets from `head.forward[0]` to the tail are strictly ascending. -/
theorem print_keys_ascending (rnd : Nat → Bool) (c : Nat) (ops : List Op) :
    ∃ s out, run rnd ops (SkipList.new c) = .ok s ∧ print s = .ok out ∧
      (out.map fun t => t.2.1.val).Pairwise (· < ·) := by
  obtain ⟨s, as, hrun, inv, _⟩ := run_new rnd c ops
  obtain ⟨out, h1, h2, _⟩ := print_keys inv
  refine ⟨s, out, hrun, h1, ?_⟩
  rw [h2, List.pairwise_map]
  exact inv.content_sorted

/-- Claim C7: after any sequence of inserts and erases `elementCount` is the number of nodes
that `print` meets. -/
theorem elementCount_eq_print_length (rnd : Nat → Bool) (c : Nat) (ops : List Op) :
    ∃ s out, run rnd ops (SkipList.new c) = .ok s ∧ print s = .ok out ∧
      s.elementCount = out.length := by
  obtain ⟨s, as, hrun, inv, _⟩ := run_new rnd c ops
  obtain ⟨out, h1, _, h3⟩ := print_keys inv
  exact ⟨s, out, hrun, h1, by rw [inv.count_eq, h3]⟩

/-- Claim C8: after inserting a list of pairs into the empty list, in any order and with any
levels, `print` yields strictly ascending keys, and a key is printed exactly when it was
inserted; inserting 1, 2, 3 prints the keys 1, 2, 3 with their values. -/
theorem print_after_inserts (rnd : Nat → Bool) (c : Nat) :
    (∀ kvs : List (CInt × String), ∃ s out,
      run rnd (kvs.map fun p => Op.insert p.1 p.2) (SkipList.new c) = .ok s ∧
      print s = .ok out ∧ (out.map fun t => t.2.1.val).Pairwise (· < ·) ∧
      ∀ k : CInt, k ∈ out.map (fun t => t.2.1) ↔ k ∈ kvs.map Prod.fst) ∧
    ∀ v1 v2 v3 : String, ∃ s out,
      run rnd [Op.insert (CInt.ofInt 1) v1, Op.insert (CInt.ofInt 2) v2,
        Op.insert (CInt.ofInt 3) v3] (SkipList.new c) = .ok s ∧
      print s = .ok out ∧ out.map (fun t => (t.2.1.val, t.1)) = [(1, v1), (2, v2), (3, v3)] := by
  constructor
  · intro kvs
    obtain ⟨s, as, hrun, inv, hc⟩ := run_new rnd c (kvs.map fun p => Op.insert p.1 p.2)
    obtain ⟨out, h1, h2, _⟩ := print_keys inv
    refine ⟨s, out, hrun, h1, ?_, ?_⟩
    · rw [h2, List.pairwise_map]
      exact inv.content_sorted
    · intro k
      have e1 : k ∈ out.map (fun t => t.2.1) ↔ k.val ∈ out.map (fun t => t.2.1.val) := by
        simp only [List.mem_map]
        constructor
        · rintro ⟨t, ht, rfl⟩; exact ⟨t, ht, rfl⟩
        · rintro ⟨t, ht, hk⟩; exact ⟨t, ht, Subtype.ext hk⟩
      have e2 : k ∈ kvs.map Prod.fst ↔ k.val ∈ kvs.map (fun p => p.1.val) := by
        simp only [List.mem_map]
        constructor
        · rintro ⟨t, ht, rfl⟩; exact ⟨t, ht, rfl⟩
        · rintro ⟨t, ht, hk⟩; exact ⟨t, ht, Subtype.ext hk⟩
      rw [e1, e2, h2, hc, mem_keys_mRun_inserts]
      simp
  · intro v1 v2 v3
    obtain ⟨s, as, hrun, inv, hc⟩ := run_new rnd c [Op.insert (CInt.ofInt 1) v1,
      Op.insert (CInt.ofInt 2) v2, Op.insert (CInt.ofInt 3) v3]
    obtain ⟨out, h1, h2, _⟩ := print_spec inv
    refine ⟨s, out, hrun, h1, ?_⟩
    rw [h2, hc]
    simp [mRun, mStep, mInsert, CInt.ofInt]

/-! ## The calls of `main` -/

theorem CInt.ofInt_val {z : Int} (h1 : -2147483648 ≤ z) (h2 : z ≤ 2147483647) :
    (CInt.ofInt z).val = z := by
  show (z + 2147483648) % 4294967296 - 2147483648 = z
  omega

theorem mInsert_front {k : Int} (v : String) {L : List (Int × String)}
    (hL : ∀ p ∈ L, k < p.1) : mInsert k v L = (k, v) :: L := by
  unfold mInsert
  rw [List.filter_eq_nil_iff.mpr, List.filter_eq_self.mpr]
  · rfl
  · intro p hp; simpa using hL p hp
  · intro p hp
    have := hL p hp
    simp only [decide_eq_true_eq]; omega

/-- Inserting the keys `n, n-1, ..., 1` in front of larger keys. -/
theorem mRun_descending (n : Nat) (hn : n ≤ 2147483647) :
    ∀ L : List (Int × String), (∀ p ∈ L, (n : Int) < p.1) →
      mRun ((List.range n).reverse.map
          fun i : Nat => Op.insert (CInt.ofInt ((i : Int) + 1)) "") L =
        ((List.range n).map fun i : Nat => (((i : Int) + 1), "")) ++ L := by
  induction n with
  | zero => intro L _; rfl
  | succ n ih =>
    intro L hL
    have hval : (CInt.ofInt ((n : Int) + 1)).val = (n : Int) + 1 :=
      CInt.ofInt_val (by omega) (by omega)
    have hfront : mInsert ((n : Int) + 1) "" L = ((n : Int) + 1, "") :: L :=
      mInsert_front "" fun p hp => by
        have := hL p hp
        push_cast at this
        exact this
    rw [List.range_succ, List.reverse_append, List.reverse_singleton, List.singleton_append,
      List.map_cons, mRun, mStep, hval, hfront, ih (by omega), List.map_append, List.map_singleton,
      List.append_assoc, List.singleton_append]
    intro p hp
    rcases List.mem_cons.mp hp with rfl | hp
    · simp
    · have := hL p hp
      push_cast at this
      omega

theorem mInsert_length_of_mem {k : Int} (v : String) :
    ∀ {L : List (Int × String)}, (L.Pairwise fun p q => p.1 < q.1) → k ∈ L.map Prod.fst →
      (mInsert k v L).length = L.length := by
  intro L
  induction L with
  | nil => intro _ hk; simp at hk
  | cons p L ih =>
    intro hL hk
    rw [List.pairwise_cons] at hL
    rw [List.map_cons, List.mem_cons] at hk
    rcases lt_trichotomy p.1 k with h | h | h
    · have hk' : k ∈ L.map Prod.fst := by
        rcases hk with hk | hk
        · omega
        · exact hk
      have hlt : ¬ k < p.1 := by omega
      have := ih hL.2 hk'
      simp only [mInsert, List.filter_cons, h, hlt, decide_True, decide_False, if_true,
        List.cons_append, List.length_cons, List.length_append, Bool.false_eq_true,
        if_false] at this ⊢
      omega
    · have hgt : ∀ q ∈ L, k < q.1 := fun q hq => by rw [← h]; exact hL.1 q hq
      have hfront := mInsert_front v hgt
      have hlt : ¬ p.1 < k := by omega
      have hlt' : ¬ k < p.1 := by omega
      simp only [mInsert, List.filter_cons, hlt, hlt', decide_False, Bool.false_eq_true,
        if_false] at hfront ⊢
      rw [hfront]
      simp
    · exfalso
      rcases hk with hk | hk
      · omega
      · obtain ⟨q, hq, rfl⟩ := List.mem_map.mp hk
        have := hL.1 q hq
        omega

/-- The model after the calls of `main` holds 2500000 pairs. -/
theorem mRun_mainOps_length : (mRun mainOps []).length = 2500000 := by
  unfold mainOps
  rw [mRun_append, mRun_descending 2500000 (by decide) [] (by simp), List.append_nil]
  have hs1 : (List.map (fun i : Nat => (((i : Int) + 1), "")) (List.range 2500000)).Pairwise
      fun p q => p.1 < q.1 := by
    rw [List.pairwise_map]
    refine List.Pairwise.imp ?_ (List.pairwise_lt_range 2500000)
    intro a b hab
    show (a : Int) + 1 < (b : Int) + 1
    omega
  have hm1 : (90 : Int) ∈
      (List.map (fun i : Nat => (((i : Int) + 1), "")) (List.range 2500000)).map Prod.fst := by
    rw [List.map_map]
    exact List.mem_map.mpr ⟨89, List.mem_range.mpr (by decide), by decide⟩
  have hm2 : (91 : Int) ∈ (mInsert 90 "90"
      (List.map (fun i : Nat => (((i : Int) + 1), "")) (List.range 2500000))).map Prod.fst := by
    refine List.mem_map.mpr ⟨(91, ""), mem_mInsert.mpr (Or.inr ⟨?_, by decide⟩), rfl⟩
    exact List.mem_map.mpr ⟨90, List.mem_range.mpr (by decide), by decide⟩
  have hv90 : (CInt.ofInt 90).val = 90 := by decide
  have hv91 : (CInt.ofInt 91).val = 91 := by decide
  simp only [mRun, mStep, hv90, hv91]
  rw [mInsert_length_of_mem "91" (mInsert_sorted hs1) hm2, mInsert_length_of_mem "90" hs1 hm1]
  simp

/-- Amended claim C9: after the calls of `main` (keys 2500000 down to 1 with the empty string,
then `(90, "90")` and `(91, "91")`, which overwrite), with any levels, the element count is
2500000. -/
theorem main_elementCount (rnd : Nat → Bool) (c : Nat) :
    ∃ s, run rnd mainOps (SkipList.new c) = .ok s ∧ s.elementCount = 2500000 := by
  obtain ⟨s, as, hrun, inv, hc⟩ := run_new rnd c mainOps
  refine ⟨s, hrun, ?_⟩
  rw [inv.count_eq, ← content_length s.heap as, hc, mRun_mainOps_length]
  rfl

/-- Counterexample to claim C9: with every level equal to 1 the calls of `main` run to the end
and the element count is then 2500000, not 2500001. -/
theorem main_elementCount_ne :
    ∃ s, run (fun _ => false) mainOps (SkipList.new 0) = .ok s ∧
      s.elementCount = 2500000 ∧ s.elementCount ≠ 2500001 := by
  obtain ⟨s, as, hrun, inv, hc⟩ := run_new (fun _ => false) 0 mainOps
  have h : s.elementCount = 2500000 := by
    rw [inv.count_eq, ← content_length s.heap as, hc, mRun_mainOps_length]
    rfl
  exact ⟨s, hrun, h, by rw [h]; decide⟩

/-! ## Rank counters when every key is inserted in front of the others -/

theorem advanceInc_stop {h : Heap} {k : CInt} {i fuel : Nat} {x y : Addr} {nx ny : Node}
    (hx : h.read x = some nx) (hf : nx.forward[i]? = some (some y)) (hy : h.read y = some ny)
    (hk : ¬ ny.key.val < k.val) : advanceInc k i (fuel + 1) h x = .ok (h, x) := by
  simp only [advanceInc, Heap.deref, hx, Node.fwd, hf, hy, ok_bind, if_neg hk, pure_eq_ok]

/-- A search for a key below every stored key does not leave `head`, so the level loop of
the counting search returns the heap as it is. -/
theorem predecessorsIncLoop_front {h : Heap} {head nil : Addr} {k : CInt} {post : List Addr}
    (sp : Split h head nil k [] post) {fuel : Nat} (hfuel : 0 < fuel) :
    ∀ (i : Nat) (result : List (Option Addr)), i ≤ maxLevel →
      ∃ res, predecessorsIncLoop k fuel i h head result = .ok (h, res) := by
  obtain ⟨f, rfl⟩ : ∃ f, fuel = f + 1 := ⟨fuel - 1, by omega⟩
  intro i
  induction i with
  | zero => intro result _; exact ⟨result, rfl⟩
  | succ i ih =>
    intro result hi
    have hlt : i < maxLevel := Nat.lt_of_succ_le hi
    have hlev : i < levelAt h head := by rw [sp.head_level]; exact hlt
    obtain ⟨nx, hnx, _⟩ := levelAt_pos_read (Nat.lt_of_le_of_lt (Nat.zero_le i) hlev)
    have hfw : fwdAt h head i = some (nextAt h nil i post) := by
      have := sp.linked.1 i hlev
      simpa using this
    obtain ⟨ny, hny, hky⟩ := sp.stop_node i
    obtain ⟨res, hres⟩ := ih (result.set i (some head)) (Nat.le_of_lt hlt)
    refine ⟨res, ?_⟩
    rw [predecessorsIncLoop,
      advanceInc_stop hnx (fwdAt_some_read hnx hfw) hny (by omega)]
    exact hres

theorem predecessorsIncrementCount_front {s : SkipList} {as : List Addr} (inv : Inv s as)
    {k : CInt} (hk : ∀ a ∈ as, k.val < keyAt s.heap a) :
    ∃ hd preds, s.heap.read s.head = some hd ∧
      predecessorsIncrementCount s k =
        .ok (s.heap.write s.head { hd with count := hd.count + 1 }, preds) := by
  have sp : Split s.heap s.head s.NIL k [] as :=
    inv.toSplit k (List.nil_append as).symm (by simp) (fun a ha => le_of_lt (hk a ha))
  obtain ⟨hd, hhd, hlen⟩ := levelAt_pos_read (h := s.heap) (a := s.head)
    (by rw [inv.head_level]; exact maxLevel_pos)
  rw [inv.head_level] at hlen
  have hfuel : 0 < s.heap.length := by have := inv.length_lt; omega
  obtain ⟨res, hres⟩ := predecessorsIncLoop_front sp hfuel maxLevel
    (List.replicate maxLevel none) (Nat.le_refl _)
  -- the loop returns the predecessors, all equal to `head`
  obtain ⟨h1, preds, hinc, hp, _⟩ :=
    predecessorsIncrementCount_spec inv (List.nil_append as).symm sp
  obtain ⟨preds', _, _, h1', _, h3', h4', _⟩ := first_steps inv (List.nil_append as).symm sp
  rw [hp] at h1'
  have hpe : preds = preds' := Except.ok.inj h1'
  subst hpe
  have hp0 : predAt s.heap s.head [] 0 = s.head := rfl
  rw [hp0] at h4'
  have hsim := hp
  simp only [predecessors, Heap.deref_some hhd, ok_bind, nodeLevel, hlen] at hsim
  obtain ⟨h2, hh2, _⟩ := @predecessorsIncLoop_sim (fun _ => True) s.heap k s.heap.length
    (fun _ _ _ _ => trivial) maxLevel s.heap s.head _ preds (CountEqOn.refl _ _) trivial hsim
  rw [hres] at hh2
  have hres' : res = preds := (Prod.mk.inj (Except.ok.inj hh2)).2
  subst hres'
  refine ⟨hd, res, hhd, ?_⟩
  simp only [predecessorsIncrementCount, Heap.deref_some hhd, ok_bind, nodeLevel, hlen, hres,
    h4', ptrAddr, pure_eq_ok]

theorem new_rankInv (c : Nat) : RankInv (SkipList.new c) [] where
  inv := new_inv c
  head_count := by rfl
  counts := by intro l1 a l2 h; simp at h
  values := by simp

/-- Inserting a key below every stored key keeps the rank counters in order. -/
theorem insert_front {s : SkipList} {as : List Addr} (ri : RankInv s as) {k : CInt}
    (hk : ∀ a ∈ as, k.val < keyAt s.heap a) (rnd : Nat → Bool) {v : String}
    (hv : v ≠ "NIL") :
    ∃ s', insert rnd s k v = .ok s' ∧ RankInv s' (s.heap.length :: as) ∧
      content s'.heap (s.heap.length :: as) = (k.val, v) :: content s.heap as ∧
      keyAt s'.heap s.heap.length = k.val ∧ ∀ a ∈ as, keyAt s'.heap a = keyAt s.heap a := by
  have inv := ri.inv
  have has : as = [] ++ as := (List.nil_append as).symm
  have sp : Split s.heap s.head s.NIL k [] as :=
    inv.toSplit k has (by simp) (fun a ha => le_of_lt (hk a ha))
  obtain ⟨s', hs', ins⟩ := insert_new inv has sp hk rnd v
  obtain ⟨hd, preds, hhd, hfront⟩ := predecessorsIncrementCount_front inv hk
  obtain ⟨h1, preds', hinc, hold, hnew⟩ := ins.counts
  rw [hfront] at hinc
  have hh1 : h1 = s.heap.write s.head { hd with count := hd.count + 1 } :=
    (Prod.mk.inj (Except.ok.inj hinc)).1.symm
  subst hh1
  have hheadne : s.head ≠ s.heap.length := Nat.ne_of_lt (Heap.read_lt hhd)
  have hasne : ∀ a ∈ as, a ≠ s.heap.length := by
    intro a ha
    obtain ⟨n, hn, _⟩ := inv.read_of_mem ha
    exact Nat.ne_of_lt (Heap.read_lt hn)
  have hc_head : countAt (s.heap.write s.head { hd with count := hd.count + 1 }) s.head =
      (as.length : Int) + 1 := by
    rw [countAt_write hhd, if_pos rfl, ← ri.head_count, countAt_of_read hhd]
  have hc_old : ∀ a ∈ as,
      countAt (s.heap.write s.head { hd with count := hd.count + 1 }) a = countAt s.heap a := by
    intro a ha
    have : s.head ≠ a := fun he => inv.head_not_mem (he ▸ ha)
    rw [countAt_write hhd, if_neg this]
  have hinv' : Inv s' (s.heap.length :: as) := by simpa using ins.inv
  refine ⟨s', hs', ?_, ?_, ins.new_key, fun a ha => ins.old_key a (hasne a ha)⟩
  · exact {
      inv := hinv'
      head_count := by
        rw [ins.head_eq, hold _ hheadne, hc_head]
        simp
      counts := by
        intro l1 a l2 hsplit
        cases l1 with
        | nil =>
          simp only [List.nil_append, List.cons.injEq] at hsplit
          rw [← hsplit.1, ← hsplit.2, hnew]
          have : predAt s.heap s.head [] ((randomLevel rnd s.randCalls).1 - 1) = s.head := rfl
          rw [this, hc_head]
        | cons b l1 =>
          simp only [List.cons_append, List.cons.injEq] at hsplit
          have ha : a ∈ as := by rw [hsplit.2]; simp
          rw [hold a (hasne a ha), hc_old a ha]
          exact ri.counts l1 a l2 hsplit.2
      values := by
        intro a ha
        rcases List.mem_cons.mp ha with rfl | ha
        · rw [ins.new_value]; exact hv
        · rw [ins.old_value a (hasne a ha)]; exact ri.values a ha }
  · rw [content_cons, ins.new_key, ins.new_value]
    congr 1
    exact content_congr fun a ha => ⟨ins.old_key a (hasne a ha), ins.old_value a (hasne a ha)⟩

/-! ## The walk of `at` on ordered rank counters -/

theorem atAdvance_found {h : Heap} {target : Int} {i fuel : Nat} {x y : Addr} {nx ny : Node}
    (hx : h.read x = some nx) (hf : nx.forward[i]? = some (some y)) (hy : h.read y = some ny)
    (hc : ny.count = target) (hv : ny.value ≠ "NIL") :
    atAdvance h target i (fuel + 1) x = .ok (x, true) := by
  have h1 : ny.count ≥ target ∧ ny.value ≠ "NIL" := ⟨by omega, hv⟩
  simp only [atAdvance, Heap.deref, hx, Node.fwd, hf, hy, ok_bind, if_pos h1, if_pos hc,
    pure_eq_ok]

theorem atAdvance_go {h : Heap} {target : Int} {i fuel : Nat} {x y : Addr} {nx ny : Node}
    (hx : h.read x = some nx) (hf : nx.forward[i]? = some (some y)) (hy : h.read y = some ny)
    (hc : target < ny.count) (hv : ny.value ≠ "NIL") :
    atAdvance h target i (fuel + 1) x = atAdvance h target i fuel y := by
  have h1 : ny.count ≥ target ∧ ny.value ≠ "NIL" := ⟨by omega, hv⟩
  have h2 : ¬ ny.count = target := by omega
  simp only [atAdvance, Heap.deref, hx, Node.fwd, hf, hy, ok_bind, if_pos h1, if_neg h2,
    ptrAddr]

theorem atAdvance_stop {h : Heap} {target : Int} {i fuel : Nat} {x y : Addr} {nx ny : Node}
    (hx : h.read x = some nx) (hf : nx.forward[i]? = some (some y)) (hy : h.read y = some ny)
    (hc : ny.count < target) : atAdvance h target i (fuel + 1) x = .ok (x, false) := by
  have h1 : ¬ (ny.count ≥ target ∧ ny.value ≠ "NIL") := fun hh => by omega
  simp only [atAdvance, Heap.deref, hx, Node.fwd, hf, hy, ok_bind, if_neg h1, pure_eq_ok]

theorem atAdvance_spec {h : Heap} {head nil : Addr} {target : Int} {front back : List Addr}
    {t : Addr} (rs : RankSplit h head nil target front t back) (i : Nat) :
    ∀ (l2 : List Addr) (x : Addr) (fuel : Nat), l2.length < fuel → i < levelAt h x →
      fwdAt h x i = some (nextAt h nil i (l2 ++ t :: back)) →
      LinkedL h nil (l2 ++ t :: back) → (∀ a ∈ l2, a ∈ front) →
      atAdvance h target i fuel x = .ok (lastAbove h i x l2, decide (i < levelAt h t)) := by
  have htpos : 1 ≤ levelAt h t := rs.level_pos t (by simp)
  obtain ⟨nt, hnt, _⟩ := levelAt_pos_read (Nat.lt_of_lt_of_le Nat.zero_lt_one htpos)
  intro l2
  induction l2 with
  | nil =>
    intro x fuel hfuel hx hf _ _
    obtain ⟨f, rfl⟩ : ∃ f, fuel = f + 1 := ⟨fuel - 1, by simp at hfuel; omega⟩
    obtain ⟨nx, hnx, _⟩ := levelAt_pos_read (Nat.lt_of_le_of_lt (Nat.zero_le i) hx)
    simp only [List.nil_append, nextAt] at hf
    by_cases hit : i < levelAt h t
    · rw [if_pos hit] at hf
      have hc := rs.target_eq.1
      have hv := rs.target_eq.2
      rw [countAt_of_read hnt] at hc
      rw [valueAt_of_read hnt] at hv
      rw [atAdvance_found hnx (fwdAt_some_read hnx hf) hnt hc hv]
      simp [lastAbove, hit]
    · rw [if_neg hit] at hf
      have hstop : ∃ ny, h.read (nextAt h nil i back) = some ny ∧ ny.count < target := by
        rcases nextAt_mem (h := h) nil i back with h1 | ⟨h1, _⟩
        · rw [h1]; exact rs.nil_count
        · have hp := rs.level_pos _ (List.mem_append_right front (List.mem_cons_of_mem t h1))
          obtain ⟨n, hn, _⟩ := levelAt_pos_read (Nat.lt_of_lt_of_le Nat.zero_lt_one hp)
          refine ⟨n, hn, ?_⟩
          have := rs.back_lt _ h1
          rwa [countAt_of_read hn] at this
      obtain ⟨ny, hny, hcy⟩ := hstop
      rw [atAdvance_stop hnx (fwdAt_some_read hnx hf) hny hcy]
      simp [lastAbove, hit]
  | cons a l2 ih =>
    intro x fuel hfuel hx hf hl hfront
    by_cases ha : i < levelAt h a
    · obtain ⟨f, rfl⟩ : ∃ f, fuel = f + 1 := ⟨fuel - 1, by simp at hfuel; omega⟩
      obtain ⟨nx, hnx, _⟩ := levelAt_pos_read (Nat.lt_of_le_of_lt (Nat.zero_le i) hx)
      obtain ⟨na, hna, _⟩ := levelAt_pos_read (Nat.lt_of_le_of_lt (Nat.zero_le i) ha)
      have hca := rs.front_gt a (hfront a (List.mem_cons_self a l2))
      rw [countAt_of_read hna, valueAt_of_read hna] at hca
      simp only [List.cons_append, nextAt, ha, if_true] at hf
      rw [atAdvance_go hnx (fwdAt_some_read hnx hf) hna hca.1 hca.2]
      simp only [lastAbove, ha, if_true]
      simp only [List.cons_append] at hl
      exact ih a f (by simp at hfuel; omega) ha (hl.1 i ha) hl.2
        (fun b hb => hfront b (List.mem_cons_of_mem a hb))
    · simp only [List.cons_append, nextAt, ha, if_false] at hf
      simp only [lastAbove, ha, if_false]
      simp only [List.cons_append] at hl
      exact ih x fuel (by simp at hfuel; omega) hx hf hl.2
        (fun b hb => hfront b (List.mem_cons_of_mem a hb))

/-- One level of the walk of `at` from a node `x` of `head :: front`. -/
theorem atAdvance_level {h : Heap} {head nil : Addr} {target : Int} {front back : List Addr}
    {t : Addr} (rs : RankSplit h head nil target front t back) {i fuel : Nat} {x : Addr}
    {l1 l2 : List Addr} (hs : head :: front = l1 ++ x :: l2) (hx : i < levelAt h x)
    (hfuel : front.length < fuel) :
    atAdvance h target i fuel x =
        .ok (lastAbove h i head front, decide (i < levelAt h t)) ∧
      ∃ l1' l2', head :: front = l1' ++ lastAbove h i head front :: l2' ∧
        i < levelAt h (lastAbove h i head front) ∧ ∀ a ∈ l2', levelAt h a ≤ i := by
  have hlink : LinkedL h nil (l1 ++ x :: (l2 ++ t :: back)) := by
    have := rs.linked
    rw [← List.cons_append, hs] at this
    simpa using this
  obtain ⟨hfx, hl2⟩ := LinkedL_split l1 hlink
  have hlen : l2.length < fuel := by
    have := congrArg List.length hs
    simp at this
    omega
  have hmem : ∀ a ∈ l2, a ∈ front := by
    intro a ha
    cases l1 with
    | nil =>
      simp only [List.nil_append, List.cons.injEq] at hs
      rw [hs.2]; exact ha
    | cons z l1 =>
      simp only [List.cons_append, List.cons.injEq] at hs
      rw [hs.2]; simp [ha]
  have hadv := atAdvance_spec rs i l2 x fuel hlen hx (hfx i hx) hl2 hmem
  have heq : lastAbove h i head front = lastAbove h i x l2 := lastAbove_full hs hx
  rw [heq]
  refine ⟨hadv, ?_⟩
  obtain ⟨m1, m2, hm, hle⟩ := lastAbove_split (h := h) (i := i) l2 x
  refine ⟨l1 ++ m1, m2, ?_, lastAbove_level l2 x hx, hle⟩
  rw [hs, hm]; simp

theorem atLoop_spec {h : Heap} {head nil : Addr} {target : Int} {front back : List Addr}
    {t : Addr} (rs : RankSplit h head nil target front t back) {fuel : Nat}
    (hfuel : front.length < fuel) :
    ∀ (i : Nat) (x : Addr) (l1 l2 : List Addr), head :: front = l1 ++ x :: l2 →
      i ≤ levelAt h x → levelAt h t ≤ i →
      atLoop h target fuel i x =
        .ok (lastAbove h (levelAt h t - 1) head front, levelAt h t - 1, true) := by
  have htpos : 1 ≤ levelAt h t := rs.level_pos t (by simp)
  intro i
  induction i with
  | zero => intro x l1 l2 _ _ h0; omega
  | succ i ih =>
    intro x l1 l2 hs hx ht
    obtain ⟨hadv, m1, m2, hm, hlv, _⟩ := atAdvance_level rs hs (Nat.lt_of_succ_le hx) hfuel
    rw [atLoop]
    simp only [hadv, ok_bind]
    by_cases hit : i < levelAt h t
    · have : levelAt h t - 1 = i := by omega
      simp [hit, this]
    · simp only [hit, decide_False, Bool.false_eq_true, if_false]
      exact ih _ m1 m2 hm (Nat.le_of_lt hlv) (Nat.not_lt.mp hit)

/-- On ordered rank counters `at` returns the node whose counter is the target. -/
theorem atNode_spec {s : SkipList} {index : Int} {front back : List Addr} {t : Addr}
    (rs : RankSplit s.heap s.head s.NIL (s.elementCount - index) front t back)
    (hfuel : front.length < s.heap.length) :
    atNode s index = .ok (some t) ∧ «at» s index = .ok (some (valueAt s.heap t)) := by
  have htpos : 1 ≤ levelAt s.heap t := rs.level_pos t (by simp)
  have htle : levelAt s.heap t - 1 < levelAt s.heap t := by omega
  obtain ⟨nt, hnt, _⟩ := levelAt_pos_read (Nat.lt_of_lt_of_le Nat.zero_lt_one htpos)
  obtain ⟨hd, hhd, hlen⟩ := levelAt_pos_read (h := s.heap) (a := s.head)
    (by rw [rs.head_level]; exact maxLevel_pos)
  rw [rs.head_level] at hlen
  have htmax : levelAt s.heap t ≤ maxLevel := rs.level_le t (by simp)
  have hloop := atLoop_spec rs hfuel maxLevel s.head [] front rfl
    (by rw [rs.head_level]) htmax
  have hxlev : levelAt s.heap t - 1 <
      levelAt s.heap (lastAbove s.heap (levelAt s.heap t - 1) s.head front) :=
    lastAbove_level front s.head (by rw [rs.head_level]; omega)
  obtain ⟨l1, l2, hsplit, hle⟩ :=
    lastAbove_split (h := s.heap) (i := levelAt s.heap t - 1) front s.head
  have hlink : LinkedL s.heap s.NIL
      (l1 ++ lastAbove s.heap (levelAt s.heap t - 1) s.head front :: (l2 ++ t :: back)) := by
    have := rs.linked
    rw [← List.cons_append, hsplit] at this
    simpa using this
  have hfw := (LinkedL_split l1 hlink).1 _ hxlev
  rw [nextAt_append_of_le hle] at hfw
  simp only [nextAt, htle, if_true] at hfw
  obtain ⟨nx, hnx, _⟩ := levelAt_pos_read (Nat.lt_of_le_of_lt (Nat.zero_le _) hxlev)
  have hc := rs.target_eq.1
  rw [countAt_of_read hnt] at hc
  have hnode : atNode s index = .ok (some t) := by
    simp only [atNode, Heap.deref_some hhd, ok_bind, nodeLevel, hlen, hloop,
      Heap.deref_some hnx, Node.fwd_ok (fwdAt_some_read hnx hfw), Heap.deref_some hnt,
      if_pos hc, pure_eq_ok]
  refine ⟨hnode, ?_⟩
  simp only [«at», hnode, ok_bind, Heap.deref_some hnt, pure_eq_ok, valueAt_of_read hnt]

theorem split_at_index {α : Type} : ∀ (l : List α) (i : Nat), i < l.length →
    ∃ front t back, l = front ++ t :: back ∧ front.length = i := by
  intro l
  induction l with
  | nil => intro i hi; simp at hi
  | cons a l ih =>
    intro i hi
    cases i with
    | zero => exact ⟨[], a, l, rfl, rfl⟩
    | succ i =>
      obtain ⟨front, t, back, h1, h2⟩ := ih i (by simpa using hi)
      exact ⟨a :: front, t, back, by rw [h1]; rfl, by simp [h2]⟩

theorem RankInv.toRankSplit {s : SkipList} {as : List Addr} (ri : RankInv s as)
    {front back : List Addr} {t : Addr} (has : as = front ++ t :: back) :
    RankSplit s.heap s.head s.NIL (s.elementCount - (front.length : Int)) front t back := by
  have htarget : s.elementCount - (front.length : Int) = (back.length : Int) + 1 := by
    rw [ri.inv.count_eq, has]
    simp only [List.length_append, List.length_cons]
    push_cast
    ring
  rw [htarget]
  exact {
    linked := by rw [← has]; exact ri.inv.linked
    head_level := ri.inv.head_level
    nil_count := ⟨_, ri.inv.nil_node, by simp only [Node.new]; omega⟩
    level_pos := by rw [← has]; exact ri.inv.level_pos
    level_le := by rw [← has]; exact ri.inv.level_le
    front_gt := by
      intro a ha
      obtain ⟨f1, f2, hf⟩ := List.append_of_mem ha
      have hsplit : as = f1 ++ a :: (f2 ++ t :: back) := by rw [has, hf]; simp
      refine ⟨?_, ri.values a (by rw [has]; exact List.mem_append_left _ ha)⟩
      rw [ri.counts f1 a _ hsplit]
      simp only [List.length_append, List.length_cons]
      push_cast
      omega
    target_eq := ⟨ri.counts front t back has, ri.values t (by rw [has]; simp)⟩
    back_lt := by
      intro b hb
      obtain ⟨b1, b2, hbk⟩ := List.append_of_mem hb
      have hsplit : as = (front ++ t :: b1) ++ b :: b2 := by rw [has, hbk]; simp
      rw [ri.counts _ b b2 hsplit, hbk]
      simp only [List.length_append, List.length_cons]
      push_cast
      omega }

/-- On ordered rank counters `at(index)` returns the value of the node at position `index`
of the list. -/
theorem at_spec {s : SkipList} {as : List Addr} (ri : RankInv s as) {index : Nat}
    (hi : index < as.length) :
    ∃ t, as[index]? = some t ∧ «at» s (index : Int) = .ok (some (valueAt s.heap t)) := by
  obtain ⟨front, t, back, has, hlen⟩ := split_at_index as index hi
  have rs := ri.toRankSplit has
  rw [hlen] at rs
  have hfuel : front.length < s.heap.length := by
    have := ri.inv.length_lt
    rw [has] at this
    simp only [List.length_append, List.length_cons] at this
    omega
  refine ⟨t, ?_, (atNode_spec rs hfuel).2⟩
  rw [has, List.getElem?_append_right (by omega), hlen]
  simp

/-- Inserting pairs with strictly descending keys, each below every stored key, keeps the
rank counters in order; the list ends up holding the pairs in reverse order of insertion. -/
theorem run_descending (rnd : Nat → Bool) :
    ∀ (kvs : List (CInt × String)) (s : SkipList) (as : List Addr), RankInv s as →
      (kvs.Pairwise fun p q => q.1.val < p.1.val) →
      (∀ p ∈ kvs, ∀ a ∈ as, p.1.val < keyAt s.heap a) → (∀ p ∈ kvs, p.2 ≠ "NIL") →
      ∃ s' as', run rnd (kvs.map fun p => Op.insert p.1 p.2) s = .ok s' ∧ RankInv s' as' ∧
        content s'.heap as' = (kvs.reverse.map fun p => (p.1.val, p.2)) ++ content s.heap as := by
  intro kvs
  induction kvs with
  | nil => intro s as ri _ _ _; exact ⟨s, as, rfl, ri, rfl⟩
  | cons kv kvs ih =>
    intro s as ri hdesc hlt hval
    rw [List.pairwise_cons] at hdesc
    obtain ⟨s1, h1, ri1, hc1, hknew, hkold⟩ :=
      insert_front ri (hlt kv (List.mem_cons_self _ _)) rnd (hval kv (List.mem_cons_self _ _))
    obtain ⟨s2, as2, h2, ri2, hc2⟩ := ih s1 _ ri1 hdesc.2
      (by
        intro p hp a ha
        rcases List.mem_cons.mp ha with rfl | ha
        · rw [hknew]; exact hdesc.1 p hp
        · rw [hkold a ha]; exact hlt p (List.mem_cons_of_mem _ hp) a ha)
      (fun p hp => hval p (List.mem_cons_of_mem _ hp))
    refine ⟨s2, as2, ?_, ri2, ?_⟩
    · simp only [List.map_cons, run, step, h1, ok_bind, h2]
    · rw [hc2, hc1]; simp

/-- Amended claim C10: after inserts whose keys are strictly descending in the order of
insertion (so that every key is inserted below all stored keys) and whose values are not the
string "NIL", with any levels, `at(index)` for `0 <= index < element count` returns the value of
the element of rank `index`: the value at position `index` of the ascending enumeration that
`print` makes. -/
theorem at_after_descending_inserts (rnd : Nat → Bool) (c : Nat) (kvs : List (CInt × String))
    (index : Nat) (hdesc : kvs.Pairwise fun p q => q.1.val < p.1.val)
    (hval : ∀ p ∈ kvs, p.2 ≠ "NIL") (hidx : index < kvs.length) :
    ∃ s out, run rnd (kvs.map fun p => Op.insert p.1 p.2) (SkipList.new c) = .ok s ∧
      s.elementCount = kvs.length ∧ print s = .ok out ∧
      (out.map fun t => t.2.1.val).Pairwise (· < ·) ∧
      «at» s (index : Int) = .ok (out[index]?.map fun t => t.1) := by
  obtain ⟨s, as, hrun, ri, hc⟩ := run_descending rnd kvs (SkipList.new c) [] (new_rankInv c)
    hdesc (by simp) hval
  have hlen : as.length = kvs.length := by
    have := congrArg List.length hc
    simpa [content_length] using this
  obtain ⟨out, hp1, hp2, _⟩ := print_spec ri.inv
  obtain ⟨out', hp1', hp2', _⟩ := print_keys ri.inv
  rw [hp1] at hp1'
  have hoo : out = out' := Except.ok.inj hp1'
  subst hoo
  have hidx' : index < as.length := by rw [hlen]; exact hidx
  obtain ⟨t, ht, hat⟩ := at_spec ri hidx'
  refine ⟨s, out, hrun, by rw [ri.inv.count_eq, hlen], hp1, ?_, ?_⟩
  · rw [hp2', List.pairwise_map]
    exact ri.inv.content_sorted
  · rw [hat]
    congr 1
    have h3 := congrArg (fun l => l[index]?) hp2
    simp only [List.getElem?_map, content, ht, Option.map_some'] at h3
    cases ho : out[index]? with
    | none => rw [ho] at h3; simp at h3
    | some tr =>
      rw [ho] at h3
      simp only [Option.map_some', Option.some.injEq, Prod.mk.injEq] at h3
      simp [h3.2]

/-- Witness of `at_after_descending_inserts`: keys 3, 2, 1 and index 1. -/
theorem at_after_descending_inserts_witness :
    ([(CInt.ofInt 3, "c"), (CInt.ofInt 2, "b"), (CInt.ofInt 1, "a")].Pairwise
        fun p q => q.1.val < p.1.val) ∧
      (∀ p ∈ [(CInt.ofInt 3, "c"), (CInt.ofInt 2, "b"), (CInt.ofInt 1, "a")], p.2 ≠ "NIL") ∧
      1 < [(CInt.ofInt 3, "c"), (CInt.ofInt 2, "b"), (CInt.ofInt 1, "a")].length ∧
      ∃ s out, run (fun n => n % 2 = 0)
          ([(CInt.ofInt 3, "c"), (CInt.ofInt 2, "b"), (CInt.ofInt 1, "a")].map
            fun p => Op.insert p.1 p.2) (SkipList.new 0) = .ok s ∧
        s.elementCount = [(CInt.ofInt 3, "c"), (CInt.ofInt 2, "b"), (CInt.ofInt 1, "a")].length ∧
        print s = .ok out ∧ (out.map fun t => t.2.1.val).Pairwise (· < ·) ∧
        «at» s ((1 : Nat) : Int) = .ok (out[1]?.map fun t => t.1) :=
  ⟨by decide, by decide, by decide,
    at_after_descending_inserts (fun n => n % 2 = 0) 0
      [(CInt.ofInt 3, "c"), (CInt.ofInt 2, "b"), (CInt.ofInt 1, "a")] 1
      (by decide) (by decide) (by decide)⟩

/-- Counterexample to claim C10: after the inserts `(1, "a")`, `(3, "c")`, `(2, "b")`, every
level being 1, the element count is 3 and `print` enumerates `a`, `b`, `c`, but `at(1)`
returns `c`, the value of rank 2, not `b`. -/
theorem at_rank_counterexample :
    run (fun _ => false) [Op.insert (CInt.ofInt 1) "a", Op.insert (CInt.ofInt 3) "c",
        Op.insert (CInt.ofInt 2) "b"] (SkipList.new 0) =
      .ok (stateAfter (fun _ => false) [Op.insert (CInt.ofInt 1) "a",
        Op.insert (CInt.ofInt 3) "c", Op.insert (CInt.ofInt 2) "b"]) ∧
    (stateAfter (fun _ => false) [Op.insert (CInt.ofInt 1) "a", Op.insert (CInt.ofInt 3) "c",
        Op.insert (CInt.ofInt 2) "b"]).elementCount = 3 ∧
    print (stateAfter (fun _ => false) [Op.insert (CInt.ofInt 1) "a",
        Op.insert (CInt.ofInt 3) "c", Op.insert (CInt.ofInt 2) "b"]) =
      .ok [("a", CInt.ofInt 1, 1), ("b", CInt.ofInt 2, 1), ("c", CInt.ofInt 3, 1)] ∧
    «at» (stateAfter (fun _ => false) [Op.insert (CInt.ofInt 1) "a",
        Op.insert (CInt.ofInt 3) "c", Op.insert (CInt.ofInt 2) "b"]) 1 = .ok (some "c") :=
  ⟨rfl, rfl, rfl, rfl⟩

/-! ## The demo order: keys `n` down to 1, then overwrites -/

theorem run_append (rnd : Nat → Bool) (ops1 ops2 : List Op) (s : SkipList) :
    run rnd (ops1 ++ ops2) s = (run rnd ops1 s >>= fun s' => run rnd ops2 s') := by
  induction ops1 generalizing s with
  | nil => rfl
  | cons op ops1 ih =>
    simp only [List.cons_append, run]
    cases hstep : step rnd s op with
    | error e => rfl
    | ok s1 => simp only [ok_bind]; exact ih s1

/-- Overwriting the value of a live node with a value other than "NIL" keeps the rank
counters in order. -/
theorem RankInv.overwrite {s : SkipList} {as : List Addr} (ri : RankInv s as) {a : Addr}
    {na : Node} (ha : a ∈ as) (hna : s.heap.read a = some na) {v : String} (hv : v ≠ "NIL") :
    RankInv { s with heap := s.heap.write a { na with value := v } } as where
  inv := ri.inv.write_value ha hna v
  head_count := by
    show countAt (s.heap.write a { na with value := v }) s.head = as.length
    have hne : a ≠ s.head := fun h => ri.inv.head_not_mem (h ▸ ha)
    rw [countAt_write hna, if_neg hne]
    exact ri.head_count
  counts := by
    intro l1 b l2 hsplit
    show countAt (s.heap.write a { na with value := v }) b = (l2.length : Int) + 1
    rw [countAt_write hna]
    by_cases hab : a = b
    · subst hab
      rw [if_pos rfl, ← ri.counts l1 a l2 hsplit, countAt_of_read hna]
    · rw [if_neg hab]; exact ri.counts l1 b l2 hsplit
  values := by
    intro b hb
    show valueAt (s.heap.write a { na with value := v }) b ≠ "NIL"
    rw [valueAt_write hna]
    by_cases hab : a = b
    · rw [if_pos hab]; exact hv
    · rw [if_neg hab]; exact ri.values b hb

/-- Inserting a stored key with a value other than "NIL" keeps the rank counters in order and
every key in place. -/
theorem insert_existing_rank {s : SkipList} {as : List Addr} (ri : RankInv s as) {k : CInt}
    (hk : k.val ∈ as.map (keyAt s.heap)) (rnd : Nat → Bool) {v : String} (hv : v ≠ "NIL") :
    ∃ s', insert rnd s k v = .ok s' ∧ RankInv s' as ∧
      ∀ b, keyAt s'.heap b = keyAt s.heap b := by
  have hsome : (lookupKey k.val (content s.heap as)).isSome := by
    rw [lookupKey_isSome_iff]
    simpa [content, List.map_map] using hk
  obtain ⟨v1, hv1⟩ := Option.isSome_iff_exists.mp hsome
  have hfind : find s k = .ok (some v1) := by rw [find_spec ri.inv k, hv1]
  obtain ⟨pre, a, post, na, has, sp, hka, hna, _⟩ := find_some_split ri.inv hfind
  have ha : a ∈ as := by rw [has]; simp
  refine ⟨_, insert_update ri.inv has sp hka hna rnd v, ri.overwrite ha hna hv, ?_⟩
  intro b
  show keyAt (s.heap.write a { na with value := v }) b = keyAt s.heap b
  rw [keyAt_write hna]
  by_cases hab : a = b
  · subst hab; rw [if_pos rfl, keyAt_of_read hna]
  · rw [if_neg hab]

theorem run_overwrites (rnd : Nat → Bool) {as : List Addr} :
    ∀ (ovs : List (CInt × String)) (s : SkipList), RankInv s as →
      (∀ p ∈ ovs, p.1.val ∈ as.map (keyAt s.heap) ∧ p.2 ≠ "NIL") →
      ∃ s', run rnd (ovs.map fun p => Op.insert p.1 p.2) s = .ok s' ∧ RankInv s' as ∧
        ∀ b, keyAt s'.heap b = keyAt s.heap b := by
  intro ovs
  induction ovs with
  | nil => intro s ri _; exact ⟨s, rfl, ri, fun _ => rfl⟩
  | cons p ovs ih =>
    intro s ri hovs
    obtain ⟨h1, h2⟩ := hovs p (List.mem_cons_self _ _)
    obtain ⟨s1, hs1, ri1, hk1⟩ := insert_existing_rank ri h1 rnd h2
    have hkeys : as.map (keyAt s1.heap) = as.map (keyAt s.heap) :=
      List.map_congr_left fun b _ => hk1 b
    obtain ⟨s2, hs2, ri2, hk2⟩ := ih s1 ri1 (fun q hq => by
      rw [hkeys]; exact hovs q (List.mem_cons_of_mem _ hq))
    refine ⟨s2, ?_, ri2, fun b => by rw [hk2, hk1]⟩
    simp only [List.map_cons, run, step, hs1, ok_bind, hs2]

/-- After inserts of `n` keys in descending order (`kf j` is the key number `j+1`) and
overwrites of stored keys, the rank counters are in order and the list holds the keys
`1, ..., n`. -/
theorem run_demo_order (rnd : Nat → Bool) (c : Nat) (n : Nat) (kf : Nat → CInt)
    (vals : Nat → String) (ovs : List (CInt × String))
    (hkf : ∀ j, j < n → (kf j).val = (j : Int) + 1) (hvals : ∀ j, vals j ≠ "NIL")
    (hovs : ∀ p ∈ ovs, 1 ≤ p.1.val ∧ p.1.val ≤ n ∧ p.2 ≠ "NIL") :
    ∃ s as, run rnd ((List.range n).reverse.map (fun j : Nat => Op.insert (kf j) (vals j)) ++
        ovs.map fun p => Op.insert p.1 p.2) (SkipList.new c) = .ok s ∧ RankInv s as ∧
      as.map (keyAt s.heap) = (List.range n).map fun j : Nat => (j : Int) + 1 := by
  have hmap : (List.range n).reverse.map (fun j : Nat => Op.insert (kf j) (vals j)) =
      ((List.range n).reverse.map fun j : Nat => (kf j, vals j)).map
        fun p => Op.insert p.1 p.2 := by
    rw [List.map_map]; rfl
  have hval : ∀ j ∈ List.range n, (kf j).val = (j : Int) + 1 :=
    fun j hj => hkf j (List.mem_range.mp hj)
  obtain ⟨s1, as, hrun1, ri1, hc1⟩ := run_descending rnd
    ((List.range n).reverse.map fun j : Nat => (kf j, vals j))
    (SkipList.new c) [] (new_rankInv c)
    (by
      rw [List.pairwise_map, List.pairwise_reverse]
      refine List.Pairwise.imp_of_mem ?_ (List.pairwise_lt_range n)
      intro a b ha hb hab
      show (kf a).val < (kf b).val
      rw [hval a ha, hval b hb]
      omega)
    (by simp)
    (by
      intro p hp
      obtain ⟨j, _, rfl⟩ := List.mem_map.mp hp
      exact hvals j)
  have hkeys : as.map (keyAt s1.heap) = (List.range n).map fun j : Nat => (j : Int) + 1 := by
    have h1 : as.map (keyAt s1.heap) = (content s1.heap as).map Prod.fst := by
      simp [content, List.map_map]
    have h2 : content (SkipList.new c).heap [] = [] := rfl
    rw [h1, hc1, h2, List.append_nil, ← List.map_reverse, List.reverse_reverse, List.map_map,
      List.map_map, List.map_inj_left]
    intro j hj
    exact hval j hj
  obtain ⟨s2, hrun2, ri2, hk2⟩ := run_overwrites rnd ovs s1 ri1 (by
    intro p hp
    obtain ⟨h1, h2, h3⟩ := hovs p hp
    refine ⟨?_, h3⟩
    rw [hkeys]
    refine List.mem_map.mpr ⟨(p.1.val - 1).toNat, List.mem_range.mpr (by omega), by omega⟩)
  refine ⟨s2, as, ?_, ri2, ?_⟩
  · rw [run_append, hmap, hrun1]
    exact hrun2
  · rw [← hkeys]
    exact List.map_congr_left fun b _ => hk2 b

/-- With rank counters in order and the keys `1, ..., n` stored, `at(i)` is the value that
`find` returns for the key `i+1`. -/
theorem at_eq_find_of_keys {s : SkipList} {as : List Addr} (ri : RankInv s as) {n i : Nat}
    (hkeys : as.map (keyAt s.heap) = (List.range n).map fun j : Nat => (j : Int) + 1)
    (hi : i < n) {k : CInt} (hk : k.val = (i : Int) + 1) :
    ∃ v, «at» s (i : Int) = .ok (some v) ∧ find s k = .ok (some v) := by
  have hlen : as.length = n := by
    have := congrArg List.length hkeys
    simpa using this
  have hi' : i < as.length := by rw [hlen]; exact hi
  obtain ⟨t, ht, hat⟩ := at_spec ri hi'
  have htk : keyAt s.heap t = (i : Int) + 1 := by
    have h1 := congrArg (fun l => l[i]?) hkeys
    simp only [List.getElem?_map, ht, Option.map_some'] at h1
    rw [List.getElem?_range hi] at h1
    simpa using h1
  have htmem : t ∈ as := by
    obtain ⟨h, rfl⟩ := List.getElem?_eq_some_iff.mp ht
    exact List.getElem_mem h
  refine ⟨valueAt s.heap t, hat, ?_⟩
  rw [find_spec ri.inv, hk]
  congr 1
  rw [lookupKey_eq_some_iff ri.inv.content_sorted, ← htk]
  exact List.mem_map.mpr ⟨t, htmem, rfl⟩

/-- Claim C11: for every number `n` of keys and every choice of levels (`rnd`, `c`), after the
inserts of the keys `n, n-1, ..., 1` in this order into the empty list, with values
`vals j` none of which is the string "NIL", followed by any overwrites `ovs` of stored keys by
values other than "NIL", `at(i)` for `0 <= i < n` returns a non-null result, and it is the
value that `find` returns for the key `i+1`. -/
theorem at_descending_keys (rnd : Nat → Bool) (c : Nat) (n : Nat) (vals : Nat → String)
    (ovs : List (CInt × String)) (i : Nat) (hn : n ≤ 2147483647)
    (hvals : ∀ j, vals j ≠ "NIL")
    (hovs : ∀ p ∈ ovs, 1 ≤ p.1.val ∧ p.1.val ≤ n ∧ p.2 ≠ "NIL") (hi : i < n) :
    ∃ s v, run rnd ((List.range n).reverse.map
          (fun j : Nat => Op.insert (CInt.ofInt ((j : Int) + 1)) (vals j)) ++
        ovs.map fun p => Op.insert p.1 p.2) (SkipList.new c) = .ok s ∧
      «at» s (i : Int) = .ok (some v) ∧
      find s (CInt.ofInt ((i : Int) + 1)) = .ok (some v) := by
  obtain ⟨s, as, hrun, ri, hkeys⟩ := run_demo_order rnd c n
    (fun j : Nat => CInt.ofInt ((j : Int) + 1)) vals ovs
    (fun j hj => CInt.ofInt_val (by omega) (by omega)) hvals hovs
  obtain ⟨v, hat, hfind⟩ := at_eq_find_of_keys ri hkeys hi
    (CInt.ofInt_val (by omega) (by omega))
  exact ⟨s, v, hrun, hat, hfind⟩

/-- Witness of `at_descending_keys` at the demo of `main`: the keys 2500000 down to 1 with the
empty string, then the overwrites `(90, "90")` and `(91, "91")`; `at(91)` is non-null and is
the value of key 92. -/
theorem at_descending_keys_witness :
    ∃ s v, run (fun _ => false) ((List.range 2500000).reverse.map
          (fun j : Nat => Op.insert (CInt.ofInt ((j : Int) + 1)) ((fun _ => "") j)) ++
        [(CInt.ofInt 90, "90"), (CInt.ofInt 91, "91")].map fun p => Op.insert p.1 p.2)
        (SkipList.new 0) = .ok s ∧
      «at» s ((91 : Nat) : Int) = .ok (some v) ∧
      find s (CInt.ofInt (((91 : Nat) : Int) + 1)) = .ok (some v) :=
  at_descending_keys (fun _ => false) 0 2500000 (fun _ => "")
    [(CInt.ofInt 90, "90"), (CInt.ofInt 91, "91")] 91 (by decide)
    (fun _ => (by decide : ("" : String) ≠ "NIL"))
    (by
      intro p hp
      rcases List.mem_cons.mp hp with rfl | hp
      · exact ⟨by decide, by decide, by decide⟩
      · rcases List.mem_cons.mp hp with rfl | hp
        · exact ⟨by decide, by decide, by decide⟩
        · cases hp)
    (by decide)

/-! ## The walk of `at` when no live node has the target count -/

theorem atAdvance_halt {h : Heap} {target : Int} {i fuel : Nat} {x y : Addr} {nx ny : Node}
    (hx : h.read x = some nx) (hf : nx.forward[i]? = some (some y)) (hy : h.read y = some ny)
    (hc : ¬ (ny.count ≥ target ∧ ny.value ≠ "NIL")) :
    atAdvance h target i (fuel + 1) x = .ok (x, false) := by
  simp only [atAdvance, Heap.deref, hx, Node.fwd, hf, hy, ok_bind, if_neg hc, pure_eq_ok]

/-- On a level where no node ahead has the target count, the inner loop of `at` stops at a
node of the list without setting `fullBreak`. -/
theorem atAdvance_miss {h : Heap} {nil : Addr} {target : Int} (i : Nat)
    (hnil : ∃ n, h.read nil = some n ∧ n.value = "NIL") :
    ∀ (fuel : Nat) (l : List Addr) (x : Addr), l.length < fuel → i < levelAt h x →
      LinkedL h nil (x :: l) → (∀ a ∈ l, countAt h a ≠ target) →
      ∃ x' l', atAdvance h target i fuel x = .ok (x', false) ∧ i < levelAt h x' ∧
        LinkedL h nil (x' :: l') ∧ l'.length ≤ l.length ∧ (∀ a ∈ l', a ∈ l) ∧
        (x' = x ∨ x' ∈ l) := by
  intro fuel
  induction fuel with
  | zero => intro l x hfuel; omega
  | succ f ih =>
    intro l x hfuel hx hl hmiss
    obtain ⟨nx, hnx, _⟩ := levelAt_pos_read (Nat.lt_of_le_of_lt (Nat.zero_le i) hx)
    have hf := hl.1 i hx
    rcases nextAt_mem (h := h) nil i l with h1 | ⟨h1, h2⟩
    · obtain ⟨nn, hnn, hv⟩ := hnil
      rw [h1] at hf
      refine ⟨x, l, ?_, hx, hl, Nat.le_refl _, fun a ha => ha, Or.inl rfl⟩
      exact atAdvance_halt hnx (fwdAt_some_read hnx hf) hnn (fun hh => hh.2 hv)
    · obtain ⟨ny, hny, _⟩ := levelAt_pos_read (Nat.lt_of_le_of_lt (Nat.zero_le i) h2)
      by_cases hc : ny.count ≥ target ∧ ny.value ≠ "NIL"
      · have hne : ny.count ≠ target := by
          have := hmiss _ h1
          rwa [countAt_of_read hny] at this
        obtain ⟨l1, l2, hl12⟩ := List.append_of_mem h1
        have hlen : l.length = l1.length + (l2.length + 1) := by
          rw [hl12, List.length_append, List.length_cons]
        have hl2 : LinkedL h nil (nextAt h nil i l :: l2) := by
          have hl' : LinkedL h nil ((x :: l1) ++ nextAt h nil i l :: l2) := by
            rw [List.cons_append, ← hl12]; exact hl
          exact LinkedL_suffix (x :: l1) hl'
        have hsub : ∀ a ∈ l2, a ∈ l := fun a ha => by
          rw [hl12]; exact List.mem_append_right _ (List.mem_cons_of_mem _ ha)
        obtain ⟨x', l', h3, h4, h5, h6, h7, h8⟩ := ih l2 (nextAt h nil i l) (by omega) h2 hl2
          (fun a ha => hmiss a (hsub a ha))
        refine ⟨x', l', ?_, h4, h5, by omega, fun a ha => hsub a (h7 a ha), Or.inr ?_⟩
        · rw [atAdvance_go hnx (fwdAt_some_read hnx hf) hny
            (lt_of_le_of_ne hc.1 (Ne.symm hne)) hc.2]
          exact h3
        · rcases h8 with h8 | h8
          · rw [h8]; exact h1
          · exact hsub _ h8
      · refine ⟨x, l, ?_, hx, hl, Nat.le_refl _, fun a ha => ha, Or.inl rfl⟩
        exact atAdvance_halt hnx (fwdAt_some_read hnx hf) hny hc

/-- When no node of the list has the target count, the level loop of `at` runs to its end:
`fullBreak` stays false and the `unsigned int i` has wrapped around to `2^32 - 1`. -/
theorem atLoop_miss {h : Heap} {nil : Addr} {target : Int} {fuel : Nat}
    (hnil : ∃ n, h.read nil = some n ∧ n.value = "NIL") :
    ∀ (i : Nat) (l : List Addr) (x : Addr), l.length < fuel → i ≤ levelAt h x →
      LinkedL h nil (x :: l) → (∀ a ∈ l, countAt h a ≠ target) →
      ∃ x', atLoop h target fuel i x = .ok (x', 4294967295, false) ∧ (x' = x ∨ x' ∈ l) := by
  intro i
  induction i with
  | zero =>
    intro l x _ _ _ _
    exact ⟨x, rfl, Or.inl rfl⟩
  | succ i ih =>
    intro l x hfuel hx hl hmiss
    obtain ⟨x', l', h3, h4, h5, h6, h7, h8⟩ := atAdvance_miss i hnil fuel l x hfuel hx hl hmiss
    obtain ⟨x'', h9, h10⟩ := ih l' x' (by omega) (Nat.le_of_lt h4) h5
      (fun a ha => hmiss a (h7 a ha))
    refine ⟨x'', ?_, ?_⟩
    · simp only [atLoop, h3, ok_bind]
      exact h9
    · rcases h10 with h10 | h10
      · rw [h10]; exact h8
      · exact Or.inr (h7 _ h10)

/-- With the invariant, when no live node has the count `elementCount - index`, the access
`x->forward[i]` that follows the level loop of `at` is made with `i = 2^32 - 1`, outside the
forward vector of `x`. -/
theorem at_miss_fault {s : SkipList} {as : List Addr} (inv : Inv s as) (index : Int)
    (hmiss : ∀ a ∈ as, countAt s.heap a ≠ s.elementCount - index) :
    «at» s index = .error .outOfRange := by
  obtain ⟨hd, hhd, _, _⟩ := inv.head_node
  have hlev : levelAt s.heap s.head = hd.forward.length := levelAt_of_read hhd
  have hfuel : as.length < s.heap.length := by
    have := inv.length_lt
    exact Nat.lt_of_lt_of_le (Nat.lt_add_of_pos_right (by decide : 0 < 2)) this
  obtain ⟨x', h1, h2⟩ := @atLoop_miss s.heap s.NIL (s.elementCount - index) s.heap.length
    ⟨_, inv.nil_node, rfl⟩ (nodeLevel hd) as s.head hfuel
    (by rw [hlev]; exact Nat.le_refl _) inv.linked hmiss
  have hx' : ∃ nx, s.heap.read x' = some nx ∧ nx.forward.length ≤ maxLevel := by
    rcases h2 with h2 | h2
    · rw [h2]
      exact ⟨hd, hhd, by rw [← hlev, inv.head_level]⟩
    · obtain ⟨nx, hnx, hl⟩ := inv.read_of_mem h2
      exact ⟨nx, hnx, by rw [hl]; exact inv.level_le _ h2⟩
  obtain ⟨nx, hnx, hle⟩ := hx'
  have hnone : nx.forward[4294967295]? = none := by
    rw [List.getElem?_eq_none_iff]
    have : maxLevel = 16 := rfl
    omega
  have hnode : atNode s index = .error .outOfRange := by
    simp only [atNode, Heap.deref, hhd, ok_bind, h1, hnx, Node.fwd, hnone, error_bind]
  simp only [«at», hnode, error_bind]

/-- Claim C12, as the code behaves: in every reachable state, when no live node (a node other
than the two sentinels) has the count `elementCount - index`, `at(index)` does not return null.
The level loop runs to its end, its last `i--` wraps the `unsigned int i` around to `2^32 - 1`,
and the access `x->forward[i]` that follows is outside the forward vector. -/
theorem at_miss_out_of_range (rnd : Nat → Bool) (s : SkipList) (index : Int)
    (hs : Reachable rnd s)
    (hmiss : ∀ a n, s.heap.read a = some n → a ≠ s.head → a ≠ s.NIL →
      n.count ≠ s.elementCount - index) :
    «at» s index = .error .outOfRange := by
  obtain ⟨as, inv⟩ := hs.inv
  refine at_miss_fault inv index fun a ha => ?_
  obtain ⟨n, hn, _⟩ := inv.read_of_mem ha
  rw [countAt_of_read hn]
  exact hmiss a n hn (fun h => inv.head_not_mem (h ▸ ha)) (fun h => inv.nil_not_mem (h ▸ ha))

/-- Witness of `at_miss_out_of_range`: `at(0)` on the freshly constructed, empty list. -/
theorem at_miss_out_of_range_witness : «at» (SkipList.new 0) 0 = .error .outOfRange :=
  at_miss_out_of_range (fun _ => false) (SkipList.new 0) 0 ⟨0, [], rfl⟩ (by
    intro a n hr h1 h2
    have hlt : Nat.lt a 2 := Heap.read_lt hr
    have h01 : a = 0 ∨ a = 1 := by
      rcases Nat.lt_succ_iff_lt_or_eq.mp hlt with h | h
      · exact Or.inl (Nat.lt_one_iff.mp h)
      · exact Or.inr h
    rcases h01 with rfl | rfl
    · exact absurd rfl h1
    · exact absurd rfl h2)

/-! ## `erase` leaves the rank counters as they are -/

/-- The member `erase` does not adjust the counter of any node that stays in the list. -/
theorem erase_keeps_counts {s : SkipList} {as : List Addr} (inv : Inv s as) (k : CInt) :
    ∃ s', erase s k = .ok s' ∧
      ∀ b ∈ as, keyAt s.heap b ≠ k.val →
        countAt s'.heap b = countAt s.heap b ∧ keyAt s'.heap b = keyAt s.heap b := by
  obtain ⟨pre, post, has, sp⟩ := inv.split k
  by_cases hk : ∀ a ∈ post, k.val < keyAt s.heap a
  · exact ⟨s, erase_absent inv has sp hk, fun _ _ _ => ⟨rfl, rfl⟩⟩
  · cases post with
    | nil => exact absurd (fun a ha => by simp at ha) hk
    | cons a post =>
      have hsorted := inv.sorted
      rw [has, List.pairwise_append, List.pairwise_cons] at hsorted
      have hka : keyAt s.heap a = k.val := by
        by_contra hne
        apply hk
        intro b hb
        have h1 := sp.post_ge a (List.mem_cons_self _ _)
        rcases List.mem_cons.mp hb with rfl | hb
        · omega
        · have := hsorted.2.1.1 b hb
          omega
      obtain ⟨s', hs', er⟩ := erase_present inv has sp hka
      refine ⟨s', hs', fun b _ hb => ?_⟩
      have hba : b ≠ a := fun h => hb (h ▸ hka)
      exact ⟨er.old_count b hba, er.old_key b hba⟩

/-- Claim C14: there is a sequence of inserts and erases and an index below the element count
for which `at(index)` is not the value at sorted position `index`. After the inserts of the
keys 3, 2, 1 (values "c", "b", "a", every level 1) and `erase(3)`, the element count is 2
and `print` enumerates "a", "b", but `at(0)` returns "b": the nodes of the keys 1 and 2 (at
the addresses 4 and 3) still carry the counters 3 and 2 that they had before the erase. -/
theorem at_drift_after_erase :
    ∃ (ops : List Op) (index : Nat) (s : SkipList) (out : List (String × CInt × Nat)),
      ops = [Op.insert (CInt.ofInt 3) "c", Op.insert (CInt.ofInt 2) "b",
        Op.insert (CInt.ofInt 1) "a", Op.erase (CInt.ofInt 3)] ∧ index = 0 ∧
      run (fun _ => false) ops (SkipList.new 0) = .ok s ∧
      print s = .ok out ∧ out = [("a", CInt.ofInt 1, 1), ("b", CInt.ofInt 2, 1)] ∧
      (index : Int) < s.elementCount ∧
      «at» s (index : Int) = .ok (some "b") ∧
      «at» s (index : Int) ≠ .ok (out[index]?.map fun t => t.1) ∧
      (keyAt s.heap 4 = 1 ∧ countAt s.heap 4 = 3) ∧ (keyAt s.heap 3 = 2 ∧ countAt s.heap 3 = 2) ∧
      countAt (stateAfter (fun _ => false) [Op.insert (CInt.ofInt 3) "c",
        Op.insert (CInt.ofInt 2) "b", Op.insert (CInt.ofInt 1) "a"]).heap 4 = 3 ∧
      countAt (stateAfter (fun _ => false) [Op.insert (CInt.ofInt 3) "c",
        Op.insert (CInt.ofInt 2) "b", Op.insert (CInt.ofInt 1) "a"]).heap 3 = 2 :=
  ⟨[Op.insert (CInt.ofInt 3) "c", Op.insert (CInt.ofInt 2) "b",
      Op.insert (CInt.ofInt 1) "a", Op.erase (CInt.ofInt 3)], 0,
    stateAfter (fun _ => false) [Op.insert (CInt.ofInt 3) "c",
      Op.insert (CInt.ofInt 2) "b", Op.insert (CInt.ofInt 1) "a", Op.erase (CInt.ofInt 3)],
    [("a", CInt.ofInt 1, 1), ("b", CInt.ofInt 2, 1)],
    rfl, rfl, rfl, rfl, rfl, by decide, rfl,
    fun h => absurd (Option.some.inj (Except.ok.inj
      (h : (Except.ok (some "b") : Except Fault (Option String)) = Except.ok (some "a"))))
      (by decide),
    ⟨rfl, rfl⟩, ⟨rfl, rfl⟩, rfl, rfl⟩

/-- Claim C15, as the code behaves: `at` takes a live node whose value is the string "NIL" for
the tail. The inserts `(3, "c")`, `(2, v)`, `(1, "a")`, every level 1, give for `v = "b"` and
for `v = "NIL"` two states with the same keys, counters and links. With `v = "b"` the walk of
`at(2)` on level 0, from the node of key 1 (address 4), passes the node of key 2 (address 3)
and breaks at the node of key 3: `at(2)` returns "c". With `v = "NIL"` the same walk stops
before the node of key 2 without a match, the level loop runs to its end, and `at(2)` selects
no node: it ends in the out-of-range access `x->forward[i]` with `i = 2^32 - 1`. -/
theorem at_value_NIL_stops_walk :
    (stateAfter (fun _ => false) [Op.insert (CInt.ofInt 3) "c",
        Op.insert (CInt.ofInt 2) "NIL", Op.insert (CInt.ofInt 1) "a"]).heap.map
        (Option.map fun n => (n.key, n.count, n.forward)) =
      (stateAfter (fun _ => false) [Op.insert (CInt.ofInt 3) "c",
        Op.insert (CInt.ofInt 2) "b", Op.insert (CInt.ofInt 1) "a"]).heap.map
        (Option.map fun n => (n.key, n.count, n.forward)) ∧
    print (stateAfter (fun _ => false) [Op.insert (CInt.ofInt 3) "c",
        Op.insert (CInt.ofInt 2) "b", Op.insert (CInt.ofInt 1) "a"]) =
      .ok [("a", CInt.ofInt 1, 1), ("b", CInt.ofInt 2, 1), ("c", CInt.ofInt 3, 1)] ∧
    print (stateAfter (fun _ => false) [Op.insert (CInt.ofInt 3) "c",
        Op.insert (CInt.ofInt 2) "NIL", Op.insert (CInt.ofInt 1) "a"]) =
      .ok [("a", CInt.ofInt 1, 1), ("NIL", CInt.ofInt 2, 1), ("c", CInt.ofInt 3, 1)] ∧
    atAdvance (stateAfter (fun _ => false) [Op.insert (CInt.ofInt 3) "c",
        Op.insert (CInt.ofInt 2) "b", Op.insert (CInt.ofInt 1) "a"]).heap 1 0 5 4 =
      .ok (3, true) ∧
    atAdvance (stateAfter (fun _ => false) [Op.insert (CInt.ofInt 3) "c",
        Op.insert (CInt.ofInt 2) "NIL", Op.insert (CInt.ofInt 1) "a"]).heap 1 0 5 4 =
      .ok (4, false) ∧
    «at» (stateAfter (fun _ => false) [Op.insert (CInt.ofInt 3) "c",
        Op.insert (CInt.ofInt 2) "b", Op.insert (CInt.ofInt 1) "a"]) 2 = .ok (some "c") ∧
    atNode (stateAfter (fun _ => false) [Op.insert (CInt.ofInt 3) "c",
        Op.insert (CInt.ofInt 2) "NIL", Op.insert (CInt.ofInt 1) "a"]) 2 =
      .error .outOfRange ∧
    «at» (stateAfter (fun _ => false) [Op.insert (CInt.ofInt 3) "c",
        Op.insert (CInt.ofInt 2) "NIL", Op.insert (CInt.ofInt 1) "a"]) 2 =
      .error .outOfRange :=
  ⟨rfl, rfl, rfl, rfl, rfl, rfl, rfl, rfl⟩

/-- Claim C20, as the code behaves: `randomLevel` returns `maxLevel` when the first
`maxLevel - 1` draws are below `probability`, so its results are not confined to
`[1, maxLevel)`. -/
theorem randomLevel_returns_maxLevel :
    (randomLevel (fun _ => true) 0).1 = maxLevel ∧ ¬ (randomLevel (fun _ => true) 0).1 < maxLevel ∧
      (randomLevel (fun n => decide (n < 15)) 0).1 = 16 :=
  ⟨rfl, by decide, rfl⟩

/-! ## The chains of the levels -/



theorem chainFrom_spec (h : Heap) (nil : Addr) (i : Nat) :
    ∀ (l : List Addr) (fuel : Nat), l.length < fuel → nil ∉ l → LinkedL h nil l →
      chainFrom h nil i fuel (some (nextAt h nil i l)) =
        .ok (l.filter fun a => decide (i < levelAt h a)) := by
  intro l
  induction l with
  | nil =>
    intro fuel hfuel _ _
    obtain ⟨f, rfl⟩ : ∃ f, fuel = f + 1 := ⟨fuel - 1, by simp at hfuel; omega⟩
    simp [chainFrom, nextAt, ptrAddr]
  | cons a l ih =>
    intro fuel hfuel hnil hl
    obtain ⟨f, rfl⟩ : ∃ f, fuel = f + 1 := ⟨fuel - 1, by simp at hfuel; omega⟩
    have hl' : l.length < f := by simp at hfuel; omega
    have hnil' : nil ∉ l := fun h => hnil (List.mem_cons_of_mem _ h)
    by_cases hla : i < levelAt h a
    · obtain ⟨na, hna, _⟩ := levelAt_pos_read (Nat.lt_of_le_of_lt (Nat.zero_le i) hla)
      have hne : a ≠ nil := fun h => hnil (h ▸ List.mem_cons_self _ _)
      have hf := fwdAt_some_read hna (hl.1 i hla)
      have hnext : nextAt h nil i (a :: l) = a := by simp only [nextAt, if_pos hla]
      rw [hnext, List.filter_cons_of_pos (by simpa using hla)]
      simp only [chainFrom, ptrAddr, ok_bind, if_neg hne, Heap.deref_some hna, Node.fwd_ok hf,
        ih f hl' hnil' hl.2, pure_eq_ok]
    · have hnext : nextAt h nil i (a :: l) = nextAt h nil i l := by
        simp only [nextAt, if_neg hla]
      rw [hnext, List.filter_cons_of_neg (by simpa using hla)]
      exact ih (f + 1) (Nat.lt_succ_of_lt hl') hnil' hl.2

/-- The level-`i` chain is made of the live nodes that have more than `i` links, in list
order. -/
theorem levelChain_spec {s : SkipList} {as : List Addr} (inv : Inv s as) {i : Nat}
    (hi : i < maxLevel) :
    levelChain s i = .ok (as.filter fun a => decide (i < levelAt s.heap a)) := by
  have hlev : i < levelAt s.heap s.head := by rw [inv.head_level]; exact hi
  obtain ⟨hd, hhd, _⟩ := levelAt_pos_read (Nat.lt_of_le_of_lt (Nat.zero_le i) hlev)
  have hf := fwdAt_some_read hhd (inv.linked.1 i hlev)
  have := chainFrom_spec s.heap s.NIL i as (s.heap.length + 1)
    (by have := inv.length_lt; omega) inv.nil_not_mem inv.linked.2
  simp only [levelChain, Heap.deref_some hhd, ok_bind, Node.fwd_ok hf, this]

/-- The first node of a list with more than `i` links, when there is one, comes after nodes
with at most `i` links. -/
theorem nextAt_first (h : Heap) (nil : Addr) (i : Nat) :
    ∀ l : List Addr, (nextAt h nil i l = nil ∧ ∀ a ∈ l, levelAt h a ≤ i) ∨
      ∃ r1 r2, l = r1 ++ nextAt h nil i l :: r2 ∧ (∀ a ∈ r1, levelAt h a ≤ i) ∧
        i < levelAt h (nextAt h nil i l) := by
  intro l
  induction l with
  | nil => exact Or.inl ⟨rfl, fun a ha => by simp at ha⟩
  | cons a l ih =>
    by_cases hla : i < levelAt h a
    · have hnext : nextAt h nil i (a :: l) = a := by simp only [nextAt, if_pos hla]
      rw [hnext]
      exact Or.inr ⟨[], l, rfl, fun b hb => by simp at hb, hla⟩
    · have hnext : nextAt h nil i (a :: l) = nextAt h nil i l := by
        simp only [nextAt, if_neg hla]
      rw [hnext]
      rcases ih with ⟨h1, h2⟩ | ⟨r1, r2, h1, h2, h3⟩
      · refine Or.inl ⟨h1, fun b hb => ?_⟩
        rcases List.mem_cons.mp hb with rfl | hb
        · exact Nat.le_of_not_lt hla
        · exact h2 b hb
      · refine Or.inr ⟨a :: r1, r2, by rw [List.cons_append, ← h1], fun b hb => ?_, h3⟩
        rcases List.mem_cons.mp hb with rfl | hb
        · exact Nat.le_of_not_lt hla
        · exact h2 b hb

/-- The successor on level `i` of a node of the list (head or live) with more than `i` links:
the tail when no live node with more than `i` links comes after it, otherwise the live node
with the smallest key among those that come after it and have more than `i` links. A live node
`m` comes after `n` when `n` is head or the key of `m` is above the key of `n`. -/
theorem forward_layer {s : SkipList} {as : List Addr} (inv : Inv s as) {i : Nat} {n : Addr}
    (hn : n ∈ s.head :: as) (hi : i < levelAt s.heap n) :
    ∃ y, fwdAt s.heap n i = some y ∧
      ((y = s.NIL ∧ ∀ m ∈ as, i < levelAt s.heap m →
          ¬ (n = s.head ∨ keyAt s.heap n < keyAt s.heap m)) ∨
        (y ∈ as ∧ i < levelAt s.heap y ∧ (n = s.head ∨ keyAt s.heap n < keyAt s.heap y) ∧
          ∀ m ∈ as, i < levelAt s.heap m → (n = s.head ∨ keyAt s.heap n < keyAt s.heap m) →
            keyAt s.heap y ≤ keyAt s.heap m)) := by
  obtain ⟨l1, r, hsplit⟩ := List.append_of_mem hn
  have hfwd : fwdAt s.heap n i = some (nextAt s.heap s.NIL i r) :=
    (LinkedL_split l1 (hsplit ▸ inv.linked)).1 i hi
  have hctx : (∀ m ∈ r, m ∈ as) ∧ (r.Pairwise fun a b => keyAt s.heap a < keyAt s.heap b) ∧
      (∀ m ∈ r, n = s.head ∨ keyAt s.heap n < keyAt s.heap m) ∧
      (∀ m ∈ as, m ∉ r → ¬ (n = s.head ∨ keyAt s.heap n < keyAt s.heap m)) := by
    cases l1 with
    | nil =>
      simp only [List.nil_append, List.cons.injEq] at hsplit
      obtain ⟨h1, h2⟩ := hsplit
      subst h2
      exact ⟨fun m hm => hm, inv.sorted, fun m _ => Or.inl h1.symm,
        fun m hm hmr => absurd hm hmr⟩
    | cons b l1 =>
      simp only [List.cons_append, List.cons.injEq] at hsplit
      obtain ⟨_, has⟩ := hsplit
      have hnas : n ∈ as := by rw [has]; simp
      have hne : n ≠ s.head := fun h => inv.head_not_mem (h ▸ hnas)
      have hsorted := inv.sorted
      rw [has, List.pairwise_append, List.pairwise_cons] at hsorted
      refine ⟨fun m hm => ?_, hsorted.2.1.2, fun m hm => Or.inr (hsorted.2.1.1 m hm),
        fun m hm hmr => ?_⟩
      · rw [has]; exact List.mem_append_right _ (List.mem_cons_of_mem _ hm)
      · rw [has] at hm
        rcases List.mem_append.mp hm with hm | hm
        · have := hsorted.2.2 m hm n (List.mem_cons_self _ _)
          rintro (h | h)
          · exact hne h
          · omega
        · rcases List.mem_cons.mp hm with rfl | hm
          · rintro (h | h)
            · exact hne h
            · omega
          · exact absurd hm hmr
  obtain ⟨hsub, hrs, hafter, hbefore⟩ := hctx
  have hfirst := nextAt_first s.heap s.NIL i r
  obtain ⟨y, hy0⟩ : ∃ y, y = nextAt s.heap s.NIL i r := ⟨_, rfl⟩
  rw [← hy0] at hfwd hfirst
  refine ⟨y, hfwd, ?_⟩
  rcases hfirst with ⟨h1, h2⟩ | ⟨r1, r2, h1, h2, h3⟩
  · refine Or.inl ⟨h1, fun m hm hlm => ?_⟩
    by_cases hmr : m ∈ r
    · exact absurd hlm (Nat.not_lt.mpr (h2 m hmr))
    · exact hbefore m hm hmr
  · have hy : y ∈ r := by
      rw [h1]; exact List.mem_append_right _ (List.mem_cons_self _ _)
    refine Or.inr ⟨hsub _ hy, h3, hafter _ hy, fun m hm hlm haft => ?_⟩
    by_cases hmr : m ∈ r
    · rw [h1, List.pairwise_append, List.pairwise_cons] at hrs
      rw [h1] at hmr
      rcases List.mem_append.mp hmr with hm1 | hm1
      · exact absurd hlm (Nat.not_lt.mpr (h2 m hm1))
      · rcases List.mem_cons.mp hm1 with rfl | hm1
        · exact le_refl _
        · exact le_of_lt (hrs.2.1.1 m hm1)
    · exact absurd haft (hbefore m hm hmr)

/-- Amended claim C13: in every state reached from the empty list by inserts and erases, with
any levels, the level-0 chain `live` holds the live nodes in strictly ascending key order, and
for every level `i < maxLevel`: the level-`i` chain from head is made of the live nodes with
more than `i` links, in the same order, and ends at the tail; the chain of level `i+1` is the
chain of level `i` restricted to the nodes with more than `i+1` links; and for every node `n`
(head or live) with more than `i` links, `n.forward[i]` is the tail when no live node with more
than `i` links comes after `n`, and otherwise the live node with the smallest key among those
that come after `n` and have more than `i` links. A live node comes after a live node `n` when
its key is greater than the key of `n`, and every live node comes after head (a live node can
carry head's key `INT_MIN`). -/
theorem layering_invariant (rnd : Nat → Bool) (c : Nat) (ops : List Op) :
    ∃ s live, run rnd ops (SkipList.new c) = .ok s ∧ levelChain s 0 = .ok live ∧
      (live.Pairwise fun a b => keyAt s.heap a < keyAt s.heap b) ∧
      ∀ i, i < maxLevel →
        levelChain s i = .ok (live.filter fun a => decide (i < levelAt s.heap a)) ∧
        (i + 1 < maxLevel → ∃ lower, levelChain s i = .ok lower ∧
          levelChain s (i + 1) = .ok (lower.filter fun a => decide (i + 1 < levelAt s.heap a))) ∧
        ∀ n, n = s.head ∨ n ∈ live → i < levelAt s.heap n →
          ∃ y, fwdAt s.heap n i = some y ∧
            ((y = s.NIL ∧ ∀ m ∈ live, i < levelAt s.heap m →
                ¬ (n = s.head ∨ keyAt s.heap n < keyAt s.heap m)) ∨
              (y ∈ live ∧ i < levelAt s.heap y ∧
                (n = s.head ∨ keyAt s.heap n < keyAt s.heap y) ∧
                ∀ m ∈ live, i < levelAt s.heap m →
                  (n = s.head ∨ keyAt s.heap n < keyAt s.heap m) →
                  keyAt s.heap y ≤ keyAt s.heap m)) := by
  obtain ⟨s, as, hrun, inv, _⟩ := run_new rnd c ops
  have h0 : levelChain s 0 = .ok as := by
    rw [levelChain_spec inv maxLevel_pos]
    congr 1
    rw [List.filter_eq_self]
    intro a ha
    simpa using inv.level_pos a ha
  refine ⟨s, as, hrun, h0, inv.sorted, fun i hi => ⟨levelChain_spec inv hi, fun hi1 => ?_,
    fun n hn hl => forward_layer inv (List.mem_cons.mpr hn) hl⟩⟩
  refine ⟨_, levelChain_spec inv hi, ?_⟩
  rw [levelChain_spec inv hi1, List.filter_filter]
  congr 1
  apply List.filter_congr
  intro a _
  by_cases h : i + 1 < levelAt s.heap a
  · have h' : i < levelAt s.heap a := by omega
    simp [h, h']
  · simp [h]

/-- Counterexample to claim C13: after `insert(INT_MIN, "z")` on the empty list the only live
node (address 2) carries the key of head, so no live node has a key greater than the key of
head; yet `head.forward[0]` is this live node and not the tail. -/
theorem layering_head_counterexample :
    run (fun _ => false) [Op.insert INT_MIN "z"] (SkipList.new 0) =
      .ok (stateAfter (fun _ => false) [Op.insert INT_MIN "z"]) ∧
    levelChain (stateAfter (fun _ => false) [Op.insert INT_MIN "z"]) 0 = .ok [2] ∧
    keyAt (stateAfter (fun _ => false) [Op.insert INT_MIN "z"]).heap 2 =
      keyAt (stateAfter (fun _ => false) [Op.insert INT_MIN "z"]).heap
        (stateAfter (fun _ => false) [Op.insert INT_MIN "z"]).head ∧
    0 < levelAt (stateAfter (fun _ => false) [Op.insert INT_MIN "z"]).heap
      (stateAfter (fun _ => false) [Op.insert INT_MIN "z"]).head ∧
    fwdAt (stateAfter (fun _ => false) [Op.insert INT_MIN "z"]).heap
      (stateAfter (fun _ => false) [Op.insert INT_MIN "z"]).head 0 = some 2 ∧
    (2 : Addr) ≠ (stateAfter (fun _ => false) [Op.insert INT_MIN "z"]).NIL :=
  ⟨rfl, rfl, rfl, by decide, rfl, by decide⟩

/-! ## The predecessors on the chains of the levels -/

theorem lastAbove_eq_getLast (h : Heap) (i : Nat) :
    ∀ (l : List Addr) (x : Addr),
      lastAbove h i x l = ((l.filter fun a => decide (i < levelAt h a)).getLast?).getD x := by
  intro l
  induction l with
  | nil => intro x; rfl
  | cons a l ih =>
    intro x
    by_cases hla : i < levelAt h a
    · rw [List.filter_cons_of_pos (by simpa using hla), List.getLast?_cons]
      simp only [lastAbove, if_pos hla, Option.getD_some]
      exact ih a
    · rw [List.filter_cons_of_neg (by simpa using hla)]
      simp only [lastAbove, if_neg hla]
      exact ih x

theorem nextAt_eq_head (h : Heap) (nil : Addr) (i : Nat) :
    ∀ l : List Addr,
      nextAt h nil i l = ((l.filter fun a => decide (i < levelAt h a)).head?).getD nil := by
  intro l
  induction l with
  | nil => rfl
  | cons a l ih =>
    by_cases hla : i < levelAt h a
    · rw [List.filter_cons_of_pos (by simpa using hla)]
      simp only [nextAt, if_pos hla, List.head?_cons, Option.getD_some]
    · rw [List.filter_cons_of_neg (by simpa using hla)]
      simp only [nextAt, if_neg hla]
      exact ih

/-- Claim C16: in every state reached from the empty list, for every `searchKey`,
`predecessors(searchKey)` returns a vector of length `maxLevel`, and for each level `i` the
level-`i` chain from head splits into the nodes `below` with keys less than `searchKey` and
the nodes `rest` with keys not less than it; `result[i]` is the last node of `below` (head when
`below` is empty), and `result[i].forward[i]` is the first node of `rest` (the tail when `rest`
is empty), whose key is at least `searchKey`. `lower_bound(searchKey)` is
`result[0].forward[0]`: the first node of the level-0 chain whose key is not less than
`searchKey`, the tail when there is none. -/
theorem predecessors_lower_bound_chain (rnd : Nat → Bool) (c : Nat) (ops : List Op)
    (searchKey : CInt) :
    ∃ s result, run rnd ops (SkipList.new c) = .ok s ∧
      predecessors s searchKey = .ok result ∧ result.length = maxLevel ∧
      (∀ i, i < maxLevel → ∃ p below rest y ny,
        result[i]? = some (some p) ∧ levelChain s i = .ok (below ++ rest) ∧
        (∀ a ∈ below, keyAt s.heap a < searchKey.val) ∧
        (∀ a ∈ rest, searchKey.val ≤ keyAt s.heap a) ∧
        p = (below.getLast?).getD s.head ∧
        fwdAt s.heap p i = some y ∧ y = (rest.head?).getD s.NIL ∧
        s.heap.read y = some ny ∧ searchKey.val ≤ ny.key.val) ∧
      ∃ p0 y0 below rest, result[0]? = some (some p0) ∧ fwdAt s.heap p0 0 = some y0 ∧
        lower_bound s searchKey = .ok (some y0) ∧ levelChain s 0 = .ok (below ++ rest) ∧
        (∀ a ∈ below, keyAt s.heap a < searchKey.val) ∧
        (∀ a ∈ rest, searchKey.val ≤ keyAt s.heap a) ∧ y0 = (rest.head?).getD s.NIL := by
  obtain ⟨s, as, hrun, inv, _⟩ := run_new rnd c ops
  obtain ⟨pre, post, has, sp⟩ := inv.split searchKey
  have hfuel : pre.length < s.heap.length := by
    have h1 := inv.length_lt
    have h2 : as.length = pre.length + post.length := by rw [has, List.length_append]
    omega
  obtain ⟨result, h1, h2, h3⟩ := predecessors_spec sp hfuel
  have hchain : ∀ i, i < maxLevel → levelChain s i =
      .ok ((pre.filter fun a => decide (i < levelAt s.heap a)) ++
        post.filter fun a => decide (i < levelAt s.heap a)) := by
    intro i hi
    rw [levelChain_spec inv hi, has, List.filter_append]
  have hbelow : ∀ i, ∀ a ∈ pre.filter (fun a => decide (i < levelAt s.heap a)),
      keyAt s.heap a < searchKey.val := fun i a ha => sp.pre_lt a (List.mem_of_mem_filter ha)
  have hrest : ∀ i, ∀ a ∈ post.filter (fun a => decide (i < levelAt s.heap a)),
      searchKey.val ≤ keyAt s.heap a := fun i a ha => sp.post_ge a (List.mem_of_mem_filter ha)
  refine ⟨s, result, hrun, h1, h2, fun i hi => ?_, ?_⟩
  · obtain ⟨ny, hny, hk⟩ := sp.stop_node i
    exact ⟨predAt s.heap s.head pre i, _, _, nextAt s.heap s.NIL i post, ny, h3 i hi,
      hchain i hi, hbelow i, hrest i, lastAbove_eq_getLast s.heap i pre s.head,
      sp.pred_fwd hi, nextAt_eq_head s.heap s.NIL i post, hny, hk⟩
  · exact ⟨predAt s.heap s.head pre 0, nextAt s.heap s.NIL 0 post, _, _, h3 0 maxLevel_pos,
      sp.pred_fwd maxLevel_pos, lower_bound_spec sp hfuel, hchain 0 maxLevel_pos, hbelow 0,
      hrest 0, nextAt_eq_head s.heap s.NIL 0 post⟩

/-! ## The level of a new node as a function of the draws -/


theorem randomLevelLoop_eq_min (rnd : Nat → Bool) :
    ∀ fuel v c n, 1 ≤ v → v ≤ maxLevel → maxLevel - v < fuel → maxLevel - v ≤ n →
      (randomLevelLoop rnd fuel v c).1 = min maxLevel (v + leadingSuccesses rnd c n) := by
  intro fuel
  induction fuel with
  | zero => intro v c n _ _ hf; omega
  | succ fuel ih =>
    intro v c n h1 h2 hf hn
    rw [randomLevelLoop]
    by_cases hc : (rnd c && decide (v < maxLevel)) = true
    · rw [if_pos hc]
      simp only [Bool.and_eq_true, decide_eq_true_eq] at hc
      obtain ⟨m, rfl⟩ : ∃ m, n = m + 1 := ⟨n - 1, by omega⟩
      rw [ih (v + 1) (c + 1) m (by omega) hc.2 (by omega) (by omega)]
      simp only [leadingSuccesses, hc.1, if_true]
      congr 1
      omega
    · rw [if_neg hc]
      simp only [Bool.and_eq_true, decide_eq_true_eq, not_and] at hc
      by_cases hr : rnd c = true
      · have hv : v = maxLevel := by have := hc hr; omega
        show v = min maxLevel (v + leadingSuccesses rnd c n)
        omega
      · have hz : leadingSuccesses rnd c n = 0 := by
          cases n with
          | zero => rfl
          | succ m => simp only [leadingSuccesses, hr, Bool.false_eq_true, if_false]
        show v = min maxLevel (v + leadingSuccesses rnd c n)
        rw [hz]
        omega

theorem leadingSuccesses_all (rnd : Nat → Bool) :
    ∀ n c, (∀ j, j < n → rnd (c + j) = true) → leadingSuccesses rnd c n = n := by
  intro n
  induction n with
  | zero => intro c _; rfl
  | succ n ih =>
    intro c h
    have h0 : rnd c = true := h 0 (Nat.succ_pos n)
    have h1 : leadingSuccesses rnd (c + 1) n = n :=
      ih (c + 1) fun j hj => by
        have := h (j + 1) (Nat.succ_lt_succ hj)
        rwa [Nat.add_assoc, Nat.add_comm 1 j]
    simp only [leadingSuccesses, h0, if_true, h1]
    omega

/-- Claim C17: with the random source as the sequence of draws `rnd` read from number `c` on,
`randomLevel` returns `min(maxLevel, 1 + the number of leading draws below probability)`, the
leading draws being counted among any `maxLevel - 1 + k` draws; its result is at least 1 and at
most `maxLevel`; it is `maxLevel` when the first `maxLevel - 1` draws all succeed; and after any
sequence of inserts and erases every node that `print` meets has a level between 1 and
`maxLevel`. -/
theorem randomLevel_eq_min (rnd : Nat → Bool) (c : Nat) (ops : List Op) :
    (∀ k, (randomLevel rnd c).1 =
      min maxLevel (1 + leadingSuccesses rnd c (maxLevel - 1 + k))) ∧
    (1 ≤ (randomLevel rnd c).1 ∧ (randomLevel rnd c).1 ≤ maxLevel) ∧
    ((∀ j, j < maxLevel - 1 → rnd (c + j) = true) → (randomLevel rnd c).1 = maxLevel) ∧
    ∃ s out, run rnd ops (SkipList.new c) = .ok s ∧ print s = .ok out ∧
      ∀ t ∈ out, 1 ≤ t.2.2 ∧ t.2.2 ≤ maxLevel := by
  have hmin : ∀ k, (randomLevel rnd c).1 =
      min maxLevel (1 + leadingSuccesses rnd c (maxLevel - 1 + k)) := fun k =>
    randomLevelLoop_eq_min rnd maxLevel 1 c (maxLevel - 1 + k) (Nat.le_refl 1) maxLevel_pos
      (by have : maxLevel = 16 := rfl; omega) (Nat.le_add_right _ _)
  refine ⟨hmin, randomLevel_bounds rnd c, fun hall => ?_, ?_⟩
  · rw [hmin 0, Nat.add_zero, leadingSuccesses_all rnd (maxLevel - 1) c hall]
    have : maxLevel = 16 := rfl
    omega
  · obtain ⟨s, as, hrun, inv, _⟩ := run_new rnd c ops
    obtain ⟨out, h1, _, h3⟩ := print_spec inv
    refine ⟨s, out, hrun, h1, fun t ht => ?_⟩
    have hmem : t.2.2 ∈ as.map (levelAt s.heap) := by
      rw [← h3]; exact List.mem_map.mpr ⟨t, ht, rfl⟩
    obtain ⟨a, ha, hat⟩ := List.mem_map.mp hmem
    rw [← hat]
    exact ⟨inv.level_pos a ha, inv.level_le a ha⟩

/-! ## Refinement of a finite map -/




theorem lookupKey_mErase_ne {k k' : Int} (hk : k ≠ k') {L : List (Int × String)}
    (hL : L.Pairwise fun p q => p.1 < q.1) :
    lookupKey k (mErase k' L) = lookupKey k L := by
  apply Option.ext
  intro v
  rw [Option.mem_def, Option.mem_def, lookupKey_eq_some_iff (mErase_sorted hL),
    lookupKey_eq_some_iff hL, mem_mErase]
  exact ⟨fun h => h.1, fun h => ⟨h, hk⟩⟩

theorem mStep_lookup {L : List (Int × String)} {m : RefMap}
    (hL : L.Pairwise fun p q => p.1 < q.1) (hm : ∀ k, lookupKey k L = m.lookup k) (op : Op) :
    ∀ k, lookupKey k (mStep L op) = (refStep m op).lookup k := by
  intro k
  cases op with
  | insert kk v =>
    by_cases hk : k = kk.val
    · subst hk
      exact (lookupKey_mInsert_same _ v L).trans (AList.lookup_insert m).symm
    · exact (lookupKey_mInsert_ne hk v hL).trans ((hm k).trans (AList.lookup_insert_ne hk).symm)
  | erase kk =>
    by_cases hk : k = kk.val
    · subst hk
      exact (lookupKey_mErase_same _ L).trans (AList.lookup_erase _ m).symm
    · exact (lookupKey_mErase_ne hk hL).trans ((hm k).trans (AList.lookup_erase_ne hk).symm)

theorem mRun_lookup : ∀ (ops : List Op) (L : List (Int × String)) (m : RefMap),
    (L.Pairwise fun p q => p.1 < q.1) → (∀ k, lookupKey k L = m.lookup k) →
    ∀ k, lookupKey k (mRun ops L) = (ops.foldl refStep m).lookup k := by
  intro ops
  induction ops with
  | nil => intro L m _ hm; exact hm
  | cons op ops ih =>
    intro L m hL hm
    exact ih (mStep L op) (refStep m op) (mStep_sorted hL op) (mStep_lookup hL hm op)

theorem mRun_refRun (ops : List Op) (k : Int) :
    lookupKey k (mRun ops []) = (refRun ops).lookup k :=
  mRun_lookup ops [] ∅ List.Pairwise.nil (fun k => by rw [AList.lookup_empty]; rfl) k

theorem mRun_length_refRun (ops : List Op) : (mRun ops []).length = (refRun ops).keys.length := by
  have hs : (mRun ops []).Pairwise fun p q => p.1 < q.1 := mRun_sorted ops List.Pairwise.nil
  have hnd : ((mRun ops []).map Prod.fst).Nodup := by
    rw [List.Nodup, List.pairwise_map]
    exact hs.imp fun h => ne_of_lt h
  have hperm : ((mRun ops []).map Prod.fst).Perm (refRun ops).keys := by
    rw [List.perm_ext_iff_of_nodup hnd (AList.keys_nodup _)]
    intro k
    rw [← lookupKey_isSome_iff, mRun_refRun, AList.lookup_isSome, AList.mem_keys]
  have := hperm.length_eq
  rwa [List.length_map] at this

/-- Claim C18: for every sequence of `insert` and `erase` calls on the empty list and every
key `k`, whatever the levels of the new nodes (the draws `rnd`, `rnd2` read from `c`, `c2`
on), `find(k)` is the lookup of `k` in the reference finite map built by the same calls
(insert sets, erase deletes) and `elementCount` is the number of keys of that map; so neither
depends on the levels. -/
theorem find_refines_finite_map (rnd rnd2 : Nat → Bool) (c c2 : Nat) (ops : List Op)
    (k : CInt) :
    ∃ s s2, run rnd ops (SkipList.new c) = .ok s ∧ run rnd2 ops (SkipList.new c2) = .ok s2 ∧
      find s k = .ok ((refRun ops).lookup k.val) ∧
      s.elementCount = (refRun ops).keys.length ∧
      find s2 k = find s k ∧ s2.elementCount = s.elementCount := by
  obtain ⟨s, as, hrun, inv, hc⟩ := run_new rnd c ops
  obtain ⟨s2, as2, hrun2, inv2, hc2⟩ := run_new rnd2 c2 ops
  have hf : ∀ {t : SkipList} {l : List Addr}, Inv t l → content t.heap l = mRun ops [] →
      find t k = .ok ((refRun ops).lookup k.val) ∧
        t.elementCount = (refRun ops).keys.length := by
    intro t l hinv hcont
    refine ⟨by rw [find_spec hinv, hcont, mRun_refRun], ?_⟩
    have hlen : l.length = (mRun ops []).length := by
      rw [← hcont]; simp [content]
    rw [hinv.count_eq, hlen, mRun_length_refRun]
  obtain ⟨h1, h2⟩ := hf inv hc
  obtain ⟨h3, h4⟩ := hf inv2 hc2
  exact ⟨s, s2, hrun, hrun2, h1, h2, h3.trans h1.symm, h4.trans h2.symm⟩

/-- Claim C19: in every state reached from the empty list and for every `searchKey`
(`INT_MAX` included), `lower_bound`, `predecessors` and `predecessorsIncrementCount` return
without a fault: their loops end within the fuel (they terminate), no null pointer is
dereferenced and every `forward[i]` is read at an index below the level of its node. The
forward links of the tail are null, so a walk that advanced onto the tail would dereference
null at its next test; the nodes at which the walks stop, `result[i]`, are not the tail and
have more than `i` links, and `lower_bound` returns a pointer to an allocated node. The last
part shows the inner loops started on the tail: they end in a null dereference. -/
theorem traversals_safe (rnd : Nat → Bool) (c : Nat) (ops : List Op) (searchKey : CInt) :
    ∃ s y result h1, run rnd ops (SkipList.new c) = .ok s ∧
      lower_bound s searchKey = .ok (some y) ∧ predecessors s searchKey = .ok result ∧
      predecessorsIncrementCount s searchKey = .ok (h1, result) ∧
      result.length = maxLevel ∧
      (∀ i, i < maxLevel → ∃ p, result[i]? = some (some p) ∧ p ≠ s.NIL ∧
        i < levelAt s.heap p) ∧
      (∀ i, fwdAt s.heap s.NIL i = none) ∧ (∃ ny, s.heap.read y = some ny) ∧
      (∀ i fuel, i < maxLevel →
        advance s.heap searchKey i (fuel + 1) s.NIL = .error .nullDeref ∧
        advanceInc searchKey i (fuel + 1) s.heap s.NIL = .error .nullDeref) := by
  obtain ⟨s, as, hrun, inv, _⟩ := run_new rnd c ops
  obtain ⟨pre, post, has, sp⟩ := inv.split searchKey
  have hfuel : pre.length < s.heap.length := by
    have h1 := inv.length_lt
    have h2 : as.length = pre.length + post.length := by rw [has, List.length_append]
    omega
  have htail : ∀ i fuel, i < maxLevel →
      advance s.heap searchKey i (fuel + 1) s.NIL = .error .nullDeref ∧
      advanceInc searchKey i (fuel + 1) s.heap s.NIL = .error .nullDeref := by
    intro i fuel hi
    have hget : (Node.new INT_MAX "NIL" maxLevel).forward[i]? = some none := by
      simp only [Node.new, List.getElem?_replicate, if_pos hi]
    constructor
    · simp only [advance, Heap.deref, inv.nil_node, ok_bind, Node.fwd, hget, error_bind]
    · simp only [advanceInc, Heap.deref, inv.nil_node, ok_bind, Node.fwd, hget, error_bind]
  obtain ⟨h1, result, hinc, hpreds, _⟩ := predecessorsIncrementCount_spec inv has sp
  obtain ⟨result', h2, h3, h4⟩ := predecessors_spec sp hfuel
  rw [hpreds] at h2
  have hrr : result = result' := Except.ok.inj h2
  subst hrr
  obtain ⟨ny, hny, _⟩ := sp.stop_node 0
  refine ⟨s, _, result, h1, hrun, lower_bound_spec sp hfuel, hpreds, hinc, h3,
    fun i hi => ⟨_, h4 i hi, ?_, sp.pred_level hi⟩, fun i => ?_, ⟨ny, hny⟩, htail⟩
  · intro hp
    have hmem := Split.pred_mem s.heap s.head pre i
    rw [hp] at hmem
    rcases List.mem_cons.mp hmem with h | h
    · exact inv.head_ne_nil h.symm
    · exact inv.nil_not_mem (by rw [has]; exact List.mem_append_left _ h)
  · rw [fwdAt_of_read inv.nil_node]
    simp only [Node.new]
    cases hget : (List.replicate maxLevel (none : Option Addr))[i]? with
    | none => rfl
    | some p =>
      obtain ⟨hlt, hp⟩ := List.getElem?_eq_some_iff.mp hget
      rw [List.getElem_replicate] at hp
      rw [← hp]

end SkipListVS
